import Mathlib

/-!
Verification of the svjif compiler core against its specification.

The TypeScript sources are shallowly embedded: JavaScript numbers are
modelled by `JsNum` (an inductive with NaN, ±Infinity and integer-valued
finite numbers — every numeric value exercised by the specification's
claims is integral, and IEEE-754 comparison/subtraction on such values is
exact), JSON-like runtime values by `JsValue`, and `Array.prototype.sort`
by a stable insertion sort (ECMAScript requires sorting to be stable; for
consistent comparators the stable sorted result is unique, so any stable
sort is a faithful model).
-/

namespace Svjif

/-- Model of a JavaScript `number` restricted to the values the claims
exercise: NaN, +Infinity, -Infinity and integer-valued finite doubles. -/
inductive JsNum where
  | nan
  | posInf
  | negInf
  | fin (v : Int)
deriving DecidableEq, Repr

namespace JsNum

/-- IEEE-754 subtraction `a - b` on the modelled values. -/
def sub : JsNum → JsNum → JsNum
  | nan, _ => nan
  | _, nan => nan
  | posInf, posInf => nan
  | posInf, negInf => posInf
  | posInf, fin _ => posInf
  | negInf, negInf => nan
  | negInf, posInf => negInf
  | negInf, fin _ => negInf
  | fin _, posInf => negInf
  | fin _, negInf => posInf
  | fin a, fin b => fin (a - b)

/-- JavaScript `a <= b` (IEEE comparison: any comparison with NaN is false). -/
def jsLe : JsNum → JsNum → Bool
  | nan, _ => false
  | _, nan => false
  | negInf, _ => true
  | _, negInf => false
  | _, posInf => true
  | posInf, _ => false
  | fin a, fin b => a ≤ b

/-- JavaScript strict inequality `a !== 0`: true for NaN and ±Infinity,
and for finite values different from 0. -/
def strictNeZero : JsNum → Bool
  | nan => true
  | posInf => true
  | negInf => true
  | fin v => v ≠ 0

/-- ECMAScript `SortCompare` coerces the comparator's result: a NaN result
counts as `+0`; otherwise only the sign matters. This maps a comparator
result to an `Int` with the same effect. -/
def toSortInt : JsNum → Int
  | nan => 0
  | posInf => 1
  | negInf => -1
  | fin v => v

/-- JavaScript `String(n)` for the modelled numbers. -/
def toJsString : JsNum → String
  | nan => "NaN"
  | posInf => "Infinity"
  | negInf => "-Infinity"
  | fin v => toString v

/-- A finite (non-NaN, non-infinite) number. -/
def isFinite : JsNum → Bool
  | fin _ => true
  | _ => false

end JsNum

/-- Lexicographic order on character lists, written as an executable
function (Lean's builtin `String.ltb` does not reduce in the kernel). -/
def charsLt : List Char → List Char → Bool
  | [], [] => false
  | [], _ :: _ => true
  | _ :: _, [] => false
  | c :: cs, d :: ds =>
      if c < d then true else if d < c then false else charsLt cs ds

/-- JavaScript string `a < b`: lexicographic comparison. (JS compares
UTF-16 code units, this model compares code points; the two orders agree
on all strings the compiler manipulates — they differ only when lone or
paired surrogates meet characters in `U+E000`–`U+FFFF`.) -/
def strLt (a b : String) : Bool :=
  charsLt a.data b.data

/-- Bytewise string comparator from `util/identifiers.ts` (`cmpStr`):
`a < b ? -1 : a > b ? 1 : 0`. -/
def cmpStr (a b : String) : Int :=
  if strLt a b then -1 else if strLt b a then 1 else 0

/-- Insert `x` into `l`, after every element `y` with `le y x` — the
insertion step of a stable insertion sort. -/
def insertLe {α : Type} (le : α → α → Bool) (x : α) : List α → List α
  | [] => [x]
  | y :: ys => if le y x then y :: insertLe le x ys else x :: y :: ys

/-- Stable sort modelling `Array.prototype.sort(cmp)` for a comparator
`cmp` with `le a b := cmp a b ≤ 0`. ECMAScript requires the sort to be
stable, which pins down the result whenever the comparator is consistent;
insertion sort is such a stable sort. -/
def sortJs {α : Type} (le : α → α → Bool) (l : List α) : List α :=
  l.foldl (fun acc x => insertLe le x acc) []

theorem insertLe_perm {α : Type} (le : α → α → Bool) (x : α) (l : List α) :
    List.Perm (insertLe le x l) (x :: l) := by
  induction l with
  | nil => simp [insertLe]
  | cons y ys ih =>
    by_cases h : le y x = true
    · simp only [insertLe, h, if_true]
      exact (ih.cons y).trans (List.Perm.swap x y ys)
    · simp [insertLe, h]

theorem sortJs_perm {α : Type} (le : α → α → Bool) (l : List α) :
    List.Perm (sortJs le l) l := by
  suffices h : ∀ (acc : List α),
      List.Perm (List.foldl (fun acc x => insertLe le x acc) acc l) (l ++ acc) by
    simpa using h []
  induction l with
  | nil => intro acc; simp
  | cons x xs ih =>
    intro acc
    simp only [List.foldl_cons]
    refine ((ih _).trans (List.Perm.append_left xs (insertLe_perm le x acc))).trans ?_
    exact List.perm_middle

theorem insertLe_sorted {α : Type} (le : α → α → Bool)
    (htot : ∀ a b, le a b = true ∨ le b a = true)
    (htrans : ∀ a b c, le a b = true → le b c = true → le a c = true)
    (x : α) (l : List α) (hl : l.Pairwise (fun a b => le a b = true)) :
    (insertLe le x l).Pairwise (fun a b => le a b = true) := by
  induction l with
  | nil => simp [insertLe]
  | cons y ys ih =>
    rcases List.pairwise_cons.mp hl with ⟨hy, hys⟩
    by_cases h : le y x = true
    · simp only [insertLe, h, if_true]
      refine List.pairwise_cons.mpr ⟨?_, ih hys⟩
      intro z hz
      rcases List.mem_cons.mp ((List.Perm.mem_iff (insertLe_perm le x ys)).mp hz)
        with rfl | hzys
      · exact h
      · exact hy z hzys
    · simp only [insertLe, h, if_false]
      refine List.pairwise_cons.mpr ⟨?_, hl⟩
      intro z hz
      have hxy : le x y = true := by
        rcases htot x y with h' | h'
        · exact h'
        · exact absurd h' h
      rcases List.mem_cons.mp hz with rfl | hzys
      · exact hxy
      · exact htrans x y z hxy (hy z hzys)

theorem sortJs_sorted {α : Type} (le : α → α → Bool)
    (htot : ∀ a b, le a b = true ∨ le b a = true)
    (htrans : ∀ a b c, le a b = true → le b c = true → le a c = true)
    (l : List α) :
    (sortJs le l).Pairwise (fun a b => le a b = true) := by
  suffices h : ∀ (acc : List α),
      acc.Pairwise (fun a b => le a b = true) →
      (List.foldl (fun acc x => insertLe le x acc) acc l).Pairwise
        (fun a b => le a b = true) by
    exact h [] (by simp)
  induction l with
  | nil => intro acc hacc; simpa using hacc
  | cons x xs ih =>
    intro acc hacc
    simp only [List.foldl_cons]
    exact ih _ (insertLe_sorted le htot htrans x acc hacc)

/-- Two sorted lists that are permutations of each other and whose
elements are pairwise distinguished by the order are equal. -/
theorem sorted_perm_eq {α : Type} (le : α → α → Bool) :
    ∀ (l₁ l₂ : List α), List.Perm l₁ l₂ →
    l₁.Pairwise (fun a b => le a b = true) →
    l₂.Pairwise (fun a b => le a b = true) →
    (∀ a ∈ l₁, ∀ b ∈ l₁, le a b = true → le b a = true → a = b) →
    l₁ = l₂
  | [], [], _, _, _, _ => rfl
  | [], b :: l₂, hperm, _, _, _ => absurd hperm.symm (by simp)
  | a :: l₁, [], hperm, _, _, _ => absurd hperm (by simp)
  | a :: l₁, b :: l₂, hperm, h₁, h₂, hanti => by
    rcases List.pairwise_cons.mp h₁ with ⟨ha, h₁'⟩
    rcases List.pairwise_cons.mp h₂ with ⟨hb, h₂'⟩
    have hab : a = b := by
      have hbmem : b ∈ a :: l₁ := (List.Perm.mem_iff hperm).mpr (by simp)
      rcases List.mem_cons.mp hbmem with rfl | hbl₁
      · rfl
      · have hamem : a ∈ b :: l₂ := (List.Perm.mem_iff hperm).mp (by simp)
        rcases List.mem_cons.mp hamem with rfl | hal₂
        · rfl
        · exact hanti a (by simp) b (by simp [hbl₁]) (ha b hbl₁) (hb a hal₂)
    subst hab
    have hperm' : List.Perm l₁ l₂ := (List.perm_cons a).mp hperm
    have heq : l₁ = l₂ := sorted_perm_eq le l₁ l₂ hperm' h₁' h₂'
      (fun x hx y hy => hanti x (by simp [hx]) y (by simp [hy]))
    rw [heq]

/-! ### JSON-like runtime values and `util/stableStringify.ts` -/

/-- A JavaScript runtime value as far as `stableStringify` can observe it:
JSON primitives, the three unrepresentable `typeof` classes
(`undefined`, `function`, `symbol`), `BigInt`, arrays and plain objects
(an object is a list of key/value properties in insertion order). -/
inductive JsValue where
  | vNull
  | vBool (b : Bool)
  | vNum (n : JsNum)
  | vStr (s : String)
  | vUndefined
  | vFunction
  | vSymbol
  | vBigInt (v : Int)
  | vArr (elems : List JsValue)
  | vObj (fields : List (String × JsValue))

/-- `typeof v` is `undefined`, `function` or `symbol` — the values JSON
semantics omits from objects and nulls out inside arrays. -/
def isUnrepresentable : JsValue → Bool
  | .vUndefined => true
  | .vFunction => true
  | .vSymbol => true
  | _ => false

/-- Key order used by `normalize` on objects:
`Object.keys(obj).sort((a, b) => (a < b ? -1 : a > b ? 1 : 0))`. -/
def fieldLe (a b : String × JsValue) : Bool :=
  cmpStr a.1 b.1 ≤ 0

mutual

/-- `normalize` from `util/stableStringify.ts`: primitives pass through,
root-level `undefined`/`function`/`symbol` become `null`, `BigInt` throws,
arrays keep their order with unrepresentable elements nulled, and objects
drop unrepresentable members and sort the remaining keys bytewise.

Cycle tracking (`seen`) needs no model: inductive values are finite trees.
`toJSON` conversions do not arise for the embedded value space. The source
sorts the keys first and then normalizes each member in sorted order; here
members are normalized in property order and the pairs sorted afterwards,
which is extensionally the same function because the only effect of
normalization is the `BigInt` error, whose message does not depend on
which member raised it. -/
def normalize : JsValue → Except String JsValue
  | .vNull => .ok .vNull
  | .vStr s => .ok (.vStr s)
  | .vNum n => .ok (.vNum n)
  | .vBool b => .ok (.vBool b)
  | .vUndefined => .ok .vNull
  | .vFunction => .ok .vNull
  | .vSymbol => .ok .vNull
  | .vBigInt _ => .error "Do not know how to serialize a BigInt"
  | .vArr elems => do
      let elems' ← normalizeArr elems
      pure (.vArr elems')
  | .vObj fields => do
      let fields' ← normalizeFields fields
      pure (.vObj (sortJs fieldLe fields'))

/-- Array elements of `normalize`: `undefined`/`function`/`symbol` become
`null`, everything else is normalized recursively. -/
def normalizeArr : List JsValue → Except String (List JsValue)
  | [] => .ok []
  | v :: rest =>
      if isUnrepresentable v then do
        let rest' ← normalizeArr rest
        pure (.vNull :: rest')
      else do
        let v' ← normalize v
        let rest' ← normalizeArr rest
        pure (v' :: rest')

/-- Object members of `normalize`: unrepresentable members are omitted,
the rest normalized recursively. -/
def normalizeFields :
    List (String × JsValue) → Except String (List (String × JsValue))
  | [] => .ok []
  | (k, v) :: rest =>
      if isUnrepresentable v then normalizeFields rest
      else do
        let v' ← normalize v
        let rest' ← normalizeFields rest
        pure ((k, v') :: rest')

end

/-- Lowercase hexadecimal digit. -/
def hexDigit (n : Nat) : Char :=
  if n < 10 then Char.ofNat (48 + n) else Char.ofNat (87 + n)

/-- Four lowercase hexadecimal digits, as in a JSON `\u` escape. -/
def hex4 (n : Nat) : String :=
  String.mk [hexDigit ((n / 4096) % 16), hexDigit ((n / 256) % 16),
    hexDigit ((n / 16) % 16), hexDigit (n % 16)]

/-- Escape of one character inside a JSON string literal, following
ECMAScript `QuoteJSONString`. -/
def escapeJsonChar (c : Char) : String :=
  if c = '"' then "\\\""
  else if c = '\\' then "\\\\"
  else if c.toNat = 8 then "\\b"
  else if c.toNat = 12 then "\\f"
  else if c = '\n' then "\\n"
  else if c.toNat = 13 then "\\r"
  else if c = '\t' then "\\t"
  else if c.toNat < 32 then "\\u" ++ hex4 c.toNat
  else String.singleton c

/-- ECMAScript `QuoteJSONString`. -/
def quoteJsonString (s : String) : String :=
  "\"" ++ String.join (s.data.map escapeJsonChar) ++ "\""

/-- Serialization of a number inside JSON text: finite numbers in decimal,
NaN and the infinities as `null`. -/
def jsNumToJson : JsNum → String
  | .fin v => toString v
  | _ => "null"

mutual

/-- ECMAScript `SerializeJSONProperty` for `JSON.stringify(v, null, space)`:
`none` means the property is undefined-valued and must be omitted (or
nulled inside an array). `gap` is the fixed indentation unit, `indent` the
indentation accumulated so far. `BigInt` cannot reach this function: it is
only applied to `normalize` output. -/
def serializeJson (gap indent : String) : JsValue → Option String
  | .vNull => some "null"
  | .vBool b => some (if b then "true" else "false")
  | .vNum n => some (jsNumToJson n)
  | .vStr s => some (quoteJsonString s)
  | .vUndefined => none
  | .vFunction => none
  | .vSymbol => none
  | .vBigInt _ => none
  | .vArr elems =>
      let indent' := indent ++ gap
      let items := serializeArrItems gap indent' elems
      some (if items.isEmpty then "[]"
        else if gap.isEmpty then "[" ++ String.intercalate "," items ++ "]"
        else "[\n" ++ indent' ++
          String.intercalate (",\n" ++ indent') items ++
          "\n" ++ indent ++ "]")
  | .vObj fields =>
      let indent' := indent ++ gap
      let items := serializeObjItems gap indent' fields
      some (if items.isEmpty then "\x7b\x7d"
        else if gap.isEmpty then
          "\x7b" ++ String.intercalate "," items ++ "\x7d"
        else "\x7b\n" ++ indent' ++
          String.intercalate (",\n" ++ indent') items ++
          "\n" ++ indent ++ "\x7d")

/-- Array elements for `serializeJson`; an undefined-valued element
serializes as `null`. -/
def serializeArrItems (gap indent' : String) : List JsValue → List String
  | [] => []
  | v :: rest =>
      (match serializeJson gap indent' v with
        | some s => s
        | none => "null") :: serializeArrItems gap indent' rest

/-- Object members for `serializeJson`; undefined-valued members are
omitted. A member line is `quoted-key : value` (the space after the colon
appears only when a gap is in effect). -/
def serializeObjItems (gap indent' : String) :
    List (String × JsValue) → List String
  | [] => []
  | (k, v) :: rest =>
      match serializeJson gap indent' v with
      | some s =>
          (quoteJsonString k ++ (if gap.isEmpty then ":" else ": ") ++ s)
            :: serializeObjItems gap indent' rest
      | none => serializeObjItems gap indent' rest

end

/-- Options record of `stableStringify` (`{ space?: number | string }`,
with only numeric spaces in use). -/
def gapOfSpace : Option Nat → String
  | none => ""
  | some k => String.mk (List.replicate (min k 10) ' ')

/-- `stableStringify` from `util/stableStringify.ts`:
`JSON.stringify(normalize(value, seen), null, options.space)`. The
`TypeError`s the source throws (BigInt) surface as `Except.error`. The
root-level `undefined` case of `JSON.stringify` is unreachable because
`normalize` maps root `undefined`/`function`/`symbol` to `null`. -/
def stableStringify (v : JsValue) (space : Option Nat := none) :
    Except String String := do
  let n ← normalize v
  match serializeJson (gapOfSpace space) "" n with
  | some s => pure s
  | none => pure "undefined"


/-! ### Canonical AST data model (`types/ast.ts`)

`CanonicalSceneAst.kind` and `astVersion` are the literal types `'Scene'`
and `'1'`; being constants they are not carried as fields. `Node.kind` is
carried as a `String`: the validator receives ASTs cast from parsed JSON
and explicitly checks membership in the seven known kinds. Optional
TypeScript members are `Option` fields — an absent member and a
JSON-unrepresentable `undefined` member serialize identically. -/

structure SourceRef where
  file : String
  line : JsNum
  column : JsNum
deriving DecidableEq

structure SceneData where
  id : String
  name : Option String := none
  width : JsNum
  height : JsNum
  units : Option String := none
  background : Option String := none

structure SceneNode where
  id : String
  kind : String
  parentId : Option String := none
  zIndex : Option JsNum := none
  visible : Option Bool := none
  locked : Option Bool := none
  props : List (String × JsValue) := []
  style : Option (List (String × JsValue)) := none
  sourceRef : Option SourceRef := none

structure Binding where
  id : String
  targetNodeId : String
  targetProp : String
  expression : String
  when : Option String := none

structure Keyframe where
  t : JsNum
  value : JsValue

structure Animation where
  id : String
  targetNodeId : String
  property : String
  keyframes : List Keyframe
  easing : Option String := none
  loop : Option Bool := none

structure AstMetadata where
  sourceFormat : String
  sourceHash : Option String := none
  tags : Option (List String) := none

structure CanonicalSceneAst where
  scene : SceneData
  nodes : List SceneNode
  bindings : Option (List Binding) := none
  animations : Option (List Animation) := none
  metadata : Option AstMetadata := none

/-- An optional member of a runtime object: present key or no key. -/
def optField (k : String) : Option JsValue → List (String × JsValue)
  | none => []
  | some v => [(k, v)]

def SceneData.toJs (s : SceneData) : JsValue :=
  .vObj ([("id", .vStr s.id)]
    ++ optField "name" (s.name.map .vStr)
    ++ [("width", .vNum s.width), ("height", .vNum s.height)]
    ++ optField "units" (s.units.map .vStr)
    ++ optField "background" (s.background.map .vStr))

def SourceRef.toJs (r : SourceRef) : JsValue :=
  .vObj [("file", .vStr r.file), ("line", .vNum r.line),
    ("column", .vNum r.column)]

def SceneNode.toJs (n : SceneNode) : JsValue :=
  .vObj ([("id", .vStr n.id), ("kind", .vStr n.kind)]
    ++ optField "parentId" (n.parentId.map .vStr)
    ++ optField "zIndex" (n.zIndex.map .vNum)
    ++ optField "visible" (n.visible.map .vBool)
    ++ optField "locked" (n.locked.map .vBool)
    ++ [("props", .vObj n.props)]
    ++ optField "style" (n.style.map .vObj)
    ++ optField "sourceRef" (n.sourceRef.map SourceRef.toJs))

def Binding.toJs (b : Binding) : JsValue :=
  .vObj ([("id", .vStr b.id), ("targetNodeId", .vStr b.targetNodeId),
    ("targetProp", .vStr b.targetProp), ("expression", .vStr b.expression)]
    ++ optField "when" (b.when.map .vStr))

def Keyframe.toJs (k : Keyframe) : JsValue :=
  .vObj [("t", .vNum k.t), ("value", k.value)]

def Animation.toJs (a : Animation) : JsValue :=
  .vObj ([("id", .vStr a.id), ("targetNodeId", .vStr a.targetNodeId),
    ("property", .vStr a.property),
    ("keyframes", .vArr (a.keyframes.map Keyframe.toJs))]
    ++ optField "easing" (a.easing.map .vStr)
    ++ optField "loop" (a.loop.map .vBool))

/-! ### Deterministic IR emitter (`compile/emitIr.ts`) -/

def COMPARATOR_VERSION : String := "1"
def IR_VERSION : String := "svjif-ir/1"
def IR_ARTIFACT_KEY : String := "scene.svjif.json"
def IR_RECEIPT_KEY : String := "scene.svjif.json.receipt"
def IR_HASH_ALG : String := "sha256"

/-- `normalizeZIndex`: `z ?? 0`. -/
def normalizeZIndex (z : Option JsNum) : JsNum :=
  z.getD (.fin 0)

/-- The comparator passed to `Array.prototype.sort` by `sortReady`, with
the `SortCompare` coercion folded in (a NaN comparator result counts as
`+0`): `zIndex` difference first (when strictly nonzero), then `kind`,
then `id`, the latter two via `cmpStr`. -/
def cmpNodes (a b : SceneNode) : Int :=
  let zDiff := JsNum.sub (normalizeZIndex a.zIndex) (normalizeZIndex b.zIndex)
  if JsNum.strictNeZero zDiff then JsNum.toSortInt zDiff
  else
    let kindCmp := cmpStr a.kind b.kind
    if kindCmp ≠ 0 then kindCmp else cmpStr a.id b.id

def nodeLe (a b : SceneNode) : Bool :=
  cmpNodes a b ≤ 0

/-- `sortReady`: stable sort by the tie-break comparator. -/
def sortReady (l : List SceneNode) : List SceneNode :=
  sortJs nodeLe l

/-- `sanitize`: strips `sourceRef` (and `__typename`, which the embedded
structure does not carry) from a node. -/
def sanitize (n : SceneNode) : SceneNode :=
  { n with sourceRef := none }

def nodeIds (nodes : List SceneNode) : List String :=
  nodes.map (·.id)

/-- The `children` adjacency map of `topoSort`/`detectCycles`: every node
id is a key; a node occurrence is appended under its `parentId` exactly
when that parent id exists among the node ids. Entries appear in input
order, matching the source's push order. -/
def childrenOf (nodes : List SceneNode) (pid : String) : List SceneNode :=
  if pid ∈ nodeIds nodes then
    nodes.filter (fun n => n.parentId = some pid)
  else []

/-- The `inDegree` map after the construction loops: each node occurrence
with a `parentId` that exists among the node ids contributes 1 to the
in-degree of its own id; every other id sits at 0. -/
def buildInDegree (nodes : List SceneNode) : String → Int :=
  nodes.foldl
    (fun deg n =>
      match n.parentId with
      | some p =>
          if p ∈ nodeIds nodes then
            fun x => if x = n.id then deg n.id + 1 else deg x
          else deg
      | none => deg)
    (fun _ => 0)

/-- One dequeue's child pass (`for (const child of children.get(...))`):
decrement each child's in-degree in entry order and collect, in that same
order, the children whose in-degree reaches exactly 0. -/
def kahnStep {α : Type} (keyF : α → String) (deg : String → Int) :
    List α → ((String → Int) × List α)
  | [] => (deg, [])
  | c :: rest =>
      let nd := deg (keyF c) - 1
      let deg' := fun x => if x = keyF c then nd else deg x
      let s := kahnStep keyF deg' rest
      (s.1, (if nd = 0 then [c] else []) ++ s.2)

/-- The driver loop shared by `topoSort` and `detectCycles`: a queue
consumed through an index pointer (modelled as the unprocessed suffix),
per-id in-degrees, and an accumulator of processed entries. `merge`
places the newly-ready entries into the unprocessed suffix (`topoSort`
re-sorts, `detectCycles` appends). The fuel argument only bounds the
recursion; every use supplies fuel exceeding the loop's total iteration
count (see `kahnRun_pending_empty`). Returns (processed, final degrees,
unprocessed suffix — empty whenever the fuel sufficed). -/
def kahnRun {α : Type} (keyF : α → String) (childrenF : String → List α)
    (merge : List α → List α → List α) :
    Nat → List α → (String → Int) → List α →
    (List α × (String → Int) × List α)
  | 0, pending, deg, acc => (acc, deg, pending)
  | _ + 1, [], deg, acc => (acc, deg, [])
  | fuel + 1, x :: rest, deg, acc =>
      let s := kahnStep keyF deg (childrenF (keyF x))
      let pending' := if s.2.isEmpty then rest else merge rest s.2
      kahnRun keyF childrenF merge fuel pending' s.1 (acc ++ [x])

/-- `topoSort`'s queue insertion: sort the newly-ready batch, append it to
the unprocessed tail, and re-sort the tail. -/
def topoMerge (rest newly : List SceneNode) : List SceneNode :=
  sortReady (rest ++ sortReady newly)

def degSumPos (deg : String → Int) (ids : List String) : Nat :=
  (ids.map (fun x => (deg x).toNat)).sum

/-- Keys of a map in insertion order (first occurrence wins), as iterated
by `for (const [k, v] of map)`. -/
def insertionKeys : List String → List String
  | [] => []
  | x :: rest => x :: (insertionKeys rest).filter (· ≠ x)

/-- Fuel exceeding the number of loop iterations of either Kahn loop:
every iteration removes one queue entry, and entries enter the queue at
most `initial queue length + positive in-degree mass` times. -/
def kahnFuel (nodes : List SceneNode) : Nat :=
  nodes.length +
    degSumPos (buildInDegree nodes) (insertionKeys (nodeIds nodes)) + 1

/-- `topoSort` before sanitization: Kahn's algorithm over the `parentId`
DAG with the tie-break order on the ready queue, cycle leftovers appended
(also tie-break-sorted). -/
def topoSortNodes (ast : CanonicalSceneAst) : List SceneNode :=
  let nodes := ast.nodes
  if nodes.isEmpty then []
  else
    let deg0 := buildInDegree nodes
    let ready0 := sortReady (nodes.filter (fun n => deg0 n.id = 0))
    let r := kahnRun SceneNode.id (childrenOf nodes) topoMerge
      (kahnFuel nodes) ready0 deg0 []
    let remaining := sortReady (nodes.filter (fun n => 0 < r.2.1 n.id))
    r.1 ++ remaining

/-- `topoSort` from `compile/emitIr.ts`. The source sanitizes each node as
it is appended; sanitizing the final list is the same function. -/
def topoSort (ast : CanonicalSceneAst) : List SceneNode :=
  (topoSortNodes ast).map sanitize

/-- The IR document object built by `emitSvjifIrArtifact`. -/
def irJsValue (ast : CanonicalSceneAst) : JsValue :=
  .vObj [("irVersion", .vStr IR_VERSION),
    ("scene", ast.scene.toJs),
    ("nodes", .vArr ((topoSort ast).map SceneNode.toJs)),
    ("bindings", .vArr ((ast.bindings.getD []).map Binding.toJs)),
    ("animations", .vArr ((ast.animations.getD []).map Animation.toJs))]

structure Artifact where
  path : String
  content : String
  mediaType : Option String := none
  encoding : Option String := none
deriving DecidableEq

/-- `emitSvjifIrArtifact`: topological sort, then `stableStringify` with
2-space indentation. A `stableStringify` `TypeError` (BigInt inside
`props`) propagates as `Except.error`. -/
def emitSvjifIrArtifact (ast : CanonicalSceneAst) : Except String Artifact := do
  let c ← stableStringify (irJsValue ast) (some 2)
  pure { path := IR_ARTIFACT_KEY, content := c,
         mediaType := some "application/json", encoding := some "utf8" }

/-! ### Diagnostics and error codes -/

inductive Severity where
  | error
  | warning
  | info
deriving DecidableEq, Repr

structure SourceLocation where
  file : String
  line : Nat
  column : Nat
  endLine : Option Nat := none
  endColumn : Option Nat := none
deriving DecidableEq

/-- `Diagnostic` from `types/diagnostics.ts`. The `details` payload is a
string-keyed record; every `details` object the embedded code builds has
string values, so it is modelled as a string/string association list. -/
structure Diagnostic where
  code : String
  severity : Severity
  message : String
  location : Option SourceLocation := none
  hint : Option String := none
  details : Option (List (String × String)) := none
deriving DecidableEq

/- Modelled from the spec: `errors/codes.ts` is not among the provided
sources; the code constants below are reconstructed from the spec's
error-code taxonomy, with the `SVJIF_` value prefix documented in
`types/diagnostics.ts` and the changelog. Only the identity and
distinctness of the codes matter to the claims. -/
namespace SVJifErrorCode

def E_SCENE_DIMENSIONS_INVALID : String := "SVJIF_E_SCENE_DIMENSIONS_INVALID"
def E_NODE_KIND_INVALID : String := "SVJIF_E_NODE_KIND_INVALID"
def E_NODE_DUPLICATE_ID : String := "SVJIF_E_NODE_DUPLICATE_ID"
def E_PARENT_NOT_FOUND : String := "SVJIF_E_PARENT_NOT_FOUND"
def E_BIND_TARGET_NOT_FOUND : String := "SVJIF_E_BIND_TARGET_NOT_FOUND"
def E_REF_TARGET_NOT_FOUND : String := "SVJIF_E_REF_TARGET_NOT_FOUND"
def E_CYCLE_DETECTED : String := "SVJIF_E_CYCLE_DETECTED"
def E_PROP_REQUIRED_MISSING : String := "SVJIF_E_PROP_REQUIRED_MISSING"
def E_FEATURE_NOT_IMPLEMENTED : String := "SVJIF_E_FEATURE_NOT_IMPLEMENTED"
def E_INTERNAL_INVARIANT : String := "SVJIF_E_INTERNAL_INVARIANT"
def W_BINARY_PACK_NOT_IMPLEMENTED : String := "SVJIF_W_BINARY_PACK_NOT_IMPLEMENTED"

end SVJifErrorCode

/-! ### Canonical AST validator (`compile/validateAst.ts`) -/

def VALID_NODE_KINDS : List String :=
  ["Rect", "Text", "Image", "Group", "Line", "Ellipse", "Path"]

/-- `REQUIRED_PROPS`: required prop names per kind (`Group` and unknown
kinds have no entry). -/
def REQUIRED_PROPS : String → Option (List String)
  | "Rect" => some ["width", "height"]
  | "Text" => some ["content"]
  | "Image" => some ["src"]
  | "Ellipse" => some ["rx", "ry"]
  | "Line" => some ["x2", "y2"]
  | "Path" => some ["d"]
  | _ => none

def VALIDATION_RULE_IDS : List String :=
  ["sceneDimensions", "nodeKindValid", "duplicateId", "danglingRef",
   "cycleDetection", "requiredProps"]

/-- Check 1 (`sceneDimensions`): `width <= 0 || height <= 0` under IEEE
comparison semantics — NaN and +Infinity make both comparisons false. -/
def sceneDimensionsDiags (ast : CanonicalSceneAst) : List Diagnostic :=
  if JsNum.jsLe ast.scene.width (.fin 0) || JsNum.jsLe ast.scene.height (.fin 0) then
    [{ code := SVJifErrorCode.E_SCENE_DIMENSIONS_INVALID,
       severity := .error,
       message := "Scene width/height must be > 0 (got width=" ++
         ast.scene.width.toJsString ++ ", height=" ++
         ast.scene.height.toJsString ++ ")" }]
  else []

/-- Check 2 (`nodeKindValid`). -/
def nodeKindDiags (nodes : List SceneNode) : List Diagnostic :=
  nodes.flatMap (fun n =>
    if VALID_NODE_KINDS.contains n.kind then []
    else
      [{ code := SVJifErrorCode.E_NODE_KIND_INVALID,
         severity := .error,
         message := "Unknown node kind \"" ++ n.kind ++ "\" on node \"" ++
           n.id ++ "\"",
         details := some [("nodeId", n.id), ("kind", n.kind)] }])

/-- Check 3 (`duplicateId`): one diagnostic per repeat occurrence after
the first, tracked through a growing id set. -/
def dupDiagsAux (seen : List String) : List SceneNode → List Diagnostic
  | [] => []
  | n :: rest =>
      (if n.id ∈ seen then
        [{ code := SVJifErrorCode.E_NODE_DUPLICATE_ID,
           severity := .error,
           message := "Duplicate node id \"" ++ n.id ++ "\"",
           details := some [("nodeId", n.id)] }]
      else []) ++ dupDiagsAux (n.id :: seen) rest

def dupDiags (nodes : List SceneNode) : List Diagnostic :=
  dupDiagsAux [] nodes

/-- Check 4 (`danglingRef`) for `parentId`, `Binding.targetNodeId` and
`Animation.targetNodeId`. -/
def danglingDiags (ast : CanonicalSceneAst) : List Diagnostic :=
  (ast.nodes.flatMap (fun n =>
    match n.parentId with
    | some p =>
        if p ∈ nodeIds ast.nodes then []
        else
          [{ code := SVJifErrorCode.E_PARENT_NOT_FOUND,
             severity := .error,
             message := "Node \"" ++ n.id ++ "\" has parentId \"" ++ p ++
               "\" which does not exist",
             details := some [("nodeId", n.id), ("parentId", p)] }]
    | none => []))
  ++ ((ast.bindings.getD []).flatMap (fun b =>
    if b.targetNodeId ∈ nodeIds ast.nodes then []
    else
      [{ code := SVJifErrorCode.E_BIND_TARGET_NOT_FOUND,
         severity := .error,
         message := "Binding \"" ++ b.id ++
           "\" references non-existent node \"" ++ b.targetNodeId ++ "\"",
         details := some [("bindingId", b.id),
           ("targetNodeId", b.targetNodeId)] }]))
  ++ ((ast.animations.getD []).flatMap (fun a =>
    if a.targetNodeId ∈ nodeIds ast.nodes then []
    else
      [{ code := SVJifErrorCode.E_REF_TARGET_NOT_FOUND,
         severity := .error,
         message := "Animation \"" ++ a.id ++
           "\" references non-existent node \"" ++ a.targetNodeId ++ "\"",
         details := some [("refKind", "animation"), ("animationId", a.id),
           ("targetNodeId", a.targetNodeId)] }]))

/-- `detectCycles`: iterative Kahn's algorithm over the id-level
`parentId` graph, sharing the in-degree construction with `topoSort` (the
two source loops build the same map). Returns the ids never dequeued —
but only after the `processed === nodes.length` shortcut. -/
def detectCycles (ast : CanonicalSceneAst) : List String :=
  let nodes := ast.nodes
  let ids := insertionKeys (nodeIds nodes)
  let deg0 := buildInDegree nodes
  let childIdsF : String → List String := fun p =>
    if p ∈ nodeIds nodes then
      (nodes.filter (fun n => n.parentId = some p)).map (·.id)
    else []
  let queue0 := ids.filter (fun id => deg0 id = 0)
  let r := kahnRun (fun s => s) childIdsF (fun rest newly => rest ++ newly)
    (kahnFuel nodes) queue0 deg0 []
  if r.1.length = nodes.length then []
  else ids.filter (fun id => 0 < r.2.1 id)

/-- Check 5 (`cycleDetection`). -/
def cycleDiags (ast : CanonicalSceneAst) : List Diagnostic :=
  (detectCycles ast).map (fun nodeId =>
    { code := SVJifErrorCode.E_CYCLE_DETECTED,
      severity := .error,
      message := "Cycle detected involving node \"" ++ nodeId ++ "\"",
      details := some [("nodeId", nodeId)] })

/-- JS member access `node.props[prop]` (object keys are unique; the
association list lookup takes the first match). -/
def lookupProp (props : List (String × JsValue)) (p : String) : Option JsValue :=
  (props.find? (fun f => f.1 = p)).map (·.2)

/-- `!(prop in node.props) || node.props[prop] === undefined ||
node.props[prop] === null`. -/
def propMissing (props : List (String × JsValue)) (p : String) : Bool :=
  match lookupProp props p with
  | none => true
  | some .vUndefined => true
  | some .vNull => true
  | some _ => false

/-- Check 6 (`requiredProps`), Tier 2. -/
def requiredPropsDiags (nodes : List SceneNode) : List Diagnostic :=
  nodes.flatMap (fun n =>
    match REQUIRED_PROPS n.kind with
    | none => []
    | some req =>
        req.flatMap (fun p =>
          if propMissing n.props p then
            [{ code := SVJifErrorCode.E_PROP_REQUIRED_MISSING,
               severity := .error,
               message := "Node \"" ++ n.id ++ "\" (kind=" ++ n.kind ++
                 ") is missing required prop \"" ++ p ++ "\"",
               details := some [("nodeId", n.id), ("kind", n.kind),
                 ("prop", p)] }]
          else []))

/-- The Tier-1 (structural) diagnostics of `validateCanonicalAst`, in
source push order. -/
def tier1Diags (ast : CanonicalSceneAst) : List Diagnostic :=
  sceneDimensionsDiags ast ++ nodeKindDiags ast.nodes ++ dupDiags ast.nodes
    ++ danglingDiags ast ++ cycleDiags ast

/-- `validateCanonicalAst` from `compile/validateAst.ts`: an absent AST
yields no diagnostics; Tier 2 runs only when Tier 1 collected no
error-severity diagnostic. (The unused `_options` parameter is omitted.) -/
def validateCanonicalAst (ast? : Option CanonicalSceneAst) : List Diagnostic :=
  match ast? with
  | none => []
  | some ast =>
      let d1 := tier1Diags ast
      if d1.any (fun d => d.severity = Severity.error) then d1
      else d1 ++ requiredPropsDiags ast.nodes

/-! ### Identifier synthesis (`util/identifiers.ts`) -/

/-- The collision-resolution pass of `buildIdentifierMap`: walk the
indices sorted bytewise by source value; the first source producing an
identifier keeps it bare, later ones get `__2`, `__3`, … in that sorted
order. Returns the per-index identifier assignment. -/
def assignIdentifiers (toIdent : String → String) (sources : List String) :
    Nat → String :=
  let idxLe : Nat → Nat → Bool := fun a b =>
    cmpStr (sources.getD a "") (sources.getD b "") ≤ 0
  let sortedIndices := sortJs idxLe (List.range sources.length)
  (sortedIndices.foldl
    (fun (st : (String → Nat) × (Nat → String)) idx =>
      let src := sources.getD idx ""
      let ident := toIdent src
      let count := st.1 ident
      let used' := fun x => if x = ident then count + 1 else st.1 x
      let ident' :=
        if 0 < count then ident ++ "__" ++ toString (count + 1) else ident
      (used', fun i => if i = idx then ident' else st.2 i))
    ((fun _ => 0), (fun _ => ""))).2

/-- `buildIdentifierMap` from `util/identifiers.ts` (the revision with the
duplicate-source guard). `toIdent` stands for
`(src) => toTypeIdentifier(src, opts)` — identifier synthesis itself rests
on platform primitives (`String.prototype.normalize(\u0027NFKC\u0027)` and
regular expressions) and no claim depends on the produced identifier
text. The duplicate check models `new Set(sources).size !==
sources.length`; the thrown `Error` is the `Except.error`. Collision
counting walks the indices sorted bytewise by source value; the returned
map is keyed by original source in input order. -/
def buildIdentifierMap (toIdent : String → String) (sources : List String) :
    Except String (List (String × String)) :=
  if sources.dedup.length ≠ sources.length then
    .error "buildIdentifierMap: duplicate source strings are not supported"
  else
    .ok (sources.enum.map (fun p => (p.2, assignIdentifiers toIdent sources p.1)))

/-! ### Compile orchestrator (`compile/compile.ts`, current revision) -/

structure EmitFlagsPartial where
  irJson : Option Bool := none
  tsTypes : Option Bool := none
  jsonSchema : Option Bool := none
  binaryPack : Option Bool := none

structure CompileOptionsPartial where
  target : Option String := none
  emit : Option EmitFlagsPartial := none
  strict : Option Bool := none
  failOnWarnings : Option Bool := none
  canonicalize : Option Bool := none

structure EmitFlags where
  irJson : Bool
  tsTypes : Bool
  jsonSchema : Bool
  binaryPack : Bool

structure CompileOptions where
  target : String
  emit : EmitFlags
  strict : Bool
  failOnWarnings : Bool
  canonicalize : Bool

def DEFAULT_OPTIONS : CompileOptions :=
  { target := "svjif-ir-v1",
    emit :=
      { irJson := true, tsTypes := true, jsonSchema := false,
        binaryPack := false },
    strict := true, failOnWarnings := false, canonicalize := true }

structure CompilerInput where
  format : String
  source : String
  filename : Option String := none
  options : Option CompileOptionsPartial := none

/-! ### Receipt emission (`compile/emitIr.ts`) -/

/-- `emitReceiptArtifact`. `hashFn` stands for `hashString` from
`canonical/hashing.ts` — a lowercase-hex SHA-256 via `node:crypto`, a
platform primitive treated as an injected pure function. `ruleIds` is
sorted with the default (bytewise) array sort and joined by newline for
the ruleset fingerprint. -/
def emitReceiptArtifact (hashFn : String → String) (input : CompilerInput)
    (irContent : String) (ruleIds : List String) : Except String Artifact := do
  let inputHash := hashFn input.source
  let irHash := hashFn irContent
  let rulesetFingerprint := hashFn (String.intercalate "\n"
    (sortJs (fun a b => cmpStr a b ≤ 0) ruleIds))
  let c ← stableStringify (.vObj
    [("comparatorVersion", .vStr COMPARATOR_VERSION),
     ("inputHash", .vStr inputHash),
     ("irHash", .vStr irHash),
     ("irHashAlg", .vStr IR_HASH_ALG),
     ("irVersion", .vStr IR_VERSION),
     ("rulesetFingerprint", .vStr rulesetFingerprint)]) (some 2)
  pure { path := IR_RECEIPT_KEY, content := c,
         mediaType := some "application/json", encoding := some "utf8" }


/-- `mergeOptions`: spread of the caller's partial options over the
defaults, with the `emit` block merged per flag. -/
def mergeOptions (base : CompileOptions) :
    Option CompileOptionsPartial → CompileOptions
  | none => base
  | some p =>
      { target := p.target.getD base.target,
        emit :=
          match p.emit with
          | none => base.emit
          | some e =>
              { irJson := e.irJson.getD base.emit.irJson,
                tsTypes := e.tsTypes.getD base.emit.tsTypes,
                jsonSchema := e.jsonSchema.getD base.emit.jsonSchema,
                binaryPack := e.binaryPack.getD base.emit.binaryPack },
        strict := p.strict.getD base.strict,
        failOnWarnings := p.failOnWarnings.getD base.failOnWarnings,
        canonicalize := p.canonicalize.getD base.canonicalize }

def COMPILER_VERSION : String := "0.1.0-dev"
def HASH_ALGORITHM : String := "sha256"

structure CompileMetadata where
  compilerVersion : String
  irVersion : Option String := none
  inputFormat : String
  elapsedMs : Nat
  hashAlgorithm : Option String := none

structure CompileResult where
  ok : Bool
  ast : Option CanonicalSceneAst := none
  artifacts : List (String × Artifact)
  diagnostics : List Diagnostic
  metadata : CompileMetadata

/-- `finalize`: assembles the result record. Wall-clock timing
(`Date.now`) is not modelled; `elapsedMs` is fixed at 0. -/
def finalize (ok : Bool) (ast : Option CanonicalSceneAst)
    (artifacts : List (String × Artifact)) (diagnostics : List Diagnostic)
    (inputFormat : String) : CompileResult :=
  { ok := ok, ast := ast, artifacts := artifacts, diagnostics := diagnostics,
    metadata :=
      { compilerVersion := COMPILER_VERSION,
        irVersion :=
          if (artifacts.find? (fun kv => kv.1 = IR_ARTIFACT_KEY)).isSome then
            some IR_VERSION
          else none,
        inputFormat := inputFormat, elapsedMs := 0,
        hashAlgorithm := some HASH_ALGORITHM } }

/-- The injected collaborators of `compile`. `parsePhase` stands for
`parseInputToCanonicalAst` together with whatever adapter dependencies it
was given: it returns the diagnostics it pushed plus the parsed AST (or
`none`), or `.error` for a thrown exception, carrying the diagnostics
pushed before the throw. `emitTypesPhase` stands for `emitTypesArtifact`
(whose implementation is outside the provided sources; only its
orchestration matters here); `hashFn` as in `emitReceiptArtifact`. -/
structure CompileDeps where
  hashFn : String → String
  parsePhase : CompilerInput →
    Except (String × List Diagnostic) (List Diagnostic × Option CanonicalSceneAst)
  emitTypesPhase : CanonicalSceneAst → Except String Artifact

/-- The diagnostic produced by the top-level catch of `compile`:
`new InternalCompilerError(\u0027Unhandled compiler failure\u0027, ...)
.toDiagnostic()`. The wrapped cause lives on the error object, not on the
diagnostic. -/
def internalFailureDiag (input : CompilerInput) : Diagnostic :=
  { code := SVJifErrorCode.E_INTERNAL_INVARIANT,
    severity := .error,
    message := "Unhandled compiler failure",
    details := some ([("format", input.format)] ++
      (match input.filename with
       | some f => [("filename", f)]
       | none => [])) }

def jsonSchemaRejectedDiag : Diagnostic :=
  { code := SVJifErrorCode.E_FEATURE_NOT_IMPLEMENTED,
    severity := .error,
    message := "emit.jsonSchema is not yet implemented. Remove jsonSchema: true from emit options.",
    details := some [("feature", "jsonSchema")] }

def binaryPackDiag : Diagnostic :=
  { code := SVJifErrorCode.W_BINARY_PACK_NOT_IMPLEMENTED,
    severity := .warning,
    message := "binaryPack requested but not implemented yet" }

/-- The body of `compile`'s `try` block: parse, validate, stop on errors,
reject `jsonSchema`, emit IR + receipt + types, warn on `binaryPack`,
apply `failOnWarnings`. An `.error` is an exception escaping the `try`
block, paired with the diagnostics pushed and the artifact-map entries
assigned before it: `artifacts[IR_ARTIFACT_KEY]` is assigned before
`emitReceiptArtifact` runs, and both IR entries before `emitTypesArtifact`
runs, so a receipt failure escapes with the IR entry and a types failure
with both. -/
def compileBody (deps : CompileDeps) (input : CompilerInput) :
    Except (String × List Diagnostic × List (String × Artifact))
      CompileResult := do
  let options := mergeOptions DEFAULT_OPTIONS input.options
  let parsed ←
    match deps.parsePhase input with
    | .ok p => pure p
    | .error pe => throw (pe.1, pe.2, ([] : List (String × Artifact)))
  let canonicalAst := parsed.2
  let diags1 := parsed.1 ++ validateCanonicalAst canonicalAst
  if diags1.any (fun d => d.severity = Severity.error) then
    pure (finalize false canonicalAst [] diags1 input.format)
  else if options.emit.jsonSchema then
    pure (finalize false canonicalAst [] (diags1 ++ [jsonSchemaRejectedDiag])
      input.format)
  else do
    let arts1 ←
      match options.emit.irJson, canonicalAst with
      | true, some ast =>
          match emitSvjifIrArtifact ast with
          | .ok irArt =>
              match emitReceiptArtifact deps.hashFn input irArt.content
                  VALIDATION_RULE_IDS with
              | .ok receiptArt =>
                  pure [(IR_ARTIFACT_KEY, irArt), (IR_RECEIPT_KEY, receiptArt)]
              | .error e => throw (e, diags1, [(IR_ARTIFACT_KEY, irArt)])
          | .error e => throw (e, diags1, [])
      | _, _ => pure []
    let arts2 ←
      match options.emit.tsTypes, canonicalAst with
      | true, some ast =>
          match deps.emitTypesPhase ast with
          | .ok t => pure (arts1 ++ [("types.ts", t)])
          | .error e => throw (e, diags1, arts1)
      | _, _ => pure arts1
    let diags2 := if options.emit.binaryPack then diags1 ++ [binaryPackDiag]
      else diags1
    if options.failOnWarnings ∧
        diags2.any (fun d => d.severity = Severity.warning) then
      pure (finalize false canonicalAst arts2 diags2 input.format)
    else
      pure (finalize true canonicalAst arts2 diags2 input.format)

/-- `compile` from `compile/compile.ts`: the `try`/`catch` orchestrator.
It is a total function — every exception from the body is converted into
the single internal-invariant diagnostic and an `ok := false` result. The
catch passes the accumulated `artifacts` map to `finalize` (the source
closes over the mutable map), so artifacts assigned before the fault —
and the `metadata.irVersion` derived from them — survive. -/
def compile (deps : CompileDeps) (input : CompilerInput) : CompileResult :=
  match compileBody deps input with
  | .ok r => r
  | .error es =>
      finalize false none es.2.2 (es.2.1 ++ [internalFailureDiag input])
        input.format


/-! ### Kahn-loop invariants, in-degree counting, and duplicate-id
counting — the lemma layer behind the cycle-detection and ordering
claims -/


def countKey {α : Type} (keyF : α → String) (l : List α) (x : String) : Nat :=
  (l.filter (fun c => keyF c = x)).length

theorem kahnStep_deg {α : Type} (keyF : α → String) :
    ∀ (chs : List α) (deg : String → Int) (x : String),
      (kahnStep keyF deg chs).1 x = deg x - countKey keyF chs x := by
  intro chs
  induction chs with
  | nil => intro deg x; simp [kahnStep, countKey]
  | cons c rest ih =>
    intro deg x
    simp only [kahnStep]
    rw [ih]
    by_cases hx : x = keyF c
    · subst hx
      simp [countKey]
      omega
    · have hne : ¬ keyF c = x := fun h => hx (Eq.symm h)
      simp [countKey, hx, hne]

theorem kahnStep_newly_sub {α : Type} (keyF : α → String) :
    ∀ (chs : List α) (deg : String → Int),
      ∀ c ∈ (kahnStep keyF deg chs).2, c ∈ chs := by
  intro chs
  induction chs with
  | nil => intro deg c hc; simp [kahnStep] at hc
  | cons d rest ih =>
    intro deg c hc
    simp only [kahnStep, List.mem_append] at hc
    rcases hc with hc | hc
    · split at hc <;> simp_all
    · exact List.mem_cons_of_mem d (ih _ c hc)

theorem kahnStep_deg_le {α : Type} (keyF : α → String)
    (chs : List α) (deg : String → Int) (x : String) :
    (kahnStep keyF deg chs).1 x ≤ deg x := by
  rw [kahnStep_deg]
  omega

theorem kahnStep_cross {α : Type} (keyF : α → String) :
    ∀ (chs : List α) (deg : String → Int) (x : String),
      0 < deg x → (kahnStep keyF deg chs).1 x ≤ 0 →
      x ∈ (kahnStep keyF deg chs).2.map keyF := by
  intro chs
  induction chs with
  | nil =>
    intro deg x h1 h2
    simp only [kahnStep] at h2
    exact absurd h2 (not_le.mpr h1)
  | cons c rest ih =>
    intro deg x h1 h2
    simp only [kahnStep] at h2 ⊢
    by_cases hx : x = keyF c
    · subst hx
      by_cases hnd : deg (keyF c) - 1 = 0
      · simp [hnd]
      · have hpos : 0 < deg (keyF c) - 1 := by omega
        have hfin : (kahnStep keyF
            (fun y => if y = keyF c then deg (keyF c) - 1 else deg y)
            rest).1 (keyF c) ≤ 0 := h2
        have := ih (fun y => if y = keyF c then deg (keyF c) - 1 else deg y)
          (keyF c) (by simpa using hpos) hfin
        simp only [List.map_append, List.mem_append]
        exact Or.inr this
    · have hpos : 0 < (fun y => if y = keyF c then deg (keyF c) - 1 else deg y) x := by
        simp [hx, h1]
      have := ih (fun y => if y = keyF c then deg (keyF c) - 1 else deg y)
        x hpos h2
      simp only [List.map_append, List.mem_append]
      exact Or.inr this

theorem kahnStep_newly_key_nonpos {α : Type} (keyF : α → String) :
    ∀ (chs : List α) (deg : String → Int),
      ∀ c ∈ (kahnStep keyF deg chs).2, (kahnStep keyF deg chs).1 (keyF c) ≤ 0 := by
  intro chs
  induction chs with
  | nil => intro deg c hc; simp [kahnStep] at hc
  | cons d rest ih =>
    intro deg c hc
    simp only [kahnStep, List.mem_append] at hc
    rcases hc with hc | hc
    · by_cases hnd : deg (keyF d) - 1 = 0
      · simp only [hnd, if_true, List.mem_singleton] at hc
        subst hc
        show (kahnStep keyF
          (fun y => if y = keyF c then deg (keyF c) - 1 else deg y) rest).1
            (keyF c) ≤ 0
        have hle2 : (kahnStep keyF
            (fun y => if y = keyF c then deg (keyF c) - 1 else deg y) rest).1
              (keyF c) ≤ deg (keyF c) - 1 := by
          simpa using kahnStep_deg_le keyF rest
            (fun y => if y = keyF c then deg (keyF c) - 1 else deg y) (keyF c)
        omega
      · simp [hnd] at hc
    · show (kahnStep keyF
        (fun y => if y = keyF d then deg (keyF d) - 1 else deg y) rest).1
          (keyF c) ≤ 0
      exact ih _ c hc

theorem degSumPos_update (ids : List String) (hids : ids.Nodup)
    (k : String) (hk : k ∈ ids) (deg : String → Int) :
    degSumPos (fun x => if x = k then deg k - 1 else deg x) ids +
      (deg k).toNat = degSumPos deg ids + (deg k - 1).toNat := by
  induction ids with
  | nil => simp at hk
  | cons i rest ih =>
    rcases List.nodup_cons.mp hids with ⟨hni, hrest⟩
    unfold degSumPos at *
    simp only [List.map_cons, List.sum_cons]
    rcases List.mem_cons.mp hk with rfl | hkrest
    · simp only [if_pos rfl, if_true]
      have hrestmap : rest.map (fun x => ((if x = k then deg k - 1 else deg x)).toNat)
          = rest.map (fun x => (deg x).toNat) := by
        apply List.map_congr_left
        intro x hx
        have hxk : ¬ x = k := fun hc => hni (hc ▸ hx)
        rw [if_neg hxk]
      rw [hrestmap]
      omega
    · have hik : ¬ i = k := fun hc => hni (by rw [hc]; exact hkrest)
      rw [if_neg hik]
      have hrec : (rest.map (fun x => ((if x = k then deg k - 1 else deg x)).toNat)).sum
          + (deg k).toNat = (rest.map (fun x => (deg x).toNat)).sum + (deg k - 1).toNat := by
        simpa [degSumPos] using ih hrest hkrest
      omega

theorem kahnStep_sum_le {α : Type} (keyF : α → String)
    (ids : List String) (hids : ids.Nodup) :
    ∀ (chs : List α) (deg : String → Int), (∀ c ∈ chs, keyF c ∈ ids) →
      degSumPos (kahnStep keyF deg chs).1 ids +
        (kahnStep keyF deg chs).2.length ≤ degSumPos deg ids := by
  intro chs
  induction chs with
  | nil => intro deg _; simp [kahnStep]
  | cons c rest ih =>
    intro deg hmem
    have hkc : keyF c ∈ ids := hmem c (by simp)
    have hupd := degSumPos_update ids hids (keyF c) hkc deg
    simp only [kahnStep]
    have hrec := ih (fun y => if y = keyF c then deg (keyF c) - 1 else deg y)
      (fun d hd => hmem d (by simp [hd]))
    by_cases hnd : deg (keyF c) - 1 = 0
    · rw [if_pos hnd]
      simp only [List.singleton_append, List.length_cons]
      omega
    · rw [if_neg hnd]
      simp only [List.nil_append]
      omega

theorem kahnStep_newly_key_pos {α : Type} (keyF : α → String) :
    ∀ (chs : List α) (deg : String → Int),
      ∀ c ∈ (kahnStep keyF deg chs).2, 1 ≤ deg (keyF c) := by
  intro chs
  induction chs with
  | nil => intro deg c hc; simp [kahnStep] at hc
  | cons d rest ih =>
    intro deg c hc
    simp only [kahnStep, List.mem_append] at hc
    rcases hc with hc | hc
    · by_cases hnd : deg (keyF d) - 1 = 0
      · simp only [hnd, if_true, List.mem_singleton] at hc
        subst hc
        omega
      · simp [hnd] at hc
    · have := ih (fun y => if y = keyF d then deg (keyF d) - 1 else deg y) c hc
      by_cases hcd : keyF c = keyF d
      · rw [hcd] at this ⊢
        simp only [if_pos rfl] at this
        omega
      · simpa [hcd] using this

theorem kahnStep_newly_keys_nodup {α : Type} (keyF : α → String) :
    ∀ (chs : List α) (deg : String → Int),
      ((kahnStep keyF deg chs).2.map keyF).Nodup := by
  intro chs
  induction chs with
  | nil => intro deg; simp [kahnStep]
  | cons d rest ih =>
    intro deg
    simp only [kahnStep, List.map_append]
    by_cases hnd : deg (keyF d) - 1 = 0
    · rw [if_pos hnd]
      simp only [List.map_cons, List.map_nil, List.singleton_append]
      refine List.nodup_cons.mpr ⟨fun hmem => ?_, ih _⟩
      rcases List.mem_map.mp hmem with ⟨c, hc, hkey⟩
      have hp := kahnStep_newly_key_pos keyF rest
        (fun y => if y = keyF d then deg (keyF d) - 1 else deg y) c hc
      rw [hkey] at hp
      simp only [if_pos rfl, if_true] at hp
      omega
    · rw [if_neg hnd]
      simp only [List.map_nil, List.nil_append]
      exact ih _

def edgeSum {α : Type} (keyF : α → String) (childrenF : String → List α)
    (acc : List α) (u : String) : Int :=
  (acc.map (fun x => (countKey keyF (childrenF (keyF x)) u : Int))).sum

theorem edgeSum_append {α : Type} (keyF : α → String)
    (childrenF : String → List α) (acc : List α) (x : α) (u : String) :
    edgeSum keyF childrenF (acc ++ [x]) u =
      edgeSum keyF childrenF acc u + (countKey keyF (childrenF (keyF x)) u : Int) := by
  simp [edgeSum]

def KahnEndInv {α : Type} (keyF : α → String) (childrenF : String → List α)
    (ids : List String) (d0 : String → Int) (acc : List α)
    (res : List α × (String → Int) × List α) : Prop :=
  res.2.2 = [] ∧
  (∃ tl, res.1 = acc ++ tl) ∧
  (res.1.map keyF).Nodup ∧
  (∀ x ∈ res.1, keyF x ∈ ids) ∧
  (∀ u ∈ ids, u ∉ res.1.map keyF → 0 < res.2.1 u) ∧
  (∀ x ∈ res.1, res.2.1 (keyF x) ≤ 0) ∧
  (∀ u, res.2.1 u = d0 u - edgeSum keyF childrenF res.1 u)

theorem kahnRun_invariants {α : Type} (keyF : α → String)
    (childrenF : String → List α) (merge : List α → List α → List α)
    (hmerge : ∀ r n, List.Perm (merge r n) (r ++ n))
    (ids : List String) (hids : ids.Nodup)
    (hchild : ∀ p, ∀ c ∈ childrenF p, keyF c ∈ ids)
    (d0 : String → Int) :
    ∀ (fuel : Nat) (pending acc : List α) (deg : String → Int),
      pending.length + degSumPos deg ids < fuel →
      ((acc ++ pending).map keyF).Nodup →
      (∀ x ∈ acc ++ pending, keyF x ∈ ids) →
      (∀ u ∈ ids, u ∉ (acc ++ pending).map keyF → 0 < deg u) →
      (∀ x ∈ acc ++ pending, deg (keyF x) ≤ 0) →
      (∀ u, deg u = d0 u - edgeSum keyF childrenF acc u) →
      KahnEndInv keyF childrenF ids d0 acc
        (kahnRun keyF childrenF merge fuel pending deg acc) := by
  intro fuel
  induction fuel with
  | zero =>
    intro pending acc deg hfuel
    exact absurd hfuel (by omega)
  | succ fuel ih =>
    intro pending acc deg hfuel hnodup hmem hpos hnonpos hacct
    cases pending with
    | nil =>
      show KahnEndInv keyF childrenF ids d0 acc (acc, deg, [])
      refine ⟨rfl, ⟨[], by simp⟩, ?_, ?_, ?_, ?_, hacct⟩
      · simpa using hnodup
      · intro x hx; exact hmem x (by simpa using hx)
      · intro u hu hnu
        exact hpos u hu (by simpa using hnu)
      · intro x hx; exact hnonpos x (by simpa using hx)
    | cons x rest =>
      -- one loop iteration
      set chs := childrenF (keyF x) with hchs
      set s := kahnStep keyF deg chs with hs
      have hrunstep : kahnRun keyF childrenF merge (fuel + 1) (x :: rest) deg acc
          = kahnRun keyF childrenF merge fuel
            (if s.2.isEmpty then rest else merge rest s.2) s.1 (acc ++ [x]) := rfl
      rw [hrunstep]
      set pending' := if s.2.isEmpty then rest else merge rest s.2 with hpend
      have hperm' : List.Perm pending' (rest ++ s.2) := by
        rw [hpend]
        by_cases hne : s.2.isEmpty
        · rw [if_pos hne, List.isEmpty_iff.mp hne]
          simp
        · rw [if_neg hne]
          exact hmerge rest s.2
      have hsub2 : ∀ c ∈ s.2, c ∈ chs := fun c hc =>
        kahnStep_newly_sub keyF chs deg c hc
      have hdegle : ∀ u, s.1 u ≤ deg u := fun u => kahnStep_deg_le keyF chs deg u
      -- keys of the old queue are nonpositive, keys of the new batch positive
      have holdkeys : ∀ z ∈ acc ++ x :: rest, deg (keyF z) ≤ 0 := hnonpos
      have hnewpos : ∀ c ∈ s.2, 1 ≤ deg (keyF c) := fun c hc =>
        kahnStep_newly_key_pos keyF chs deg c hc
      have hdisj : ∀ c ∈ s.2, keyF c ∉ (acc ++ x :: rest).map keyF := by
        intro c hc hmemk
        rcases List.mem_map.mp hmemk with ⟨z, hz, hkz⟩
        have h1 := holdkeys z hz
        have h2 := hnewpos c hc
        rw [hkz] at h1
        omega
      -- new state invariants
      have hnodup' : (((acc ++ [x]) ++ pending').map keyF).Nodup := by
        have hp : List.Perm (((acc ++ [x]) ++ pending').map keyF)
            (((acc ++ x :: rest) ++ s.2).map keyF) := by
          apply List.Perm.map
          refine List.Perm.trans (List.Perm.append_left (acc ++ [x]) hperm') ?_
          simp
        apply (List.Perm.nodup_iff hp).mpr
        rw [List.map_append]
        apply List.nodup_append.mpr
        refine ⟨hnodup, kahnStep_newly_keys_nodup keyF chs deg, ?_⟩
        intro k hk1 hk2
        rcases List.mem_map.mp hk2 with ⟨c, hc, hkc⟩
        exact hdisj c hc (hkc ▸ hk1)
      have hmem' : ∀ z ∈ (acc ++ [x]) ++ pending', keyF z ∈ ids := by
        intro z hz
        rcases List.mem_append.mp hz with hz | hz
        · rcases List.mem_append.mp hz with hz | hz
          · exact hmem z (by simp [hz])
          · simp only [List.mem_singleton] at hz
            exact hmem z (by simp [hz])
        · rcases List.mem_append.mp (hperm'.mem_iff.mp hz) with hz | hz
          · exact hmem z (by simp [hz])
          · exact hchild (keyF x) z (hsub2 z hz)
      have hpos' : ∀ u ∈ ids, u ∉ ((acc ++ [x]) ++ pending').map keyF → 0 < s.1 u := by
        intro u hu hnu
        have hnold : u ∉ (acc ++ x :: rest).map keyF := by
          intro hc
          apply hnu
          rcases List.mem_map.mp hc with ⟨z, hz, hkz⟩
          apply List.mem_map.mpr
          refine ⟨z, ?_, hkz⟩
          rcases List.mem_append.mp hz with hz | hz
          · exact List.mem_append.mpr (Or.inl (List.mem_append.mpr (Or.inl hz)))
          · rcases List.mem_cons.mp hz with rfl | hz
            · exact List.mem_append.mpr (Or.inl (List.mem_append.mpr (Or.inr (by simp))))
            · exact List.mem_append.mpr (Or.inr (hperm'.mem_iff.mpr
                (List.mem_append.mpr (Or.inl hz))))
        have hdpos : 0 < deg u := hpos u hu hnold
        by_contra hle
        push_neg at hle
        have hcross := kahnStep_cross keyF chs deg u hdpos hle
        rcases List.mem_map.mp hcross with ⟨c, hc, hkc⟩
        apply hnu
        apply List.mem_map.mpr
        exact ⟨c, List.mem_append.mpr (Or.inr (hperm'.mem_iff.mpr
          (List.mem_append.mpr (Or.inr hc)))), hkc⟩
      have hnonpos' : ∀ z ∈ (acc ++ [x]) ++ pending', s.1 (keyF z) ≤ 0 := by
        intro z hz
        rcases List.mem_append.mp hz with hz | hz
        · rcases List.mem_append.mp hz with hz | hz
          · exact le_trans (hdegle _) (hnonpos z (by simp [hz]))
          · simp only [List.mem_singleton] at hz
            subst hz
            exact le_trans (hdegle _) (hnonpos z (by simp))
        · rcases List.mem_append.mp (hperm'.mem_iff.mp hz) with hz | hz
          · exact le_trans (hdegle _) (hnonpos z (by simp [hz]))
          · exact kahnStep_newly_key_nonpos keyF chs deg z hz
      have hacct' : ∀ u, s.1 u = d0 u - edgeSum keyF childrenF (acc ++ [x]) u := by
        intro u
        rw [hs, kahnStep_deg keyF chs deg u, hacct u, edgeSum_append, ← hchs]
        omega
      have hfuel' : pending'.length + degSumPos s.1 ids < fuel := by
        have hlen : pending'.length = rest.length + s.2.length := by
          rw [hperm'.length_eq, List.length_append]
        have hsum := kahnStep_sum_le keyF ids hids chs deg
          (fun c hc => hchild (keyF x) c hc)
        simp only [List.length_cons] at hfuel
        rw [← hs] at hsum
        omega
      have hend := ih pending' (acc ++ [x]) s.1 hfuel' hnodup' hmem' hpos'
        hnonpos' hacct'
      -- repackage: the accumulated prefix is still an extension of acc
      rcases hend with ⟨h1, ⟨tl, htl⟩, h3, h4, h5, h6, h7⟩
      exact ⟨h1, ⟨[x] ++ tl, by rw [htl]; simp⟩, h3, h4, h5, h6, h7⟩

theorem insertionKeys_mem (l : List String) (a : String) :
    a ∈ insertionKeys l ↔ a ∈ l := by
  induction l with
  | nil => simp [insertionKeys]
  | cons x rest ih =>
    simp only [insertionKeys, List.mem_cons, List.mem_filter]
    constructor
    · rintro (rfl | ⟨h1, _⟩)
      · exact Or.inl rfl
      · exact Or.inr (ih.mp h1)
    · rintro (rfl | h)
      · exact Or.inl rfl
      · by_cases hx : a = x
        · exact Or.inl hx
        · exact Or.inr ⟨ih.mpr h, by simpa using hx⟩

theorem insertionKeys_nodup (l : List String) : (insertionKeys l).Nodup := by
  induction l with
  | nil => simp [insertionKeys]
  | cons x rest ih =>
    simp only [insertionKeys]
    refine List.Nodup.cons ?_ (List.Nodup.filter _ ih)
    intro hx
    rcases List.mem_filter.mp hx with ⟨_, hne⟩
    simp at hne

theorem insertionKeys_length_le (l : List String) :
    (insertionKeys l).length ≤ l.length := by
  induction l with
  | nil => simp [insertionKeys]
  | cons x rest ih =>
    simp only [insertionKeys, List.length_cons]
    have := List.length_filter_le (· ≠ x) (insertionKeys rest)
    omega

theorem filter_length_lt_of_mem {α : Type} (p : α → Bool) (l : List α) (a : α)
    (ha : a ∈ l) (hpa : ¬ p a = true) : (l.filter p).length < l.length := by
  induction l with
  | nil => cases ha
  | cons x rest ih =>
    rcases List.mem_cons.mp ha with rfl | ha
    · have hle := List.length_filter_le p rest
      simp only [List.filter_cons, if_neg hpa, List.length_cons]
      omega
    · by_cases hpx : p x = true
      · simp only [List.filter_cons, if_pos hpx, List.length_cons]
        have := ih ha
        omega
      · simp only [List.filter_cons, if_neg hpx, List.length_cons]
        have := ih ha
        omega

theorem insertionKeys_length_lt (l : List String) (h : ¬ l.Nodup) :
    (insertionKeys l).length < l.length := by
  induction l with
  | nil => exact absurd List.nodup_nil h
  | cons x rest ih =>
    simp only [insertionKeys, List.length_cons]
    by_cases hx : x ∈ rest
    · have hlt := filter_length_lt_of_mem (· ≠ x) (insertionKeys rest) x
        ((insertionKeys_mem rest x).mpr hx) (by simp)
      have hle := insertionKeys_length_le rest
      omega
    · have hrest : ¬ rest.Nodup := fun hn => h (List.nodup_cons.mpr ⟨hx, hn⟩)
      have h1 := ih hrest
      have h2 := List.length_filter_le (· ≠ x) (insertionKeys rest)
      omega

theorem buildInDegree_foldl {P : String → Prop} [DecidablePred P]
    (l : List SceneNode) (deg : String → Int) (u : String) :
    (l.foldl
      (fun deg n =>
        match n.parentId with
        | some p =>
            if P p then (fun x => if x = n.id then deg n.id + 1 else deg x)
            else deg
        | none => deg) deg) u
    = deg u + (l.countP (fun n =>
        decide (n.id = u) &&
        match n.parentId with
        | some p => decide (P p)
        | none => false) : Int) := by
  induction l generalizing deg with
  | nil => simp
  | cons n rest ih =>
    simp only [List.foldl_cons, List.countP_cons]
    cases hpid : n.parentId with
    | none =>
      rw [ih]
      simp [hpid]
    | some p =>
      show List.foldl
          (fun deg n =>
            match n.parentId with
            | some q =>
                if P q then fun x => if x = n.id then deg n.id + 1 else deg x
                else deg
            | none => deg)
          (if P p then (fun x => if x = n.id then deg n.id + 1 else deg x)
           else deg)
          rest u
        = deg u + ((rest.countP (fun n =>
            decide (n.id = u) &&
            match n.parentId with
            | some q => decide (P q)
            | none => false)
            + if (decide (n.id = u) && decide (P p)) = true then 1 else 0 : Nat) : Int)
      by_cases hP : P p
      · rw [if_pos hP, ih]
        by_cases hid : u = n.id
        · rw [if_pos hid, hid]
          simp only [decide_True, hP, decide_eq_true_eq, Bool.and_true, if_true]
          push_cast
          ring
        · rw [if_neg hid]
          have hid2 : ¬ (n.id = u) := fun hc => hid hc.symm
          simp [hid2]
      · rw [if_neg hP, ih]
        simp [hP]

theorem buildInDegree_spec (nodes : List SceneNode) (u : String) :
    buildInDegree nodes u
      = (nodes.countP (fun n =>
          decide (n.id = u) &&
          match n.parentId with
          | some p => decide (p ∈ nodeIds nodes)
          | none => false) : Int) := by
  have h := buildInDegree_foldl (P := fun p => p ∈ nodeIds nodes) nodes
    (fun _ => 0) u
  simpa [buildInDegree] using h

theorem buildInDegree_nonneg (nodes : List SceneNode) (u : String) :
    0 ≤ buildInDegree nodes u := by
  rw [buildInDegree_spec]
  exact Int.natCast_nonneg _

theorem countP_or_disjoint {α : Type} (p q : α → Bool) (l : List α)
    (h : ∀ a ∈ l, ¬(p a = true ∧ q a = true)) :
    l.countP (fun a => p a || q a) = l.countP p + l.countP q := by
  induction l with
  | nil => simp
  | cons x rest ih =>
    simp only [List.countP_cons]
    rw [ih (fun a ha => h a (List.mem_cons_of_mem x ha))]
    by_cases hp : p x = true
    · have hq : ¬ q x = true := fun hq => h x (List.mem_cons_self x rest) ⟨hp, hq⟩
      simp [hp, hq]
      omega
    · by_cases hq : q x = true
      · simp [hp, hq]
        omega
      · simp [hp, hq]

theorem sum_parent_counts (l : List SceneNode) (u : String) :
    ∀ (ids : List String), ids.Nodup →
    (ids.map (fun p =>
      (l.countP (fun n => decide (n.id = u) && decide (n.parentId = some p)) : Int))).sum
    = (l.countP (fun n =>
        decide (n.id = u) &&
        match n.parentId with
        | some pp => decide (pp ∈ ids)
        | none => false) : Int) := by
  intro ids
  induction ids with
  | nil =>
    intro _
    have hz : l.countP (fun n =>
        decide (n.id = u) &&
        match n.parentId with
        | some pp => decide (pp ∈ ([] : List String))
        | none => false) = 0 := by
      apply List.countP_eq_zero.mpr
      intro n _
      cases n.parentId <;> simp
    simp only [List.map_nil, List.sum_nil]
    rw [hz]
    simp
  | cons p ids2 ih =>
    intro hnodup
    rcases List.nodup_cons.mp hnodup with ⟨hp, hids2⟩
    simp only [List.map_cons, List.sum_cons]
    rw [ih hids2]
    have hcong : l.countP (fun n => decide (n.id = u) &&
          match n.parentId with
          | some pp => decide (pp ∈ p :: ids2)
          | none => false)
        = l.countP (fun n =>
            (decide (n.id = u) && decide (n.parentId = some p)) ||
            (decide (n.id = u) &&
              match n.parentId with
              | some pp => decide (pp ∈ ids2)
              | none => false)) := by
      apply List.countP_congr
      intro n _
      cases hpid : n.parentId with
      | none => simp
      | some pp =>
        by_cases hid : n.id = u
        · by_cases hpp : pp = p
          · simp [hid, hpp, List.mem_cons]
          · by_cases hmem : pp ∈ ids2 <;>
              simp [hid, hpp, hmem, List.mem_cons]
        · simp [hid]
    rw [hcong, countP_or_disjoint]
    · push_cast
      ring
    · rintro n _ ⟨h1, h2⟩
      simp only [Bool.and_eq_true] at h1 h2
      rcases h1 with ⟨_, hps⟩
      rcases h2 with ⟨_, hm⟩
      have hps2 : n.parentId = some p := of_decide_eq_true hps
      rw [hps2] at hm
      have : p ∈ ids2 := of_decide_eq_true hm
      exact hp this

theorem buildInDegree_as_sum (nodes : List SceneNode) (u : String) :
    ((insertionKeys (nodeIds nodes)).map (fun p =>
      (countKey (fun s => s)
        (if p ∈ nodeIds nodes then
          (nodes.filter (fun n => n.parentId = some p)).map (·.id)
         else []) u : Int))).sum
      = buildInDegree nodes u := by
  have hmap : (insertionKeys (nodeIds nodes)).map (fun p =>
      (countKey (fun s => s)
        (if p ∈ nodeIds nodes then
          (nodes.filter (fun n => n.parentId = some p)).map (·.id)
         else []) u : Int))
      = (insertionKeys (nodeIds nodes)).map (fun p =>
        (nodes.countP (fun n =>
          decide (n.id = u) && decide (n.parentId = some p)) : Int)) := by
    apply List.map_congr_left
    intro p hpmem
    have hmem : p ∈ nodeIds nodes := (insertionKeys_mem _ _).mp hpmem
    rw [if_pos hmem]
    congr 1
    rw [countKey, ← List.countP_eq_length_filter, List.countP_map,
      List.countP_filter]
    apply List.countP_congr
    intro n _
    rfl
  rw [hmap, sum_parent_counts nodes u _ (insertionKeys_nodup _),
    buildInDegree_spec]
  congr 1
  apply List.countP_congr
  intro n _
  cases n.parentId with
  | none => rfl
  | some pp =>
    have hdec : decide (pp ∈ insertionKeys (nodeIds nodes))
        = decide (pp ∈ nodeIds nodes) := by
      by_cases h : pp ∈ nodeIds nodes
      · simp [h, (insertionKeys_mem _ _).mpr h]
      · have h2 : pp ∉ insertionKeys (nodeIds nodes) :=
          fun hc => h ((insertionKeys_mem _ _).mp hc)
        simp [h, h2]
    simp only [hdec]

theorem perm_split_of_subset {l ids : List String} (hl : l.Nodup)
    (hids : ids.Nodup) (hsub : ∀ a ∈ l, a ∈ ids) :
    List.Perm ids (l ++ ids.filter (fun a => decide ¬(a ∈ l))) := by
  have hnd : (l ++ ids.filter (fun a => decide ¬(a ∈ l))).Nodup := by
    apply List.nodup_append.mpr
    refine ⟨hl, List.Nodup.filter _ hids, ?_⟩
    intro a ha1 ha2
    rcases List.mem_filter.mp ha2 with ⟨_, hna⟩
    simp at hna
    exact hna ha1
  apply (List.perm_ext_iff_of_nodup hids hnd).mpr
  intro a
  simp only [List.mem_append, List.mem_filter, decide_eq_true_eq]
  constructor
  · intro ha
    by_cases hal : a ∈ l
    · exact Or.inl hal
    · exact Or.inr ⟨ha, hal⟩
  · rintro (hal | ⟨ha, _⟩)
    · exact hsub a hal
    · exact ha

theorem sum_map_pos_exists {α : Type} (f : α → Int) (l : List α)
    (h : 0 < (l.map f).sum) (hn : ∀ a ∈ l, 0 ≤ f a) :
    ∃ a ∈ l, 0 < f a := by
  induction l with
  | nil => simp at h
  | cons x rest ih =>
    simp only [List.map_cons, List.sum_cons] at h
    by_cases hx : 0 < f x
    · exact ⟨x, List.mem_cons_self x rest, hx⟩
    · push_neg at hx
      have hr : 0 < (rest.map f).sum := by omega
      rcases ih hr (fun a ha => hn a (List.mem_cons_of_mem x ha)) with ⟨a, ha, hfa⟩
      exact ⟨a, List.mem_cons_of_mem x ha, hfa⟩

theorem kahnRun_string_complete
    (childrenF : String → List String)
    (merge : List String → List String → List String)
    (hmerge : ∀ r n, List.Perm (merge r n) (r ++ n))
    (ids : List String) (hids : ids.Nodup)
    (hchild : ∀ p, ∀ c ∈ childrenF p, c ∈ ids)
    (d0 : String → Int)
    (hd0 : ∀ u, d0 u
      = ((ids.map (fun p => (countKey (fun s => s) (childrenF p) u : Int))).sum))
    (rank : String → Nat)
    (hrank : ∀ p, ∀ c ∈ childrenF p, rank p < rank c)
    (fuel : Nat) (queue0 : List String)
    (hq : queue0 = ids.filter (fun u => decide (d0 u = 0)))
    (hfuel : queue0.length + degSumPos d0 ids < fuel) :
    ∀ u ∈ ids,
      u ∈ (kahnRun (fun s => s) childrenF merge fuel queue0 d0 []).1 ∧
      (kahnRun (fun s => s) childrenF merge fuel queue0 d0 []).2.1 u ≤ 0 := by
  set res := kahnRun (fun s => s) childrenF merge fuel queue0 d0 [] with hres
  have hd0nonneg : ∀ u, 0 ≤ d0 u := by
    intro u
    rw [hd0]
    apply List.sum_nonneg
    intro x hx
    rcases List.mem_map.mp hx with ⟨p, _, rfl⟩
    exact Int.natCast_nonneg _
  have hnodup0 : (([] ++ queue0).map (fun s : String => s)).Nodup := by
    have hmq : queue0.map (fun s : String => s) = queue0 := by simp
    rw [List.nil_append, hmq, hq]
    exact hids.filter _
  have hmem0 : ∀ x ∈ ([] : List String) ++ queue0, (fun s : String => s) x ∈ ids := by
    intro x hx
    rw [List.nil_append, hq] at hx
    exact (List.mem_filter.mp hx).1
  have hpos0 : ∀ u ∈ ids,
      u ∉ (([] : List String) ++ queue0).map (fun s : String => s) → 0 < d0 u := by
    intro u hu hnu
    have hne : ¬ d0 u = 0 := by
      intro h0
      apply hnu
      have hq0 : u ∈ queue0 := by
        rw [hq]
        exact List.mem_filter.mpr ⟨hu, by simp [h0]⟩
      simpa using hq0
    have := hd0nonneg u
    omega
  have hnonpos0 : ∀ x ∈ ([] : List String) ++ queue0,
      d0 ((fun s : String => s) x) ≤ 0 := by
    intro x hx
    rw [List.nil_append, hq] at hx
    have hdx := (List.mem_filter.mp hx).2
    have h0 : d0 x = 0 := of_decide_eq_true hdx
    show d0 x ≤ 0
    omega
  have hacct0 : ∀ u,
      d0 u = d0 u - edgeSum (fun s : String => s) childrenF [] u := by
    intro u
    simp [edgeSum]
  have hinv := kahnRun_invariants (fun s : String => s) childrenF merge hmerge
    ids hids (fun p c hc => hchild p c hc) d0 fuel queue0 [] d0 hfuel hnodup0
    hmem0 hpos0 hnonpos0 hacct0
  rw [← hres] at hinv
  simp only [KahnEndInv] at hinv
  rcases hinv with ⟨_, _, hnds, hsubids, hpos, hnonpos, hacct⟩
  have hmapid : res.1.map (fun s : String => s) = res.1 := by simp
  have hnd1 : res.1.Nodup := hmapid ▸ hnds
  have hall : ∀ N, ∀ u, u ∈ ids → rank u < N → u ∈ res.1 := by
    intro N
    induction N with
    | zero =>
      intro u _ h
      omega
    | succ N ihN =>
      intro u hu hlt
      by_contra hnot
      have hdpos : 0 < res.2.1 u := hpos u hu (by rw [hmapid]; exact hnot)
      have hdeq := hacct u
      rw [hd0] at hdeq
      have hsub1 : ∀ a ∈ res.1, a ∈ ids := fun a ha => hsubids a ha
      have hperm : List.Perm ids
          (res.1 ++ ids.filter (fun a => decide ¬(a ∈ res.1))) :=
        perm_split_of_subset hnd1 hids hsub1
      have hsump : (ids.map (fun p =>
            (countKey (fun s => s) (childrenF p) u : Int))).sum
          = (res.1.map (fun p =>
              (countKey (fun s => s) (childrenF p) u : Int))).sum
            + ((ids.filter (fun a => decide ¬(a ∈ res.1))).map (fun p =>
                (countKey (fun s => s) (childrenF p) u : Int))).sum := by
        have hps := (hperm.map (fun p =>
          (countKey (fun s => s) (childrenF p) u : Int))).sum_eq
        rw [List.map_append, List.sum_append] at hps
        exact hps
      have hedge : edgeSum (fun s : String => s) childrenF res.1 u
          = (res.1.map (fun p =>
              (countKey (fun s => s) (childrenF p) u : Int))).sum := rfl
      rw [hedge, hsump] at hdeq
      have hrest : 0 < ((ids.filter (fun a => decide ¬(a ∈ res.1))).map (fun p =>
          (countKey (fun s => s) (childrenF p) u : Int))).sum := by
        omega
      rcases sum_map_pos_exists _ _ hrest
          (fun a _ => Int.natCast_nonneg _) with ⟨p, hpmem, hppos⟩
      rcases List.mem_filter.mp hpmem with ⟨hpids, hpnot⟩
      have hpnotin : p ∉ res.1 := by simpa using hpnot
      have hposn : 0 < countKey (fun s => s) (childrenF p) u := by
        exact_mod_cast hppos
      simp only [countKey] at hposn
      have hnenil : (childrenF p).filter (fun c => decide (c = u)) ≠ [] := by
        intro hnil
        rw [hnil] at hposn
        simp at hposn
      rcases List.exists_mem_of_ne_nil _ hnenil with ⟨c, hc⟩
      rcases List.mem_filter.mp hc with ⟨hcmem, hcq⟩
      have hcu : c = u := of_decide_eq_true hcq
      subst hcu
      have hrk := hrank p c hcmem
      have hpin : p ∈ res.1 := ihN p hpids (by omega)
      exact hpnotin hpin
  intro u hu
  refine ⟨hall (rank u + 1) u hu (by omega), ?_⟩
  exact hnonpos u (hall (rank u + 1) u hu (by omega))

theorem detectCycles_nil (ast : CanonicalSceneAst)
    (rank : String → Nat)
    (hrank : ∀ n ∈ ast.nodes, ∀ p, n.parentId = some p →
      p ∈ nodeIds ast.nodes → rank p < rank n.id) :
    detectCycles ast = [] := by
  have hchild : ∀ p, ∀ c ∈ (if p ∈ nodeIds ast.nodes then
      (ast.nodes.filter (fun n => n.parentId = some p)).map (·.id)
    else []), c ∈ insertionKeys (nodeIds ast.nodes) := by
    intro p c hc
    by_cases hmem : p ∈ nodeIds ast.nodes
    · rw [if_pos hmem] at hc
      rcases List.mem_map.mp hc with ⟨n, hn, rfl⟩
      have hnid : n.id ∈ nodeIds ast.nodes :=
        List.mem_map.mpr ⟨n, List.mem_of_mem_filter hn, rfl⟩
      exact (insertionKeys_mem _ _).mpr hnid
    · rw [if_neg hmem] at hc
      exact absurd hc (List.not_mem_nil c)
  have hrank2 : ∀ p, ∀ c ∈ (if p ∈ nodeIds ast.nodes then
      (ast.nodes.filter (fun n => n.parentId = some p)).map (·.id)
    else []), rank p < rank c := by
    intro p c hc
    by_cases hmem : p ∈ nodeIds ast.nodes
    · rw [if_pos hmem] at hc
      rcases List.mem_map.mp hc with ⟨n, hn, rfl⟩
      have hnn := List.mem_of_mem_filter hn
      have hpid : n.parentId = some p :=
        of_decide_eq_true (List.mem_filter.mp hn).2
      exact hrank n hnn p hpid hmem
    · rw [if_neg hmem] at hc
      exact absurd hc (List.not_mem_nil c)
  have hfuelok : ((insertionKeys (nodeIds ast.nodes)).filter
        (fun u => decide (buildInDegree ast.nodes u = 0))).length
      + degSumPos (buildInDegree ast.nodes) (insertionKeys (nodeIds ast.nodes))
      < kahnFuel ast.nodes := by
    simp only [kahnFuel]
    have h1 := List.length_filter_le
      (fun u => decide (buildInDegree ast.nodes u = 0))
      (insertionKeys (nodeIds ast.nodes))
    have h2 := insertionKeys_length_le (nodeIds ast.nodes)
    have h3 : (nodeIds ast.nodes).length = ast.nodes.length := List.length_map _ _
    omega
  have hmain := kahnRun_string_complete
    (fun p => if p ∈ nodeIds ast.nodes then
        (ast.nodes.filter (fun n => n.parentId = some p)).map (·.id)
      else [])
    (fun rest newly => rest ++ newly)
    (fun r n => List.Perm.refl _)
    (insertionKeys (nodeIds ast.nodes)) (insertionKeys_nodup _)
    hchild (buildInDegree ast.nodes)
    (fun u => (buildInDegree_as_sum ast.nodes u).symm)
    rank hrank2 (kahnFuel ast.nodes)
    ((insertionKeys (nodeIds ast.nodes)).filter
      (fun u => decide (buildInDegree ast.nodes u = 0)))
    rfl hfuelok
  simp only [detectCycles]
  split
  · rfl
  · apply List.filter_eq_nil_iff.mpr
    intro u hu
    have h2 := (hmain u hu).2
    simp only [decide_eq_true_eq]
    omega

theorem cycleDiags_nil (ast : CanonicalSceneAst)
    (rank : String → Nat)
    (hrank : ∀ n ∈ ast.nodes, ∀ p, n.parentId = some p →
      p ∈ nodeIds ast.nodes → rank p < rank n.id) :
    cycleDiags ast = [] := by
  simp only [cycleDiags, detectCycles_nil ast rank hrank, List.map_nil]

theorem filter_cons_notMem (l : List String) (a : String) (seen : List String) :
    l.filter (fun x => decide ¬(x ∈ a :: seen))
      = (l.filter (· ≠ a)).filter (fun x => decide ¬(x ∈ seen)) := by
  rw [List.filter_filter]
  apply List.filter_congr
  intro x _
  by_cases hxa : x = a <;> by_cases hxs : x ∈ seen <;>
    simp [hxa, hxs, List.mem_cons]

theorem dupDiagsAux_length (nodes : List SceneNode) :
    ∀ seen : List String,
    (dupDiagsAux seen nodes).length
      + ((insertionKeys (nodeIds nodes)).filter
          (fun x => decide ¬(x ∈ seen))).length
      = nodes.length := by
  induction nodes with
  | nil =>
    intro seen
    simp [dupDiagsAux, nodeIds, insertionKeys]
  | cons n rest ih =>
    intro seen
    have hik : insertionKeys (nodeIds (n :: rest))
        = n.id :: (insertionKeys (nodeIds rest)).filter (· ≠ n.id) := by
      simp only [nodeIds, List.map_cons, insertionKeys]
    rw [hik]
    simp only [dupDiagsAux, List.length_cons]
    by_cases hs : n.id ∈ seen
    · rw [if_pos hs]
      have hcond : ¬ ((fun x => decide ¬(x ∈ seen)) n.id = true) := by simp [hs]
      rw [List.filter_cons, if_neg hcond, ← filter_cons_notMem]
      have hih := ih (n.id :: seen)
      simp only [List.length_append, List.length_cons, List.length_nil]
      omega
    · rw [if_neg hs]
      have hcond : ((fun x => decide ¬(x ∈ seen)) n.id = true) := by simp [hs]
      rw [List.filter_cons, if_pos hcond, ← filter_cons_notMem]
      have hih := ih (n.id :: seen)
      simp only [List.nil_append, List.length_cons]
      omega

theorem dupDiags_length (nodes : List SceneNode) :
    (dupDiags nodes).length + (insertionKeys (nodeIds nodes)).length
      = nodes.length := by
  have h := dupDiagsAux_length nodes []
  have hf : (insertionKeys (nodeIds nodes)).filter
      (fun x => decide ¬(x ∈ ([] : List String)))
      = insertionKeys (nodeIds nodes) :=
    List.filter_eq_self.mpr (fun a _ => by simp)
  rw [hf] at h
  simpa [dupDiags] using h

theorem dupDiagsAux_fields (nodes : List SceneNode) :
    ∀ seen, ∀ d ∈ dupDiagsAux seen nodes,
      d.code = SVJifErrorCode.E_NODE_DUPLICATE_ID
        ∧ d.severity = Severity.error := by
  induction nodes with
  | nil =>
    intro seen d hd
    simp [dupDiagsAux] at hd
  | cons n rest ih =>
    intro seen d hd
    simp only [dupDiagsAux] at hd
    rcases List.mem_append.mp hd with hd | hd
    · by_cases hs : n.id ∈ seen
      · rw [if_pos hs] at hd
        rcases List.mem_singleton.mp hd with rfl
        exact ⟨rfl, rfl⟩
      · rw [if_neg hs] at hd
        exact absurd hd (List.not_mem_nil d)
    · exact ih (n.id :: seen) d hd

theorem sceneDimensionsDiags_code (ast : CanonicalSceneAst) :
    ∀ d ∈ sceneDimensionsDiags ast,
      d.code = SVJifErrorCode.E_SCENE_DIMENSIONS_INVALID := by
  intro d hd
  simp only [sceneDimensionsDiags] at hd
  split at hd
  · rcases List.mem_singleton.mp hd with rfl
    rfl
  · exact absurd hd (List.not_mem_nil d)

theorem nodeKindDiags_code (nodes : List SceneNode) :
    ∀ d ∈ nodeKindDiags nodes,
      d.code = SVJifErrorCode.E_NODE_KIND_INVALID := by
  intro d hd
  simp only [nodeKindDiags] at hd
  rcases List.mem_flatMap.mp hd with ⟨n, _, hdn⟩
  split at hdn
  · exact absurd hdn (List.not_mem_nil d)
  · rcases List.mem_singleton.mp hdn with rfl
    rfl

theorem danglingDiags_code (ast : CanonicalSceneAst) :
    ∀ d ∈ danglingDiags ast,
      d.code = SVJifErrorCode.E_PARENT_NOT_FOUND ∨
      d.code = SVJifErrorCode.E_BIND_TARGET_NOT_FOUND ∨
      d.code = SVJifErrorCode.E_REF_TARGET_NOT_FOUND := by
  intro d hd
  simp only [danglingDiags] at hd
  rcases List.mem_append.mp hd with hd | hd
  · rcases List.mem_append.mp hd with hd | hd
    · rcases List.mem_flatMap.mp hd with ⟨n, _, hdn⟩
      cases hpid : n.parentId with
      | none => simp [hpid] at hdn
      | some p =>
          simp only [hpid] at hdn
          split at hdn
          · exact absurd hdn (List.not_mem_nil d)
          · rcases List.mem_singleton.mp hdn with rfl
            exact Or.inl rfl
    · rcases List.mem_flatMap.mp hd with ⟨b, _, hdb⟩
      split at hdb
      · exact absurd hdb (List.not_mem_nil d)
      · rcases List.mem_singleton.mp hdb with rfl
        exact Or.inr (Or.inl rfl)
  · rcases List.mem_flatMap.mp hd with ⟨a, _, hda⟩
    split at hda
    · exact absurd hda (List.not_mem_nil d)
    · rcases List.mem_singleton.mp hda with rfl
      exact Or.inr (Or.inr rfl)

theorem cycleDiags_code (ast : CanonicalSceneAst) :
    ∀ d ∈ cycleDiags ast, d.code = SVJifErrorCode.E_CYCLE_DETECTED := by
  intro d hd
  simp only [cycleDiags] at hd
  rcases List.mem_map.mp hd with ⟨i, _, rfl⟩
  rfl

theorem tier1_countP_dup (ast : CanonicalSceneAst)
    (rank : String → Nat)
    (hrank : ∀ n ∈ ast.nodes, ∀ p, n.parentId = some p →
      p ∈ nodeIds ast.nodes → rank p < rank n.id) :
    (tier1Diags ast).countP
        (fun d => decide (d.code = SVJifErrorCode.E_NODE_DUPLICATE_ID))
      = (dupDiags ast.nodes).length := by
  simp only [tier1Diags, List.countP_append]
  have h1 : (sceneDimensionsDiags ast).countP
      (fun d => decide (d.code = SVJifErrorCode.E_NODE_DUPLICATE_ID)) = 0 := by
    apply List.countP_eq_zero.mpr
    intro d hd
    simp only [decide_eq_true_eq]
    rw [sceneDimensionsDiags_code ast d hd]
    decide
  have h2 : (nodeKindDiags ast.nodes).countP
      (fun d => decide (d.code = SVJifErrorCode.E_NODE_DUPLICATE_ID)) = 0 := by
    apply List.countP_eq_zero.mpr
    intro d hd
    simp only [decide_eq_true_eq]
    rw [nodeKindDiags_code ast.nodes d hd]
    decide
  have h3 : (dupDiags ast.nodes).countP
      (fun d => decide (d.code = SVJifErrorCode.E_NODE_DUPLICATE_ID))
      = (dupDiags ast.nodes).length := by
    apply List.countP_eq_length.mpr
    intro d hd
    simp only [decide_eq_true_eq]
    exact (dupDiagsAux_fields ast.nodes [] d hd).1
  have h4 : (danglingDiags ast).countP
      (fun d => decide (d.code = SVJifErrorCode.E_NODE_DUPLICATE_ID)) = 0 := by
    apply List.countP_eq_zero.mpr
    intro d hd
    simp only [decide_eq_true_eq]
    rcases danglingDiags_code ast d hd with h | h | h <;> rw [h] <;> decide
  have h5 : (cycleDiags ast).countP
      (fun d => decide (d.code = SVJifErrorCode.E_NODE_DUPLICATE_ID)) = 0 := by
    rw [cycleDiags_nil ast rank hrank]
    rfl
  omega

theorem tier1_countP_cycle (ast : CanonicalSceneAst)
    (rank : String → Nat)
    (hrank : ∀ n ∈ ast.nodes, ∀ p, n.parentId = some p →
      p ∈ nodeIds ast.nodes → rank p < rank n.id) :
    (tier1Diags ast).countP
        (fun d => decide (d.code = SVJifErrorCode.E_CYCLE_DETECTED)) = 0 := by
  simp only [tier1Diags, List.countP_append]
  have h1 : (sceneDimensionsDiags ast).countP
      (fun d => decide (d.code = SVJifErrorCode.E_CYCLE_DETECTED)) = 0 := by
    apply List.countP_eq_zero.mpr
    intro d hd
    simp only [decide_eq_true_eq]
    rw [sceneDimensionsDiags_code ast d hd]
    decide
  have h2 : (nodeKindDiags ast.nodes).countP
      (fun d => decide (d.code = SVJifErrorCode.E_CYCLE_DETECTED)) = 0 := by
    apply List.countP_eq_zero.mpr
    intro d hd
    simp only [decide_eq_true_eq]
    rw [nodeKindDiags_code ast.nodes d hd]
    decide
  have h3 : (dupDiags ast.nodes).countP
      (fun d => decide (d.code = SVJifErrorCode.E_CYCLE_DETECTED)) = 0 := by
    apply List.countP_eq_zero.mpr
    intro d hd
    simp only [decide_eq_true_eq]
    rw [(dupDiagsAux_fields ast.nodes [] d hd).1]
    decide
  have h4 : (danglingDiags ast).countP
      (fun d => decide (d.code = SVJifErrorCode.E_CYCLE_DETECTED)) = 0 := by
    apply List.countP_eq_zero.mpr
    intro d hd
    simp only [decide_eq_true_eq]
    rcases danglingDiags_code ast d hd with h | h | h <;> rw [h] <;> decide
  have h5 : (cycleDiags ast).countP
      (fun d => decide (d.code = SVJifErrorCode.E_CYCLE_DETECTED)) = 0 := by
    rw [cycleDiags_nil ast rank hrank]
    rfl
  omega

theorem validate_eq_tier1_of_dup (ast : CanonicalSceneAst)
    (hdup : ¬ (nodeIds ast.nodes).Nodup) :
    validateCanonicalAst (some ast) = tier1Diags ast := by
  have hlt : (insertionKeys (nodeIds ast.nodes)).length
      < (nodeIds ast.nodes).length := insertionKeys_length_lt _ hdup
  have hlen := dupDiags_length ast.nodes
  have hnn : (nodeIds ast.nodes).length = ast.nodes.length :=
    List.length_map _ _
  have hpos : 0 < (dupDiags ast.nodes).length := by omega
  have hne : dupDiags ast.nodes ≠ [] := by
    intro h
    rw [h] at hpos
    simp at hpos
  rcases List.exists_mem_of_ne_nil _ hne with ⟨d, hd⟩
  have hmem : d ∈ tier1Diags ast := by
    simp only [tier1Diags, List.mem_append]
    exact Or.inl (Or.inl (Or.inr hd))
  have hany : (tier1Diags ast).any
      (fun d => decide (d.severity = Severity.error)) = true := by
    apply List.any_eq_true.mpr
    refine ⟨d, hmem, ?_⟩
    simp only [decide_eq_true_eq]
    exact (dupDiagsAux_fields ast.nodes [] d hd).2
  simp only [validateCanonicalAst]
  rw [if_pos hany]

/-! ### Unique-id specialisations and the parent-order
invariant of the Kahn loop -/

theorem insertionKeys_of_nodup (l : List String) (h : l.Nodup) :
    insertionKeys l = l := by
  induction l with
  | nil => rfl
  | cons x rest ih =>
    rcases List.nodup_cons.mp h with ⟨hx, hrest⟩
    simp only [insertionKeys, ih hrest]
    rw [List.filter_eq_self.mpr]
    intro a ha
    simp only [decide_eq_true_eq]
    intro hax
    subst hax
    exact hx ha

theorem countP_le_one {α : Type} (p : α → Bool) (l : List α) (hl : l.Nodup)
    (huniq : ∀ a ∈ l, ∀ b ∈ l, p a = true → p b = true → a = b) :
    l.countP p ≤ 1 := by
  induction l with
  | nil => simp
  | cons x rest ih =>
    rcases List.nodup_cons.mp hl with ⟨hx, hrest⟩
    rw [List.countP_cons]
    by_cases hpx : p x = true
    · have hz : rest.countP p = 0 := by
        apply List.countP_eq_zero.mpr
        intro a ha hpa
        have hax : a = x := huniq a (List.mem_cons_of_mem x ha) x
          (List.mem_cons_self x rest) hpa hpx
        subst hax
        exact hx ha
      simp [hpx, hz]
    · have hle := ih hrest (fun a ha b hb hpa hpb =>
        huniq a (List.mem_cons_of_mem x ha) b (List.mem_cons_of_mem x hb) hpa hpb)
      simp [hpx]
      omega

theorem nodes_inj_of_nodup_ids {nodes : List SceneNode}
    (hids : (nodeIds nodes).Nodup) :
    ∀ a ∈ nodes, ∀ b ∈ nodes, a.id = b.id → a = b := by
  intro a ha b hb hab
  have hmapnd : (nodes.map (fun n => n.id)).Nodup := hids
  exact List.inj_on_of_nodup_map hmapnd ha hb hab

theorem buildInDegree_le_one (nodes : List SceneNode)
    (hids : (nodeIds nodes).Nodup) (u : String) :
    buildInDegree nodes u ≤ 1 := by
  rw [buildInDegree_spec]
  have hnodes : nodes.Nodup := by
    have := hids
    simp only [nodeIds] at this
    exact this.of_map _
  have hc : nodes.countP (fun n =>
      decide (n.id = u) &&
      match n.parentId with
      | some p => decide (p ∈ nodeIds nodes)
      | none => false) ≤ 1 := by
    apply countP_le_one _ _ hnodes
    intro a ha b hb hpa hpb
    simp only [Bool.and_eq_true, decide_eq_true_eq] at hpa hpb
    exact nodes_inj_of_nodup_ids hids a ha b hb (hpa.1.trans hpb.1.symm)
  exact_mod_cast hc

theorem buildInDegree_pos_of_parent (nodes : List SceneNode) (x : SceneNode)
    (hx : x ∈ nodes) (p : String) (hp : x.parentId = some p)
    (hmem : p ∈ nodeIds nodes) : 1 ≤ buildInDegree nodes x.id := by
  rw [buildInDegree_spec]
  have hc : 0 < nodes.countP (fun n =>
      decide (n.id = x.id) &&
      match n.parentId with
      | some p => decide (p ∈ nodeIds nodes)
      | none => false) := by
    apply List.countP_pos_iff.mpr
    exact ⟨x, hx, by simp [hp, hmem]⟩
  exact_mod_cast hc

theorem childrenOf_mem {nodes : List SceneNode} {p : String} {c : SceneNode}
    (hc : c ∈ childrenOf nodes p) :
    c ∈ nodes ∧ c.parentId = some p ∧ p ∈ nodeIds nodes := by
  by_cases hmem : p ∈ nodeIds nodes
  · rw [childrenOf, if_pos hmem] at hc
    rcases List.mem_filter.mp hc with ⟨h1, h2⟩
    exact ⟨h1, of_decide_eq_true h2, hmem⟩
  · rw [childrenOf, if_neg hmem] at hc
    exact absurd hc (List.not_mem_nil c)

theorem append_singleton_eq_cases {α : Type} (acc : List α) (x : α)
    (pre : List α) (c : α) (post : List α)
    (h : acc ++ [x] = pre ++ c :: post) :
    (pre = acc ∧ c = x ∧ post = []) ∨ ∃ post2, acc = pre ++ c :: post2 := by
  rcases List.eq_nil_or_concat' post with rfl | ⟨q, y, rfl⟩
  · rcases List.append_inj' h rfl with ⟨h1, h2⟩
    refine Or.inl ⟨h1.symm, ?_, rfl⟩
    injection h2 with h3
    exact h3.symm
  · rw [show pre ++ c :: (q ++ [y]) = (pre ++ c :: q) ++ [y] by simp] at h
    rcases List.append_inj' h rfl with ⟨h1, _⟩
    exact Or.inr ⟨q, h1⟩

theorem kahnRun_subset {α : Type} (keyF : α → String)
    (childrenF : String → List α) (merge : List α → List α → List α)
    (hmerge : ∀ r n, List.Perm (merge r n) (r ++ n))
    (S : List α) (hchS : ∀ k, ∀ c ∈ childrenF k, c ∈ S) :
    ∀ (fuel : Nat) (pending acc : List α) (deg : String → Int),
      (∀ x ∈ pending, x ∈ S) → (∀ x ∈ acc, x ∈ S) →
      ∀ x ∈ (kahnRun keyF childrenF merge fuel pending deg acc).1, x ∈ S := by
  intro fuel
  induction fuel with
  | zero =>
    intro pending acc deg _ hacc
    exact hacc
  | succ fuel ih =>
    intro pending acc deg hpend hacc
    cases pending with
    | nil => exact hacc
    | cons x rest =>
      show ∀ y ∈ (kahnRun keyF childrenF merge fuel
          (if (kahnStep keyF deg (childrenF (keyF x))).2.isEmpty then rest
           else merge rest (kahnStep keyF deg (childrenF (keyF x))).2)
          (kahnStep keyF deg (childrenF (keyF x))).1 (acc ++ [x])).1, y ∈ S
      apply ih
      · intro y hy
        have hy2 : y ∈ rest ++ (kahnStep keyF deg (childrenF (keyF x))).2 := by
          by_cases hne : (kahnStep keyF deg (childrenF (keyF x))).2.isEmpty
          · rw [if_pos hne] at hy
            exact List.mem_append.mpr (Or.inl hy)
          · rw [if_neg hne] at hy
            exact (hmerge _ _).mem_iff.mp hy
        rcases List.mem_append.mp hy2 with hy2 | hy2
        · exact hpend y (List.mem_cons_of_mem x hy2)
        · exact hchS (keyF x) y (kahnStep_newly_sub keyF _ deg y hy2)
      · intro y hy
        rcases List.mem_append.mp hy with hy | hy
        · exact hacc y hy
        · rcases List.mem_singleton.mp hy with rfl
          exact hpend y (List.mem_cons_self y rest)

theorem kahnRun_parent_before (nodes : List SceneNode)
    (merge : List SceneNode → List SceneNode → List SceneNode)
    (hmerge : ∀ r n, List.Perm (merge r n) (r ++ n)) :
    ∀ (fuel : Nat) (pending acc : List SceneNode),
      (∀ x ∈ pending, ∀ p, x.parentId = some p → p ∈ nodeIds nodes →
        p ∈ acc.map (fun m => m.id)) →
      (∀ pre c post, acc = pre ++ c :: post → ∀ p, c.parentId = some p →
        p ∈ nodeIds nodes → p ∈ pre.map (fun m => m.id)) →
      ∀ (deg : String → Int) (pre : List SceneNode) (c : SceneNode)
        (post : List SceneNode),
        (kahnRun SceneNode.id (childrenOf nodes) merge fuel pending deg acc).1
          = pre ++ c :: post →
        ∀ p, c.parentId = some p → p ∈ nodeIds nodes →
        p ∈ pre.map (fun m => m.id) := by
  intro fuel
  induction fuel with
  | zero =>
    intro pending acc _ hPB deg pre c post heq
    exact hPB pre c post heq
  | succ fuel ih =>
    intro pending acc hP1 hPB deg pre c post heq
    cases pending with
    | nil => exact hPB pre c post heq
    | cons x rest =>
      have heq2 : (kahnRun SceneNode.id (childrenOf nodes) merge fuel
          (if (kahnStep SceneNode.id deg (childrenOf nodes x.id)).2.isEmpty
           then rest
           else merge rest (kahnStep SceneNode.id deg (childrenOf nodes x.id)).2)
          (kahnStep SceneNode.id deg (childrenOf nodes x.id)).1
          (acc ++ [x])).1 = pre ++ c :: post := heq
      refine ih _ (acc ++ [x]) ?_ ?_ _ pre c post heq2
      · intro y hy p hp hpmem
        have hy2 : y ∈ rest ++ (kahnStep SceneNode.id deg
            (childrenOf nodes x.id)).2 := by
          by_cases hne : (kahnStep SceneNode.id deg
              (childrenOf nodes x.id)).2.isEmpty
          · rw [if_pos hne] at hy
            exact List.mem_append.mpr (Or.inl hy)
          · rw [if_neg hne] at hy
            exact (hmerge _ _).mem_iff.mp hy
        rcases List.mem_append.mp hy2 with hy2 | hy2
        · have := hP1 y (List.mem_cons_of_mem x hy2) p hp hpmem
          rw [List.map_append, List.mem_append]
          exact Or.inl this
        · have hych := kahnStep_newly_sub SceneNode.id _ deg y hy2
          rcases childrenOf_mem hych with ⟨_, hpar, _⟩
          rw [hpar] at hp
          injection hp with hp
          subst hp
          rw [List.map_append, List.mem_append]
          right
          simp
      · intro pre2 c2 post2 heq3 p hp hpmem
        rcases append_singleton_eq_cases acc x pre2 c2 post2 heq3 with
          ⟨rfl, rfl, rfl⟩ | ⟨post3, heq4⟩
        · exact hP1 c2 (List.mem_cons_self c2 rest) p hp hpmem
        · exact hPB pre2 c2 post3 heq4 p hp hpmem

/-! ### Claim C10 — root-level unrepresentable values in `stableStringify` -/

/-- C10: when `stableStringify` is called with a root value that is
`undefined`, a function, or a symbol, it returns the string `"null"` (the
root value is normalized to `null`) rather than returning `undefined` or
raising an error. -/
theorem c10_root_unrepresentable_serializes_null :
    stableStringify JsValue.vUndefined = .ok "null" ∧
    stableStringify JsValue.vFunction = .ok "null" ∧
    stableStringify JsValue.vSymbol = .ok "null" :=
  ⟨rfl, rfl, rfl⟩

/-! ### Claim C4 — scene dimension validation misses NaN and +Infinity -/

/-- Scene with `width = NaN` (valid otherwise), mirroring the repo's own
test `NaN scene width → E_SCENE_DIMENSIONS_INVALID`. -/
def c4SceneNaN : CanonicalSceneAst :=
  { scene := { id := "scene:test", width := .nan, height := .fin 600 },
    nodes := [] }

/-- Scene with `height = Infinity`, mirroring the repo's own test
`Infinity scene height → E_SCENE_DIMENSIONS_INVALID`. -/
def c4SceneInf : CanonicalSceneAst :=
  { scene := { id := "scene:test", width := .fin 800, height := .posInf },
    nodes := [] }

/-- C4 (code bug): the validator checks `width <= 0 || height <= 0`, and
IEEE comparison makes both tests false for NaN and for +Infinity, so
`validateCanonicalAst` returns no diagnostic at all on these scenes —
although the claim, the spec and the repo's own tests require an
`E_SCENE_DIMENSIONS_INVALID` error there. -/
theorem c4_nan_infinity_dimensions_produce_no_diagnostic :
    validateCanonicalAst (some c4SceneNaN) = [] ∧
    validateCanonicalAst (some c4SceneInf) = [] := by
  constructor <;> rfl

/-! ### Claim C5 — Tier-1 errors suppress required-prop diagnostics -/

/-- Every diagnostic of the duplicate-id check carries
`E_NODE_DUPLICATE_ID`. -/
theorem dupDiagsAux_codes (nodes : List SceneNode) :
    ∀ (seen : List String), ∀ d ∈ dupDiagsAux seen nodes,
      d.code = SVJifErrorCode.E_NODE_DUPLICATE_ID := by
  induction nodes with
  | nil => intro seen d hd; simp [dupDiagsAux] at hd
  | cons n rest ih =>
    intro seen d hd
    simp only [dupDiagsAux, List.mem_append] at hd
    rcases hd with hd | hd
    · split at hd <;> simp_all
    · exact ih _ d hd

/-- The Tier-1 checks only emit the seven structural error codes. -/
theorem tier1Diags_codes (ast : CanonicalSceneAst) :
    ∀ d ∈ tier1Diags ast,
      d.code = SVJifErrorCode.E_SCENE_DIMENSIONS_INVALID ∨
      d.code = SVJifErrorCode.E_NODE_KIND_INVALID ∨
      d.code = SVJifErrorCode.E_NODE_DUPLICATE_ID ∨
      d.code = SVJifErrorCode.E_PARENT_NOT_FOUND ∨
      d.code = SVJifErrorCode.E_BIND_TARGET_NOT_FOUND ∨
      d.code = SVJifErrorCode.E_REF_TARGET_NOT_FOUND ∨
      d.code = SVJifErrorCode.E_CYCLE_DETECTED := by
  intro d hd
  simp only [tier1Diags, List.mem_append] at hd
  rcases hd with ((((hd | hd) | hd) | hd) | hd)
  · left
    simp only [sceneDimensionsDiags] at hd
    split at hd <;> simp_all
  · right; left
    simp only [nodeKindDiags, List.mem_flatMap] at hd
    rcases hd with ⟨n, _, hd⟩
    split at hd <;> simp_all
  · right; right; left
    exact dupDiagsAux_codes ast.nodes [] d hd
  · simp only [danglingDiags, List.mem_append] at hd
    rcases hd with (hd | hd) | hd
    · right; right; right; left
      simp only [List.mem_flatMap] at hd
      rcases hd with ⟨n, _, hd⟩
      rcases hn : n.parentId with _ | p <;> rw [hn] at hd
      · simp at hd
      · split at hd <;> simp_all
    · right; right; right; right; left
      simp only [List.mem_flatMap] at hd
      rcases hd with ⟨b, _, hd⟩
      split at hd <;> simp_all
    · right; right; right; right; right; left
      simp only [List.mem_flatMap] at hd
      rcases hd with ⟨a, _, hd⟩
      split at hd <;> simp_all
  · right; right; right; right; right; right
    simp only [cycleDiags, List.mem_map] at hd
    rcases hd with ⟨i, _, rfl⟩
    rfl

/-- C5: whenever any Tier-1 (structural) check produced an error-severity
diagnostic, the diagnostics returned by `validateCanonicalAst` contain no
`E_PROP_REQUIRED_MISSING` entry: the required-props check runs only when
Tier 1 is clean. -/
theorem c5_tier1_errors_suppress_required_props (ast : CanonicalSceneAst)
    (h : (tier1Diags ast).any (fun d => d.severity = Severity.error) = true) :
    ∀ d ∈ validateCanonicalAst (some ast),
      d.code ≠ SVJifErrorCode.E_PROP_REQUIRED_MISSING := by
  intro d hd
  have hval : validateCanonicalAst (some ast) = tier1Diags ast := by
    simp [validateCanonicalAst, h]
  rw [hval] at hd
  rcases tier1Diags_codes ast d hd with h' | h' | h' | h' | h' | h' | h' <;>
    (rw [h']; decide)

/-- The spec's two-node mutual-parent cycle (`A.parentId = B`,
`B.parentId = A`), with `A` a `Rect` that is also missing its required
props. -/
def c5CycleAst : CanonicalSceneAst :=
  { scene := { id := "scene:test", width := .fin 800, height := .fin 600 },
    nodes :=
      [{ id := "A", kind := "Rect", parentId := some "B" },
       { id := "B", kind := "Group", parentId := some "A" }] }

/-- Witness for C5 at the two-node cycle: Tier 1 reports an error
(`E_CYCLE_DETECTED` is present) and no missing-prop diagnostic appears. -/
theorem c5_witness :
    ((tier1Diags c5CycleAst).any (fun d => d.severity = Severity.error) = true) ∧
    ((validateCanonicalAst (some c5CycleAst)).map (fun d => d.code)).contains
      SVJifErrorCode.E_CYCLE_DETECTED = true ∧
    ∀ d ∈ validateCanonicalAst (some c5CycleAst),
      d.code ≠ SVJifErrorCode.E_PROP_REQUIRED_MISSING :=
  ⟨by decide, by decide,
    c5_tier1_errors_suppress_required_props c5CycleAst (by decide)⟩


/-! ### Claim C8 — `buildIdentifierMap` rejects duplicate sources -/

/-- C8: for every list of source strings containing at least one duplicate,
`buildIdentifierMap` fails immediately with the contract-violation error
(it does not return a map); for duplicate-free inputs it returns a map
keyed by every original source in the caller's input order. -/
theorem c8_buildIdentifierMap_contract (toIdent : String → String)
    (sources : List String) :
    (¬ sources.Nodup → buildIdentifierMap toIdent sources =
      .error "buildIdentifierMap: duplicate source strings are not supported") ∧
    (sources.Nodup → ∃ m, buildIdentifierMap toIdent sources = .ok m ∧
      m.map Prod.fst = sources) := by
  have hiff : sources.dedup.length = sources.length ↔ sources.Nodup := by
    constructor
    · intro h
      have heq := List.Sublist.eq_of_length (List.dedup_sublist sources) h
      rw [← heq]
      exact List.nodup_dedup sources
    · intro h
      rw [List.dedup_eq_self.mpr h]
  constructor
  · intro h
    have hne : sources.dedup.length ≠ sources.length := fun hc => h (hiff.mp hc)
    simp [buildIdentifierMap, hne]
  · intro h
    have heq : sources.dedup.length = sources.length := hiff.mpr h
    refine ⟨sources.enum.map
      (fun p => (p.2, assignIdentifiers toIdent sources p.1)), ?_, ?_⟩
    · simp [buildIdentifierMap, heq]
    · rw [List.map_map]
      exact List.enum_map_snd sources

/-- Duplicate sources for the C8 witness. -/
def c8DupSources : List String := ["a", "b", "a"]
/-- The spec's identifier-collision pair, duplicate-free. -/
def c8OkSources : List String := ["foo-bar", "fooBar"]

/-- Witness for C8: the duplicated list `["a", "b", "a"]` errors, the
collision pair `["foo-bar", "fooBar"]` yields a map keyed in input
order. -/
theorem c8_witness :
    (¬ c8DupSources.Nodup ∧ buildIdentifierMap (fun s => s) c8DupSources =
      .error "buildIdentifierMap: duplicate source strings are not supported") ∧
    (c8OkSources.Nodup ∧ ∃ m, buildIdentifierMap (fun s => s) c8OkSources = .ok m ∧
      m.map Prod.fst = c8OkSources) :=
  ⟨⟨by decide,
    (c8_buildIdentifierMap_contract (fun s => s) c8DupSources).1 (by decide)⟩,
   ⟨by decide,
    (c8_buildIdentifierMap_contract (fun s => s) c8OkSources).2 (by decide)⟩⟩

/-! ### Claim C7 — receipt artifact shape and determinism -/

/-- `stableStringify` succeeds whenever `normalize` does: both arms of the
serializer dispatch produce a string. -/
theorem stableStringify_ok_of_normalize_ok {v : JsValue} {n : JsValue}
    (sp : Option Nat) (h : normalize v = .ok n) :
    ∃ c, stableStringify v sp = .ok c := by
  unfold stableStringify
  rw [h]
  show ∃ c, (match serializeJson (gapOfSpace sp) "" n with
    | some s => pure s
    | none => pure "undefined" : Except String String) = .ok c
  cases serializeJson (gapOfSpace sp) "" n with
  | some s => exact ⟨s, rfl⟩
  | none => exact ⟨"undefined", rfl⟩

/-- The receipt object exactly as the claim words it: `comparatorVersion
"1"`, `inputHash` = hash of the raw input source, `irHash` = hash of the
emitted IR text, `irHashAlg "sha256"`, `irVersion`, and
`rulesetFingerprint` = hash of the sorted validator rule ids joined by
newline. Written from the spec to be compared against the source's
`emitReceiptArtifact`. -/
def receiptContentsSpec (hashFn : String → String) (input : CompilerInput)
    (irContent : String) (ruleIds : List String) : JsValue :=
  .vObj [("comparatorVersion", .vStr "1"),
    ("inputHash", .vStr (hashFn input.source)),
    ("irHash", .vStr (hashFn irContent)),
    ("irHashAlg", .vStr "sha256"),
    ("irVersion", .vStr "svjif-ir/1"),
    ("rulesetFingerprint", .vStr (hashFn (String.intercalate "\n"
      (sortJs (fun a b => cmpStr a b ≤ 0) ruleIds))))]

/-- C7: `emitReceiptArtifact` produces exactly the receipt object of
`receiptContentsSpec`, stable-serialized, at the receipt path; and the
receipt depends on the input only through its raw `source` text, so two
compilations of byte-identical input produce byte-identical receipts. -/
theorem c7_receipt_shape_and_determinism (hashFn : String → String)
    (input : CompilerInput) (irContent : String) (ruleIds : List String) :
    (∃ c, stableStringify
        (receiptContentsSpec hashFn input irContent ruleIds) (some 2) = .ok c ∧
      emitReceiptArtifact hashFn input irContent ruleIds =
        .ok { path := IR_RECEIPT_KEY, content := c,
              mediaType := some "application/json",
              encoding := some "utf8" }) ∧
    (∀ input₂ : CompilerInput, input₂.source = input.source →
      emitReceiptArtifact hashFn input₂ irContent ruleIds =
        emitReceiptArtifact hashFn input irContent ruleIds) := by
  constructor
  · have hn : normalize (receiptContentsSpec hashFn input irContent ruleIds) =
        .ok (.vObj (sortJs fieldLe
          [("comparatorVersion", .vStr "1"),
           ("inputHash", .vStr (hashFn input.source)),
           ("irHash", .vStr (hashFn irContent)),
           ("irHashAlg", .vStr "sha256"),
           ("irVersion", .vStr "svjif-ir/1"),
           ("rulesetFingerprint", .vStr (hashFn (String.intercalate "\n"
             (sortJs (fun a b => cmpStr a b ≤ 0) ruleIds))))])) := by
      simp only [receiptContentsSpec, normalize, normalizeFields,
        isUnrepresentable]
      rfl
    rcases stableStringify_ok_of_normalize_ok (some 2) hn with ⟨c, hc⟩
    refine ⟨c, hc, ?_⟩
    simp only [emitReceiptArtifact]
    rw [show (stableStringify (JsValue.vObj
      [("comparatorVersion", .vStr COMPARATOR_VERSION),
       ("inputHash", .vStr (hashFn input.source)),
       ("irHash", .vStr (hashFn irContent)),
       ("irHashAlg", .vStr IR_HASH_ALG),
       ("irVersion", .vStr IR_VERSION),
       ("rulesetFingerprint", .vStr (hashFn (String.intercalate "\n"
         (sortJs (fun a b => cmpStr a b ≤ 0) ruleIds))))]) (some 2)) =
      Except.ok c from hc]
    rfl
  · intro input₂ hsrc
    simp only [emitReceiptArtifact, hsrc]

/-- Concrete input for the C7 witness. -/
def c7Input : CompilerInput := { format := "canonical-ast-json", source := "SRC" }

/-- Same source text as `c7Input`, different filename. -/
def c7Input2 : CompilerInput :=
  { format := "canonical-ast-json", source := "SRC",
    filename := some "scene.json" }

/-- Witness for C7: two inputs with byte-identical source yield equal
receipts. -/
theorem c7_witness :
    c7Input2.source = c7Input.source ∧
    emitReceiptArtifact (fun s => s) c7Input2 "IR" VALIDATION_RULE_IDS =
      emitReceiptArtifact (fun s => s) c7Input "IR" VALIDATION_RULE_IDS :=
  ⟨rfl, (c7_receipt_shape_and_determinism (fun s => s) c7Input "IR"
    VALIDATION_RULE_IDS).2 c7Input2 rfl⟩

/-! ### Claim C9 — `compile` never propagates an exception -/

/-- C9: `compile` is a total function into `CompileResult` — by its type
it can never propagate an exception to the caller, whatever the adapter
dependencies do. When the body of the `try` block escapes with an
exception (an `.error` of `compileBody`, carrying the diagnostics pushed
and the artifacts assigned before the fault), the result is `ok := false`,
it retains exactly those accumulated artifacts (so IR and receipt survive
a later types-emitter failure, and `metadata.irVersion` is derived from
them), and the accumulated diagnostics are extended by exactly one
diagnostic, which carries `E_INTERNAL_INVARIANT`. -/
theorem c9_compile_never_propagates (deps : CompileDeps)
    (input : CompilerInput) :
    (∀ r, compileBody deps input = .ok r → compile deps input = r) ∧
    (∀ e ds arts, compileBody deps input = .error (e, ds, arts) →
      compile deps input =
        finalize false none arts (ds ++ [internalFailureDiag input])
          input.format ∧
      (compile deps input).ok = false ∧
      (compile deps input).artifacts = arts ∧
      (compile deps input).diagnostics = ds ++ [internalFailureDiag input] ∧
      (internalFailureDiag input).code =
        SVJifErrorCode.E_INTERNAL_INVARIANT ∧
      (compile deps input).diagnostics.countP
          (fun d => d.code = SVJifErrorCode.E_INTERNAL_INVARIANT) =
        ds.countP (fun d => d.code = SVJifErrorCode.E_INTERNAL_INVARIANT)
          + 1) := by
  constructor
  · intro r h
    simp [compile, h]
  · intro e ds arts h
    have hc : compile deps input =
        finalize false none arts (ds ++ [internalFailureDiag input])
          input.format := by
      simp [compile, h]
    refine ⟨hc, by rw [hc]; rfl, by rw [hc]; rfl, by rw [hc]; rfl, rfl, ?_⟩
    rw [hc]
    show (ds ++ [internalFailureDiag input]).countP _ = _
    rw [List.countP_append]
    simp [internalFailureDiag]

/-- Adapter dependencies whose parse phase throws, for the C9 witness. -/
def c9Deps : CompileDeps :=
  { hashFn := fun s => s,
    parsePhase := fun _ => .error ("boom", []),
    emitTypesPhase := fun _ => .error "no types emitter" }

/-- Concrete input for the C9 witness. -/
def c9Input : CompilerInput := { format := "graphql-sdl", source := "x" }

/-- A parseable empty scene, for the types-failure path of the C9
witness. -/
def c9Ast : CanonicalSceneAst :=
  { scene := { id := "s", width := .fin 800, height := .fin 600 },
    nodes := [] }

/-- Adapter dependencies whose parse succeeds and whose types emitter
throws after IR and receipt have been assigned. -/
def c9TypesDeps : CompileDeps :=
  { hashFn := fun s => s,
    parsePhase := fun _ => .ok ([], some c9Ast),
    emitTypesPhase := fun _ => .error "types emitter exploded" }

/-- Input for the types-failure path of the C9 witness. -/
def c9TypesInput : CompilerInput :=
  { format := "canonical-ast-json", source := "SRC" }

/-- Witness for C9: with a throwing parse phase, `compile` still returns
a result — `ok = false` with the single internal-invariant diagnostic and
no artifacts; and when the types emitter throws after the IR phase, the
already-assigned IR and receipt artifacts (and the derived
`metadata.irVersion`) survive into the `ok = false` result. -/
theorem c9_witness :
    compileBody c9Deps c9Input = .error ("boom", [], []) ∧
    (compile c9Deps c9Input).ok = false ∧
    (compile c9Deps c9Input).diagnostics = [internalFailureDiag c9Input] ∧
    (compile c9TypesDeps c9TypesInput).ok = false ∧
    (compile c9TypesDeps c9TypesInput).artifacts.map Prod.fst
      = [IR_ARTIFACT_KEY, IR_RECEIPT_KEY] ∧
    (compile c9TypesDeps c9TypesInput).metadata.irVersion = some IR_VERSION ∧
    (compile c9TypesDeps c9TypesInput).diagnostics
      = [internalFailureDiag c9TypesInput] :=
  ⟨rfl,
   ((c9_compile_never_propagates c9Deps c9Input).2 "boom" [] [] rfl).2.1,
   by
    have h :=
      ((c9_compile_never_propagates c9Deps c9Input).2 "boom" [] [] rfl).2.2.2.1
    simpa using h,
   by rfl, by rfl, by rfl, by rfl⟩

/-! ### Order theory for the comparators -/

/-- `charsLt` decides the lexicographic order on character lists. -/
theorem charsLt_iff : ∀ (cs ds : List Char),
    charsLt cs ds = true ↔ List.Lex (· < ·) cs ds := by
  intro cs
  induction cs with
  | nil =>
    intro ds
    cases ds with
    | nil =>
      simp only [charsLt, Bool.false_eq_true, false_iff]
      intro h
      cases h
    | cons d ds =>
      simp only [charsLt, true_iff]
      exact List.Lex.nil
  | cons c cs ih =>
    intro ds
    cases ds with
    | nil =>
      simp only [charsLt, Bool.false_eq_true, false_iff]
      intro h
      cases h
    | cons d ds =>
      simp only [charsLt]
      by_cases h1 : c < d
      · simp only [h1, if_true, true_iff]
        exact List.Lex.rel h1
      · by_cases h2 : d < c
        · simp only [h1, h2, if_false, if_true, Bool.false_eq_true, false_iff]
          intro h
          cases h with
          | cons h => exact absurd h2 (lt_irrefl c)
          | rel h => exact absurd h h1
        · have hcd : c = d := le_antisymm (le_of_not_lt h2) (le_of_not_lt h1)
          subst hcd
          simp only [h1, h2, if_false, ih ds]
          constructor
          · exact fun h => List.Lex.cons h
          · intro h
            cases h with
            | cons h => exact h
            | rel h => exact absurd h h1

/-- `strLt` decides `<` on strings. -/
theorem strLt_iff (a b : String) : strLt a b = true ↔ a < b := by
  rw [String.lt_iff_toList_lt]
  exact charsLt_iff a.data b.data

/-- `cmpStr a b <= 0` means `a <= b`. -/
theorem cmpStr_le_zero_iff (a b : String) : cmpStr a b ≤ 0 ↔ a ≤ b := by
  unfold cmpStr
  by_cases h1 : strLt a b = true
  · simp [h1, le_of_lt ((strLt_iff a b).mp h1)]
  · by_cases h2 : strLt b a = true
    · simp [h1, h2, not_le.mpr ((strLt_iff b a).mp h2)]
    · have hba : ¬ b < a := fun hc => h2 ((strLt_iff b a).mpr hc)
      simp [h1, h2, le_of_not_lt hba]

/-- `cmpStr a b = 0` means `a = b`. -/
theorem cmpStr_eq_zero_iff (a b : String) : cmpStr a b = 0 ↔ a = b := by
  unfold cmpStr
  by_cases h1 : strLt a b = true
  · rw [if_pos h1]
    simp [ne_of_lt ((strLt_iff a b).mp h1)]
  · rw [if_neg h1]
    by_cases h2 : strLt b a = true
    · rw [if_pos h2]
      have hba := (strLt_iff b a).mp h2
      constructor
      · intro hc; exact absurd hc (by decide)
      · intro hc; exact absurd hc.symm (ne_of_lt hba)
    · rw [if_neg h2]
      have hab : ¬ a < b := fun hc => h1 ((strLt_iff a b).mpr hc)
      have hba : ¬ b < a := fun hc => h2 ((strLt_iff b a).mpr hc)
      simp [le_antisymm (le_of_not_lt hba) (le_of_not_lt hab)]

/-- `cmpStr a b < 0` means `a < b`. -/
theorem cmpStr_neg_iff (a b : String) : cmpStr a b < 0 ↔ a < b := by
  unfold cmpStr
  by_cases h1 : strLt a b = true
  · rw [if_pos h1]
    have hab := (strLt_iff a b).mp h1
    exact ⟨fun _ => hab, fun _ => by decide⟩
  · rw [if_neg h1]
    have hnab : ¬ a < b := fun hc => h1 ((strLt_iff a b).mpr hc)
    by_cases h2 : strLt b a = true
    · rw [if_pos h2]
      exact ⟨fun hc => absurd hc (by decide), fun hc => absurd hc hnab⟩
    · rw [if_neg h2]
      exact ⟨fun hc => absurd hc (by decide), fun hc => absurd hc hnab⟩

/-- The `zIndex` component of the spec's triple key, as an integer; only
meaningful on nodes whose (normalized) `zIndex` is finite. -/
def zIntOf (n : SceneNode) : Int :=
  match normalizeZIndex n.zIndex with
  | .fin v => v
  | _ => 0

/-- The spec's triple key order: `zIndex` ascending, then `kind`
ascending bytewise, then `id` ascending bytewise. -/
def tripleKeyLe (a b : SceneNode) : Prop :=
  zIntOf a < zIntOf b ∨ (zIntOf a = zIntOf b ∧
    (a.kind < b.kind ∨ (a.kind = b.kind ∧ a.id ≤ b.id)))

instance (a b : SceneNode) : Decidable (tripleKeyLe a b) := by
  unfold tripleKeyLe
  infer_instance

def keyLeB (a b : SceneNode) : Bool :=
  decide (tripleKeyLe a b)

/-- The triple key order is total. -/
theorem keyLeB_total (a b : SceneNode) :
    keyLeB a b = true ∨ keyLeB b a = true := by
  simp only [keyLeB, decide_eq_true_eq]
  unfold tripleKeyLe
  rcases lt_trichotomy (zIntOf a) (zIntOf b) with h | h | h
  · exact Or.inl (Or.inl h)
  · rcases lt_trichotomy a.kind b.kind with hk | hk | hk
    · exact Or.inl (Or.inr ⟨h, Or.inl hk⟩)
    · rcases le_total a.id b.id with hi | hi
      · exact Or.inl (Or.inr ⟨h, Or.inr ⟨hk, hi⟩⟩)
      · exact Or.inr (Or.inr ⟨h.symm, Or.inr ⟨hk.symm, hi⟩⟩)
    · exact Or.inr (Or.inr ⟨h.symm, Or.inl hk⟩)
  · exact Or.inr (Or.inl h)

/-- The triple key order is transitive. -/
theorem keyLeB_trans (a b c : SceneNode)
    (h1 : keyLeB a b = true) (h2 : keyLeB b c = true) :
    keyLeB a c = true := by
  simp only [keyLeB, decide_eq_true_eq] at *
  unfold tripleKeyLe at *
  rcases h1 with h1 | ⟨h1z, h1k⟩
  · rcases h2 with h2 | ⟨h2z, _⟩
    · exact Or.inl (h1.trans h2)
    · exact Or.inl (h2z ▸ h1)
  · rcases h2 with h2 | ⟨h2z, h2k⟩
    · exact Or.inl (h1z ▸ h2)
    · refine Or.inr ⟨h1z.trans h2z, ?_⟩
      rcases h1k with h1k | ⟨h1k, h1i⟩
      · rcases h2k with h2k | ⟨h2k, _⟩
        · exact Or.inl (h1k.trans h2k)
        · exact Or.inl (h2k ▸ h1k)
      · rcases h2k with h2k | ⟨h2k, h2i⟩
        · exact Or.inl (h1k ▸ h2k)
        · exact Or.inr ⟨h1k.trans h2k, h1i.trans h2i⟩

/-- Mutually `keyLeB`-related nodes share their `id`. -/
theorem keyLeB_antisymm (a b : SceneNode)
    (h1 : keyLeB a b = true) (h2 : keyLeB b a = true) : a.id = b.id := by
  simp only [keyLeB, decide_eq_true_eq] at *
  unfold tripleKeyLe at *
  rcases h1 with h1 | ⟨h1z, h1k⟩
  · rcases h2 with h2 | ⟨h2z, _⟩
    · exact absurd (h1.trans h2) (lt_irrefl _)
    · exact absurd h1 (h2z ▸ lt_irrefl _)
  · rcases h2 with h2 | ⟨h2z, h2k⟩
    · exact absurd h2 (h1z ▸ lt_irrefl _)
    · rcases h1k with h1k | ⟨h1k, h1i⟩
      · rcases h2k with h2k | ⟨h2k, _⟩
        · exact absurd (h1k.trans h2k) (lt_irrefl _)
        · exact absurd h1k (h2k ▸ lt_irrefl _)
      · rcases h2k with h2k | ⟨h2k, h2i⟩
        · exact absurd h2k (h1k ▸ lt_irrefl _)
        · exact le_antisymm h1i h2i

/-- On nodes with finite (normalized) `zIndex`, the source's sort
comparator decides exactly the spec's triple key order. -/
theorem nodeLe_eq_keyLeB (a b : SceneNode)
    (ha : (normalizeZIndex a.zIndex).isFinite = true)
    (hb : (normalizeZIndex b.zIndex).isFinite = true) :
    nodeLe a b = keyLeB a b := by
  rcases hza : normalizeZIndex a.zIndex with _ | _ | _ | za <;> rw [hza] at ha <;>
    simp [JsNum.isFinite] at ha
  rcases hzb : normalizeZIndex b.zIndex with _ | _ | _ | zb <;> rw [hzb] at hb <;>
    simp [JsNum.isFinite] at hb
  have hzia : zIntOf a = za := by simp [zIntOf, hza]
  have hzib : zIntOf b = zb := by simp [zIntOf, hzb]
  have hiff : (cmpNodes a b ≤ 0) ↔ tripleKeyLe a b := by
    unfold cmpNodes tripleKeyLe
    rw [hza, hzb, hzia, hzib]
    show ((if JsNum.strictNeZero (JsNum.sub (.fin za) (.fin zb)) = true
        then JsNum.toSortInt (JsNum.sub (.fin za) (.fin zb))
        else if cmpStr a.kind b.kind ≠ 0 then cmpStr a.kind b.kind
          else cmpStr a.id b.id) ≤ 0) ↔ _
    simp only [JsNum.sub, JsNum.strictNeZero, JsNum.toSortInt]
    by_cases hz : za = zb
    · subst hz
      simp only [sub_self, ne_eq, not_true_eq_false, decide_False,
        Bool.false_eq_true, if_false]
      by_cases hk : cmpStr a.kind b.kind = 0
      · have hkk : a.kind = b.kind := (cmpStr_eq_zero_iff _ _).mp hk
        simp only [hk, ne_eq, not_true_eq_false, if_false]
        rw [cmpStr_le_zero_iff]
        constructor
        · intro h
          exact Or.inr ⟨trivial, Or.inr ⟨hkk, h⟩⟩
        · rintro (h | ⟨_, h | ⟨_, h⟩⟩)
          · exact absurd h (lt_irrefl _)
          · exact absurd h (hkk ▸ lt_irrefl _)
          · exact h
      · simp only [ne_eq, hk, not_false_eq_true, if_true]
        have hcle : cmpStr a.kind b.kind ≤ 0 ↔ a.kind < b.kind := by
          rw [cmpStr_le_zero_iff]
          constructor
          · intro h
            exact lt_of_le_of_ne h (fun hc => hk ((cmpStr_eq_zero_iff _ _).mpr hc))
          · exact le_of_lt
        rw [hcle]
        constructor
        · intro h
          exact Or.inr ⟨trivial, Or.inl h⟩
        · rintro (h | ⟨_, h | ⟨hkk, _⟩⟩)
          · exact absurd h (lt_irrefl _)
          · exact h
          · exact absurd hkk (fun hc => hk ((cmpStr_eq_zero_iff _ _).mpr hc))
    · have hne : decide (za - zb ≠ 0) = true := by
        simp
        omega
      rw [hne]
      simp only [if_true]
      constructor
      · intro h
        exact Or.inl (by omega)
      · rintro (h | ⟨hzz, _⟩)
        · omega
        · exact absurd hzz hz
  show decide (cmpNodes a b ≤ 0) = decide (tripleKeyLe a b)
  exact decide_eq_decide.mpr hiff

/-- Insertion only compares the inserted element against list members. -/
theorem insertLe_congr {α : Type} (le₁ le₂ : α → α → Bool) (x : α)
    (l : List α) (h : ∀ b ∈ l, le₁ b x = le₂ b x) :
    insertLe le₁ x l = insertLe le₂ x l := by
  induction l with
  | nil => rfl
  | cons y ys ih =>
    simp only [insertLe, h y (by simp)]
    by_cases hy : le₂ y x = true
    · simp [hy, ih (fun b hb => h b (by simp [hb]))]
    · simp [hy]

/-- The sorting fold only evaluates the comparator on elements drawn from
the input and accumulator. -/
theorem sortJsAux_congr {α : Type} (le₁ le₂ : α → α → Bool) (S : List α)
    (h : ∀ a ∈ S, ∀ b ∈ S, le₁ a b = le₂ a b) :
    ∀ (l acc : List α), (∀ a ∈ l, a ∈ S) → (∀ a ∈ acc, a ∈ S) →
      List.foldl (fun acc x => insertLe le₁ x acc) acc l =
      List.foldl (fun acc x => insertLe le₂ x acc) acc l := by
  intro l
  induction l with
  | nil => intro acc _ _; rfl
  | cons x xs ih =>
    intro acc hl hacc
    simp only [List.foldl_cons]
    have hins : insertLe le₁ x acc = insertLe le₂ x acc :=
      insertLe_congr le₁ le₂ x acc
        (fun b hb => h b (hacc b hb) x (hl x (by simp)))
    rw [hins]
    exact ih _ (fun a ha => hl a (by simp [ha]))
      (fun a ha =>
        match List.mem_cons.mp ((insertLe_perm le₂ x acc).mem_iff.mp ha) with
        | Or.inl hax => hax ▸ hl x (by simp)
        | Or.inr haacc => hacc a haacc)

/-- Two comparators that agree on all pairs of list elements sort the
list identically. -/
theorem sortJs_congr {α : Type} (le₁ le₂ : α → α → Bool) (l : List α)
    (h : ∀ a ∈ l, ∀ b ∈ l, le₁ a b = le₂ a b) :
    sortJs le₁ l = sortJs le₂ l :=
  sortJsAux_congr le₁ le₂ l h l [] (fun _ ha => ha) (by simp)

/-- With every `zIndex` finite, `sortReady` is the sort by the spec's
triple key. -/
theorem sortReady_eq_keySort (l : List SceneNode)
    (hfin : ∀ n ∈ l, (normalizeZIndex n.zIndex).isFinite = true) :
    sortReady l = sortJs keyLeB l :=
  sortJs_congr nodeLe keyLeB l
    (fun a ha b hb => nodeLe_eq_keyLeB a b (hfin a ha) (hfin b hb))

theorem keySort_sorted (l : List SceneNode) :
    (sortJs keyLeB l).Pairwise (fun a b => keyLeB a b = true) :=
  sortJs_sorted keyLeB keyLeB_total keyLeB_trans l

/-- Permutations with distinct ids and finite z-indexes have one
canonical `sortReady` image. -/
theorem sortReady_canonical (l₁ l₂ : List SceneNode)
    (hperm : List.Perm l₁ l₂)
    (hfin : ∀ n ∈ l₁, (normalizeZIndex n.zIndex).isFinite = true)
    (hnodup : (l₁.map SceneNode.id).Nodup) :
    sortReady l₁ = sortReady l₂ := by
  have hfin₂ : ∀ n ∈ l₂, (normalizeZIndex n.zIndex).isFinite = true :=
    fun n hn => hfin n (hperm.mem_iff.mpr hn)
  rw [sortReady_eq_keySort l₁ hfin, sortReady_eq_keySort l₂ hfin₂]
  apply sorted_perm_eq keyLeB _ _
    ((sortJs_perm _ _).trans (hperm.trans (sortJs_perm keyLeB l₂).symm))
    (keySort_sorted _) (keySort_sorted _)
  intro a ha b hb h1 h2
  have ha₁ : a ∈ l₁ := (sortJs_perm keyLeB l₁).mem_iff.mp ha
  have hb₁ : b ∈ l₁ := (sortJs_perm keyLeB l₁).mem_iff.mp hb
  exact List.inj_on_of_nodup_map hnodup ha₁ hb₁ (keyLeB_antisymm a b h1 h2)

/-! ### Permutation invariance of the Kahn pipeline and
key-order invariance of `stableStringify` -/

theorem countKey_perm {α : Type} (keyF : α → String) {l1 l2 : List α}
    (h : List.Perm l1 l2) (x : String) :
    countKey keyF l1 x = countKey keyF l2 x := by
  simp only [countKey]
  rw [← List.countP_eq_length_filter, ← List.countP_eq_length_filter]
  exact h.countP_eq _

theorem buildInDegree_perm {nodes1 nodes2 : List SceneNode}
    (h : List.Perm nodes1 nodes2) (u : String) :
    buildInDegree nodes1 u = buildInDegree nodes2 u := by
  rw [buildInDegree_spec, buildInDegree_spec]
  have hkey : ∀ p, p ∈ nodeIds nodes1 ↔ p ∈ nodeIds nodes2 :=
    fun p => (h.map (fun n => n.id)).mem_iff
  have hcong : nodes1.countP (fun n =>
      decide (n.id = u) &&
      match n.parentId with
      | some p => decide (p ∈ nodeIds nodes1)
      | none => false)
      = nodes1.countP (fun n =>
      decide (n.id = u) &&
      match n.parentId with
      | some p => decide (p ∈ nodeIds nodes2)
      | none => false) := by
    apply List.countP_congr
    intro n _
    cases n.parentId with
    | none => rfl
    | some p =>
        have : decide (p ∈ nodeIds nodes1) = decide (p ∈ nodeIds nodes2) :=
          decide_eq_decide.mpr (hkey p)
        simp only [this]
  rw [hcong]
  exact congrArg _ (h.countP_eq _)

theorem childrenOf_perm {nodes1 nodes2 : List SceneNode}
    (h : List.Perm nodes1 nodes2) (p : String) :
    List.Perm (childrenOf nodes1 p) (childrenOf nodes2 p) := by
  by_cases hmem : p ∈ nodeIds nodes1
  · have hmem2 : p ∈ nodeIds nodes2 :=
      (h.map (fun n => n.id)).mem_iff.mp hmem
    rw [childrenOf, childrenOf, if_pos hmem, if_pos hmem2]
    exact h.filter _
  · have hmem2 : p ∉ nodeIds nodes2 :=
      fun hc => hmem ((h.map (fun n => n.id)).mem_iff.mpr hc)
    rw [childrenOf, childrenOf, if_neg hmem, if_neg hmem2]

theorem kahnStep_eq_filter {α : Type} (keyF : α → String) :
    ∀ (chs : List α) (deg : String → Int),
    ((chs.map keyF).Nodup) →
    (kahnStep keyF deg chs).2 = chs.filter (fun c => decide (deg (keyF c) = 1)) := by
  intro chs
  induction chs with
  | nil => intro deg _; rfl
  | cons c rest ih =>
    intro deg hnd
    simp only [List.map_cons, List.nodup_cons] at hnd
    rcases hnd with ⟨hc, hrest⟩
    show (if deg (keyF c) - 1 = 0 then [c] else []) ++
        (kahnStep keyF (fun x => if x = keyF c then deg (keyF c) - 1 else deg x)
          rest).2
      = List.filter (fun c => decide (deg (keyF c) = 1)) (c :: rest)
    rw [ih _ hrest]
    have hfeq : rest.filter (fun c2 => decide
        ((fun x => if x = keyF c then deg (keyF c) - 1 else deg x) (keyF c2) = 1))
        = rest.filter (fun c2 => decide (deg (keyF c2) = 1)) := by
      apply List.filter_congr
      intro c2 hc2
      have hne : ¬ keyF c2 = keyF c := by
        intro hk
        exact hc (hk ▸ List.mem_map.mpr ⟨c2, hc2, rfl⟩)
      simp only [if_neg hne]
    rw [hfeq, List.filter_cons]
    by_cases h1 : deg (keyF c) = 1
    · have hcond : decide (deg (keyF c) = 1) = true := by simp [h1]
      rw [if_pos hcond]
      have hz : deg (keyF c) - 1 = 0 := by omega
      rw [if_pos hz]
      simp
    · have hcond : ¬ (decide (deg (keyF c) = 1) = true) := by simp [h1]
      rw [if_neg hcond]
      have hz : ¬ (deg (keyF c) - 1 = 0) := by omega
      rw [if_neg hz]
      simp

theorem kahnRun_sim (nodes1 nodes2 : List SceneNode)
    (hperm : List.Perm nodes1 nodes2)
    (hids : (nodeIds nodes1).Nodup)
    (hfin : ∀ n ∈ nodes1, (normalizeZIndex n.zIndex).isFinite = true) :
    ∀ (fuel : Nat) (pending acc : List SceneNode) (deg : String → Int),
      (∀ x ∈ pending, x ∈ nodes1) →
      kahnRun SceneNode.id (childrenOf nodes1) topoMerge fuel pending deg acc
        = kahnRun SceneNode.id (childrenOf nodes2) topoMerge fuel pending deg acc := by
  intro fuel
  induction fuel with
  | zero => intro pending acc deg _; rfl
  | succ fuel ih =>
    intro pending acc deg hpend
    cases pending with
    | nil => rfl
    | cons x rest =>
      have hch : List.Perm (childrenOf nodes1 x.id) (childrenOf nodes2 x.id) :=
        childrenOf_perm hperm x.id
      have hchsub : ∀ c ∈ childrenOf nodes1 x.id, c ∈ nodes1 :=
        fun c hc => (childrenOf_mem hc).1
      have hchkeys1 : ((childrenOf nodes1 x.id).map SceneNode.id).Nodup := by
        by_cases hmem : x.id ∈ nodeIds nodes1
        · rw [childrenOf, if_pos hmem]
          exact List.Nodup.sublist
            ((List.filter_sublist _).map SceneNode.id) hids
        · rw [childrenOf, if_neg hmem]
          simp
      have hkeyperm : List.Perm (nodeIds nodes1) (nodeIds nodes2) := by
        simp only [nodeIds]
        exact hperm.map _
      have hids2 : (nodeIds nodes2).Nodup :=
        (List.Perm.nodup_iff hkeyperm).mp hids
      have hchkeys2 : ((childrenOf nodes2 x.id).map SceneNode.id).Nodup := by
        by_cases hmem : x.id ∈ nodeIds nodes2
        · rw [childrenOf, if_pos hmem]
          exact List.Nodup.sublist
            ((List.filter_sublist _).map SceneNode.id) hids2
        · rw [childrenOf, if_neg hmem]
          simp
      have hdeq : (kahnStep SceneNode.id deg (childrenOf nodes1 x.id)).1
          = (kahnStep SceneNode.id deg (childrenOf nodes2 x.id)).1 := by
        funext u
        rw [kahnStep_deg, kahnStep_deg, countKey_perm _ hch]
      have hsp : List.Perm (kahnStep SceneNode.id deg (childrenOf nodes1 x.id)).2
          (kahnStep SceneNode.id deg (childrenOf nodes2 x.id)).2 := by
        rw [kahnStep_eq_filter _ _ _ hchkeys1, kahnStep_eq_filter _ _ _ hchkeys2]
        exact hch.filter _
      have hempeq : (kahnStep SceneNode.id deg (childrenOf nodes1 x.id)).2.isEmpty
          = (kahnStep SceneNode.id deg (childrenOf nodes2 x.id)).2.isEmpty := by
        by_cases h1 : (kahnStep SceneNode.id deg (childrenOf nodes1 x.id)).2 = []
        · have h2 : (kahnStep SceneNode.id deg (childrenOf nodes2 x.id)).2 = [] := by
            have := hsp.length_eq
            rw [h1] at this
            exact List.length_eq_zero.mp this.symm
          rw [h1, h2]
        · have h2 : (kahnStep SceneNode.id deg (childrenOf nodes2 x.id)).2 ≠ [] := by
            intro hc
            have := hsp.length_eq
            rw [hc] at this
            exact h1 (List.length_eq_zero.mp this)
          rcases hl1 : (kahnStep SceneNode.id deg (childrenOf nodes1 x.id)).2 with
            _ | ⟨a, l⟩
          · exact absurd hl1 h1
          · rcases hl2 : (kahnStep SceneNode.id deg (childrenOf nodes2 x.id)).2 with
              _ | ⟨b, m⟩
            · exact absurd hl2 h2
            · rfl
      show kahnRun SceneNode.id (childrenOf nodes1) topoMerge fuel
          (if (kahnStep SceneNode.id deg (childrenOf nodes1 x.id)).2.isEmpty
           then rest
           else topoMerge rest
             (kahnStep SceneNode.id deg (childrenOf nodes1 x.id)).2)
          (kahnStep SceneNode.id deg (childrenOf nodes1 x.id)).1 (acc ++ [x])
        = kahnRun SceneNode.id (childrenOf nodes2) topoMerge fuel
          (if (kahnStep SceneNode.id deg (childrenOf nodes2 x.id)).2.isEmpty
           then rest
           else topoMerge rest
             (kahnStep SceneNode.id deg (childrenOf nodes2 x.id)).2)
          (kahnStep SceneNode.id deg (childrenOf nodes2 x.id)).1 (acc ++ [x])
      rw [← hdeq, ← hempeq]
      have hrest_sub : ∀ y ∈ rest, y ∈ nodes1 :=
        fun y hy => hpend y (List.mem_cons_of_mem x hy)
      by_cases hne : (kahnStep SceneNode.id deg (childrenOf nodes1 x.id)).2.isEmpty = true
      · rw [if_pos hne, if_pos hne]
        exact ih rest (acc ++ [x]) _ hrest_sub
      · rw [if_neg hne, if_neg hne]
        have hfinS : ∀ n ∈ (kahnStep SceneNode.id deg
            (childrenOf nodes1 x.id)).2,
            (normalizeZIndex n.zIndex).isFinite = true := by
          intro n hn
          exact hfin n (hchsub n (kahnStep_newly_sub _ _ _ n hn))
        have hnodupS : (((kahnStep SceneNode.id deg
            (childrenOf nodes1 x.id)).2).map SceneNode.id).Nodup :=
          kahnStep_newly_keys_nodup _ _ _
        have hsrteq : sortReady (kahnStep SceneNode.id deg
              (childrenOf nodes1 x.id)).2
            = sortReady (kahnStep SceneNode.id deg
              (childrenOf nodes2 x.id)).2 :=
          sortReady_canonical _ _ hsp hfinS hnodupS
        have hmeq : topoMerge rest (kahnStep SceneNode.id deg
              (childrenOf nodes1 x.id)).2
            = topoMerge rest (kahnStep SceneNode.id deg
              (childrenOf nodes2 x.id)).2 := by
          simp only [topoMerge]
          rw [hsrteq]
        rw [hmeq]
        apply ih
        intro y hy
        have hy1 : y ∈ rest ++ sortReady (kahnStep SceneNode.id deg
            (childrenOf nodes2 x.id)).2 :=
          (sortJs_perm nodeLe _).mem_iff.mp hy
        rcases List.mem_append.mp hy1 with hy1 | hy1
        · exact hrest_sub y hy1
        · have hy2 : y ∈ (kahnStep SceneNode.id deg
              (childrenOf nodes2 x.id)).2 :=
            (sortJs_perm nodeLe _).mem_iff.mp hy1
          have hy3 := kahnStep_newly_sub SceneNode.id _ deg y hy2
          exact hperm.mem_iff.mpr ((childrenOf_mem hy3).1)

theorem topoSort_perm_eq (ast1 ast2 : CanonicalSceneAst)
    (hperm : List.Perm ast1.nodes ast2.nodes)
    (hids : (nodeIds ast1.nodes).Nodup)
    (hfin : ∀ n ∈ ast1.nodes, (normalizeZIndex n.zIndex).isFinite = true) :
    topoSort ast1 = topoSort ast2 := by
  have hdeg : buildInDegree ast1.nodes = buildInDegree ast2.nodes :=
    funext (buildInDegree_perm hperm)
  have hkeyperm : List.Perm (nodeIds ast1.nodes) (nodeIds ast2.nodes) := by
    simp only [nodeIds]
    exact hperm.map _
  have hids2 : (nodeIds ast2.nodes).Nodup :=
    (List.Perm.nodup_iff hkeyperm).mp hids
  by_cases hemp : ast1.nodes.isEmpty = true
  · have h1 : ast1.nodes = [] := List.isEmpty_iff.mp hemp
    have h2 : ast2.nodes = [] := by
      have hlen := hperm.length_eq
      rw [h1] at hlen
      exact List.length_eq_zero.mp hlen.symm
    simp [topoSort, topoSortNodes, h1, h2]
  · have hemp2 : ¬ ast2.nodes.isEmpty = true := by
      intro hc
      have h2 : ast2.nodes = [] := List.isEmpty_iff.mp hc
      have hlen := hperm.length_eq
      rw [h2] at hlen
      exact hemp (List.isEmpty_iff.mpr (List.length_eq_zero.mp hlen))
    have hready : sortReady (ast1.nodes.filter
          (fun n => decide (buildInDegree ast1.nodes n.id = 0)))
        = sortReady (ast2.nodes.filter
          (fun n => decide (buildInDegree ast2.nodes n.id = 0))) := by
      rw [← hdeg]
      apply sortReady_canonical
      · exact hperm.filter _
      · intro n hn
        exact hfin n (List.mem_of_mem_filter hn)
      · exact List.Nodup.sublist ((List.filter_sublist _).map SceneNode.id) hids
    have hfuel : kahnFuel ast1.nodes = kahnFuel ast2.nodes := by
      simp only [kahnFuel, ← hdeg]
      have hlen := hperm.length_eq
      have hdsp : degSumPos (buildInDegree ast1.nodes)
            (insertionKeys (nodeIds ast1.nodes))
          = degSumPos (buildInDegree ast1.nodes)
            (insertionKeys (nodeIds ast2.nodes)) := by
        rw [insertionKeys_of_nodup _ hids, insertionKeys_of_nodup _ hids2]
        simp only [degSumPos]
        exact (hkeyperm.map _).sum_eq
      omega
    have hrun := kahnRun_sim ast1.nodes ast2.nodes hperm hids hfin
      (kahnFuel ast1.nodes)
      (sortReady (ast1.nodes.filter
        (fun n => decide (buildInDegree ast1.nodes n.id = 0))))
      [] (buildInDegree ast1.nodes)
      (fun x hx => List.mem_of_mem_filter
        ((sortJs_perm nodeLe _).mem_iff.mp hx))
    have hts : topoSortNodes ast1 = topoSortNodes ast2 := by
      simp only [topoSortNodes]
      rw [if_neg hemp, if_neg hemp2, ← hready, ← hdeg, ← hfuel, ← hrun]
      congr 1
      apply sortReady_canonical
      · exact hperm.filter _
      · intro n hn
        exact hfin n (List.mem_of_mem_filter hn)
      · exact List.Nodup.sublist ((List.filter_sublist _).map SceneNode.id) hids
    simp only [topoSort, hts]

theorem emit_perm_eq (ast1 ast2 : CanonicalSceneAst)
    (hscene : ast1.scene = ast2.scene)
    (hbind : ast1.bindings = ast2.bindings)
    (hanim : ast1.animations = ast2.animations)
    (hperm : List.Perm ast1.nodes ast2.nodes)
    (hids : (nodeIds ast1.nodes).Nodup)
    (hfin : ∀ n ∈ ast1.nodes, (normalizeZIndex n.zIndex).isFinite = true) :
    emitSvjifIrArtifact ast1 = emitSvjifIrArtifact ast2 := by
  have hts := topoSort_perm_eq ast1 ast2 hperm hids hfin
  have hir : irJsValue ast1 = irJsValue ast2 := by
    simp only [irJsValue, hscene, hbind, hanim, hts]
  simp only [emitSvjifIrArtifact, hir]

mutual

def keyCanon : JsValue → JsValue
  | .vNull => .vNull
  | .vBool b => .vBool b
  | .vNum n => .vNum n
  | .vStr s => .vStr s
  | .vUndefined => .vUndefined
  | .vFunction => .vFunction
  | .vSymbol => .vSymbol
  | .vBigInt v => .vBigInt v
  | .vArr elems => .vArr (keyCanonArr elems)
  | .vObj fields => .vObj (sortJs fieldLe (keyCanonFields fields))

def keyCanonArr : List JsValue → List JsValue
  | [] => []
  | v :: rest => keyCanon v :: keyCanonArr rest

def keyCanonFields :
    List (String × JsValue) → List (String × JsValue)
  | [] => []
  | (k, v) :: rest => (k, keyCanon v) :: keyCanonFields rest

end

mutual

def keysDistinct : JsValue → Bool
  | .vArr elems => keysDistinctArr elems
  | .vObj fields =>
      decide ((fields.map Prod.fst).Nodup) && keysDistinctFields fields
  | _ => true

def keysDistinctArr : List JsValue → Bool
  | [] => true
  | v :: rest => keysDistinct v && keysDistinctArr rest

def keysDistinctFields : List (String × JsValue) → Bool
  | [] => true
  | (_, v) :: rest => keysDistinct v && keysDistinctFields rest

end

theorem keyCanon_unrep (v : JsValue) :
    isUnrepresentable (keyCanon v) = isUnrepresentable v := by
  cases v <;> rfl

theorem fieldLe_total (a b : String × JsValue) :
    fieldLe a b = true ∨ fieldLe b a = true := by
  simp only [fieldLe, decide_eq_true_eq, cmpStr_le_zero_iff]
  exact le_total a.1 b.1

theorem fieldLe_trans (a b c : String × JsValue)
    (h1 : fieldLe a b = true) (h2 : fieldLe b c = true) :
    fieldLe a c = true := by
  simp only [fieldLe, decide_eq_true_eq, cmpStr_le_zero_iff] at *
  exact le_trans h1 h2

theorem fieldLe_antisymm_key (a b : String × JsValue)
    (h1 : fieldLe a b = true) (h2 : fieldLe b a = true) : a.1 = b.1 := by
  simp only [fieldLe, decide_eq_true_eq, cmpStr_le_zero_iff] at *
  exact le_antisymm h1 h2

theorem fieldSort_canonical (l1 l2 : List (String × JsValue))
    (hperm : List.Perm l1 l2) (hnodup : (l1.map Prod.fst).Nodup) :
    sortJs fieldLe l1 = sortJs fieldLe l2 := by
  apply sorted_perm_eq fieldLe _ _
    ((sortJs_perm _ _).trans (hperm.trans (sortJs_perm fieldLe l2).symm))
    (sortJs_sorted fieldLe fieldLe_total fieldLe_trans l1)
    (sortJs_sorted fieldLe fieldLe_total fieldLe_trans l2)
  intro a ha b hb h1 h2
  have ha1 : a ∈ l1 := (sortJs_perm fieldLe l1).mem_iff.mp ha
  have hb1 : b ∈ l1 := (sortJs_perm fieldLe l1).mem_iff.mp hb
  exact List.inj_on_of_nodup_map hnodup ha1 hb1 (fieldLe_antisymm_key a b h1 h2)

def exceptPerm {X : Type} :
    Except String (List X) → Except String (List X) → Prop
  | .error _, .error _ => True
  | .ok l1, .ok l2 => List.Perm l1 l2
  | _, _ => False

theorem except_bind_error {ε α β : Type} (e : ε) (k : α → Except ε β) :
    (Except.error e >>= k) = Except.error e := rfl

theorem except_bind_ok {ε α β : Type} (a : α) (k : α → Except ε β) :
    (Except.ok a >>= k) = k a := rfl

theorem except_pure_eq {ε α : Type} (a : α) :
    (pure a : Except ε α) = Except.ok a := rfl

theorem exceptPerm_trans {X : Type} {a b c : Except String (List X)}
    (h1 : exceptPerm a b) (h2 : exceptPerm b c) : exceptPerm a c := by
  cases a with
  | error e => cases b with
    | error e2 => cases c with
      | error e3 => exact trivial
      | ok l3 => exact (h2 : False).elim
    | ok l2 => exact (h1 : False).elim
  | ok l1 => cases b with
    | error e2 => exact (h1 : False).elim
    | ok l2 => cases c with
      | error e3 => exact (h2 : False).elim
      | ok l3 => exact List.Perm.trans (h1 : List.Perm l1 l2) (h2 : List.Perm l2 l3)

theorem exceptPerm_refl {X : Type} (a : Except String (List X)) :
    exceptPerm a a := by
  cases a with
  | error e => exact trivial
  | ok l => exact List.Perm.refl l

theorem normalizeFields_perm {f g : List (String × JsValue)}
    (h : List.Perm f g) :
    exceptPerm (normalizeFields f) (normalizeFields g) := by
  induction h with
  | nil =>
    show exceptPerm (.ok []) (.ok [])
    exact List.Perm.refl []
  | cons x h ih =>
    rcases x with ⟨k, v⟩
    rename_i f2 g2
    show exceptPerm (normalizeFields ((k, v) :: f2))
      (normalizeFields ((k, v) :: g2))
    simp only [normalizeFields]
    by_cases hu : isUnrepresentable v = true
    · simp only [if_pos hu]
      exact ih
    · simp only [if_neg hu]
      cases hnv : normalize v with
      | error e =>
        simp only [except_bind_error]
        exact trivial
      | ok v2 =>
        simp only [except_bind_ok]
        cases hnf : normalizeFields f2 with
        | error e =>
          rw [hnf] at ih
          cases hng : normalizeFields g2 with
          | error e2 =>
            simp only [except_bind_error]
            exact trivial
          | ok lg =>
            rw [hng] at ih
            exact (ih : False).elim
        | ok lf =>
          rw [hnf] at ih
          cases hng : normalizeFields g2 with
          | error e2 =>
            rw [hng] at ih
            exact (ih : False).elim
          | ok lg =>
            rw [hng] at ih
            simp only [except_bind_ok, except_pure_eq]
            show List.Perm ((k, v2) :: lf) ((k, v2) :: lg)
            exact List.Perm.cons _ (ih : List.Perm lf lg)
  | swap x y l =>
    rcases x with ⟨k1, v1⟩
    rcases y with ⟨k2, v2⟩
    show exceptPerm (normalizeFields ((k2, v2) :: (k1, v1) :: l))
      (normalizeFields ((k1, v1) :: (k2, v2) :: l))
    simp only [normalizeFields]
    by_cases hu1 : isUnrepresentable v1 = true <;>
      by_cases hu2 : isUnrepresentable v2 = true
    · simp only [if_pos hu1, if_pos hu2]
      exact exceptPerm_refl _
    · simp only [if_pos hu1, if_neg hu2]
      exact exceptPerm_refl _
    · simp only [if_neg hu1, if_pos hu2]
      exact exceptPerm_refl _
    · simp only [if_neg hu1, if_neg hu2]
      cases hnv1 : normalize v1 with
      | error e1 =>
        cases hnv2 : normalize v2 with
        | error e2 =>
          simp only [except_bind_error]
          exact trivial
        | ok w2 =>
          simp only [except_bind_ok, except_bind_error]
          exact trivial
      | ok w1 =>
        cases hnv2 : normalize v2 with
        | error e2 =>
          simp only [except_bind_ok, except_bind_error]
          exact trivial
        | ok w2 =>
          simp only [except_bind_ok]
          cases hnl : normalizeFields l with
          | error e3 =>
            simp only [except_bind_error]
            exact trivial
          | ok ll =>
            simp only [except_bind_ok, except_pure_eq]
            show List.Perm ((k2, w2) :: (k1, w1) :: ll)
              ((k1, w1) :: (k2, w2) :: ll)
            exact List.Perm.swap _ _ _
  | trans h1 h2 ih1 ih2 =>
    exact exceptPerm_trans ih1 ih2

mutual

theorem normalize_error_msg : ∀ (v : JsValue) (e : String),
    normalize v = .error e → e = "Do not know how to serialize a BigInt"
  | .vNull, e, h => by simp [normalize] at h
  | .vBool b, e, h => by simp [normalize] at h
  | .vNum n, e, h => by simp [normalize] at h
  | .vStr s, e, h => by simp [normalize] at h
  | .vUndefined, e, h => by simp [normalize] at h
  | .vFunction, e, h => by simp [normalize] at h
  | .vSymbol, e, h => by simp [normalize] at h
  | .vBigInt v, e, h => by
      simp only [normalize] at h
      injection h with h2
      exact h2.symm
  | .vArr elems, e, h => by
      simp only [normalize] at h
      cases hn : normalizeArr elems with
      | error e2 =>
        rw [hn, except_bind_error] at h
        injection h with h2
        exact h2 ▸ normalizeArr_error_msg elems e2 hn
      | ok l =>
        rw [hn, except_bind_ok, except_pure_eq] at h
        exact Except.noConfusion h
  | .vObj fields, e, h => by
      simp only [normalize] at h
      cases hn : normalizeFields fields with
      | error e2 =>
        rw [hn, except_bind_error] at h
        injection h with h2
        exact h2 ▸ normalizeFields_error_msg fields e2 hn
      | ok l =>
        rw [hn, except_bind_ok, except_pure_eq] at h
        exact Except.noConfusion h

theorem normalizeArr_error_msg : ∀ (l : List JsValue) (e : String),
    normalizeArr l = .error e → e = "Do not know how to serialize a BigInt"
  | [], e, h => by simp [normalizeArr] at h
  | v :: rest, e, h => by
      simp only [normalizeArr] at h
      by_cases hu : isUnrepresentable v = true
      · rw [if_pos hu] at h
        cases hr : normalizeArr rest with
        | error e2 =>
          rw [hr, except_bind_error] at h
          injection h with h2
          exact h2 ▸ normalizeArr_error_msg rest e2 hr
        | ok l2 =>
          rw [hr, except_bind_ok, except_pure_eq] at h
          exact Except.noConfusion h
      · rw [if_neg hu] at h
        cases hv : normalize v with
        | error e2 =>
          rw [hv, except_bind_error] at h
          injection h with h2
          exact h2 ▸ normalize_error_msg v e2 hv
        | ok v2 =>
          rw [hv, except_bind_ok] at h
          cases hr : normalizeArr rest with
          | error e2 =>
            rw [hr, except_bind_error] at h
            injection h with h2
            exact h2 ▸ normalizeArr_error_msg rest e2 hr
          | ok l2 =>
            rw [hr, except_bind_ok, except_pure_eq] at h
            exact Except.noConfusion h

theorem normalizeFields_error_msg : ∀ (f : List (String × JsValue))
    (e : String),
    normalizeFields f = .error e → e = "Do not know how to serialize a BigInt"
  | [], e, h => by simp [normalizeFields] at h
  | (k, v) :: rest, e, h => by
      simp only [normalizeFields] at h
      by_cases hu : isUnrepresentable v = true
      · rw [if_pos hu] at h
        exact normalizeFields_error_msg rest e h
      · rw [if_neg hu] at h
        cases hv : normalize v with
        | error e2 =>
          rw [hv, except_bind_error] at h
          injection h with h2
          exact h2 ▸ normalize_error_msg v e2 hv
        | ok v2 =>
          rw [hv, except_bind_ok] at h
          cases hr : normalizeFields rest with
          | error e2 =>
            rw [hr, except_bind_error] at h
            injection h with h2
            exact h2 ▸ normalizeFields_error_msg rest e2 hr
          | ok l2 =>
            rw [hr, except_bind_ok, except_pure_eq] at h
            exact Except.noConfusion h

end

theorem normalizeFields_keys_sublist :
    ∀ (f : List (String × JsValue)) (lf : List (String × JsValue)),
    normalizeFields f = .ok lf →
    List.Sublist (lf.map Prod.fst) (f.map Prod.fst) := by
  intro f
  induction f with
  | nil =>
    intro lf h
    simp only [normalizeFields] at h
    injection h with h2
    subst h2
    simp
  | cons x rest ih =>
    rcases x with ⟨k, v⟩
    intro lf h
    simp only [normalizeFields] at h
    by_cases hu : isUnrepresentable v = true
    · rw [if_pos hu] at h
      simp only [List.map_cons]
      exact List.Sublist.cons _ (ih lf h)
    · rw [if_neg hu] at h
      cases hnv : normalize v with
      | error e =>
        rw [hnv, except_bind_error] at h
        exact Except.noConfusion h
      | ok v2 =>
        rw [hnv, except_bind_ok] at h
        cases hnr : normalizeFields rest with
        | error e =>
          rw [hnr, except_bind_error] at h
          exact Except.noConfusion h
        | ok lr =>
          rw [hnr, except_bind_ok, except_pure_eq] at h
          injection h with h2
          subst h2
          simp only [List.map_cons]
          exact List.Sublist.cons₂ _ (ih lr hnr)

mutual

theorem normalize_keyCanon : ∀ (v : JsValue), keysDistinct v = true →
    normalize (keyCanon v) = normalize v
  | .vNull, _ => rfl
  | .vBool b, _ => rfl
  | .vNum n, _ => rfl
  | .vStr s, _ => rfl
  | .vUndefined, _ => rfl
  | .vFunction, _ => rfl
  | .vSymbol, _ => rfl
  | .vBigInt v, _ => rfl
  | .vArr elems, h => by
      have harr : normalizeArr (keyCanonArr elems) = normalizeArr elems :=
        normalizeArr_keyCanon elems (by simpa [keysDistinct] using h)
      show normalize (.vArr (keyCanonArr elems)) = normalize (.vArr elems)
      simp only [normalize, harr]
  | .vObj fields, h => by
      have hparts : (fields.map Prod.fst).Nodup ∧
          keysDistinctFields fields = true := by
        simpa [keysDistinct, Bool.and_eq_true] using h
      have hkc : normalizeFields (keyCanonFields fields)
          = normalizeFields fields :=
        normalizeFields_keyCanon fields hparts.2
      have hep := normalizeFields_perm
        (sortJs_perm fieldLe (keyCanonFields fields))
      rw [hkc] at hep
      show normalize (.vObj (sortJs fieldLe (keyCanonFields fields)))
        = normalize (.vObj fields)
      cases hnf : normalizeFields fields with
      | error e =>
        rw [hnf] at hep
        have he := normalizeFields_error_msg fields e hnf
        cases hL : normalizeFields (sortJs fieldLe (keyCanonFields fields)) with
        | error e2 =>
          have he2 := normalizeFields_error_msg _ e2 hL
          simp only [normalize]
          rw [hL, hnf, except_bind_error, except_bind_error, he2, he]
        | ok lg =>
          rw [hL] at hep
          exact (hep : False).elim
      | ok lf =>
        rw [hnf] at hep
        cases hL : normalizeFields (sortJs fieldLe (keyCanonFields fields)) with
        | error e2 =>
          rw [hL] at hep
          exact (hep : False).elim
        | ok lg =>
          rw [hL] at hep
          have hperm2 : List.Perm lg lf := (hep : List.Perm lg lf)
          have hlfkeys : (lf.map Prod.fst).Nodup :=
            List.Nodup.sublist (normalizeFields_keys_sublist fields lf hnf)
              hparts.1
          have hlgkeys : (lg.map Prod.fst).Nodup :=
            (List.Perm.nodup_iff (hperm2.map Prod.fst)).mpr hlfkeys
          have hsorteq : sortJs fieldLe lg = sortJs fieldLe lf :=
            fieldSort_canonical lg lf hperm2 hlgkeys
          simp only [normalize]
          rw [hL, hnf, except_bind_ok, except_bind_ok, except_pure_eq,
            except_pure_eq, hsorteq]

theorem normalizeArr_keyCanon : ∀ (l : List JsValue),
    keysDistinctArr l = true →
    normalizeArr (keyCanonArr l) = normalizeArr l
  | [], _ => rfl
  | v :: rest, h => by
      have hparts : keysDistinct v = true ∧ keysDistinctArr rest = true := by
        simpa [keysDistinctArr, Bool.and_eq_true] using h
      show normalizeArr (keyCanon v :: keyCanonArr rest)
        = normalizeArr (v :: rest)
      simp only [normalizeArr, keyCanon_unrep v]
      rw [normalize_keyCanon v hparts.1, normalizeArr_keyCanon rest hparts.2]

theorem normalizeFields_keyCanon : ∀ (f : List (String × JsValue)),
    keysDistinctFields f = true →
    normalizeFields (keyCanonFields f) = normalizeFields f
  | [], _ => rfl
  | (k, v) :: rest, h => by
      have hparts : keysDistinct v = true ∧
          keysDistinctFields rest = true := by
        simpa [keysDistinctFields, Bool.and_eq_true] using h
      show normalizeFields ((k, keyCanon v) :: keyCanonFields rest)
        = normalizeFields ((k, v) :: rest)
      simp only [normalizeFields, keyCanon_unrep v]
      rw [normalize_keyCanon v hparts.1, normalizeFields_keyCanon rest hparts.2]

end

theorem stableStringify_keyCanon (v : JsValue) (h : keysDistinct v = true)
    (space : Option Nat) :
    stableStringify (keyCanon v) space = stableStringify v space := by
  simp only [stableStringify, normalize_keyCanon v h]

theorem stableStringify_key_reorder (v1 v2 : JsValue) (space : Option Nat)
    (h1 : keysDistinct v1 = true) (h2 : keysDistinct v2 = true)
    (hc : keyCanon v1 = keyCanon v2) :
    stableStringify v1 space = stableStringify v2 space := by
  rw [← stableStringify_keyCanon v1 h1 space, hc,
    stableStringify_keyCanon v2 h2 space]

/-! ### Claim C2 — tie-break order of simultaneously ready nodes -/

/-- Without `parentId` edges every in-degree is 0. -/
theorem buildInDegree_all_roots (nodes : List SceneNode)
    (h : ∀ n ∈ nodes, n.parentId = none) :
    buildInDegree nodes = fun _ => 0 := by
  unfold buildInDegree
  generalize hids : nodeIds nodes = ids
  clear hids
  induction nodes with
  | nil => rfl
  | cons n rest ih =>
    simp only [List.foldl_cons, h n (by simp)]
    exact ih (fun m hm => h m (by simp [hm]))

/-- Without `parentId` edges every adjacency list is empty. -/
theorem childrenOf_all_roots (nodes : List SceneNode)
    (h : ∀ n ∈ nodes, n.parentId = none) (pid : String) :
    childrenOf nodes pid = [] := by
  unfold childrenOf
  split
  · apply List.filter_eq_nil_iff.mpr
    intro n hn
    simp [h n hn]
  · rfl

/-- With empty adjacency the Kahn loop dequeues the queue unchanged. -/
theorem kahnRun_no_children {α : Type} (keyF : α → String)
    (childrenF : String → List α) (merge : List α → List α → List α)
    (hch : ∀ p, childrenF p = []) :
    ∀ (fuel : Nat) (pending : List α) (deg : String → Int) (acc : List α),
      pending.length < fuel →
      kahnRun keyF childrenF merge fuel pending deg acc =
        (acc ++ pending, deg, []) := by
  intro fuel
  induction fuel with
  | zero => intro pending deg acc h; omega
  | succ fuel ih =>
    intro pending deg acc h
    cases pending with
    | nil => simp [kahnRun]
    | cons x rest =>
      show kahnRun keyF childrenF merge (fuel + 1) (x :: rest) deg acc = _
      unfold kahnRun
      rw [hch (keyF x)]
      show kahnRun keyF childrenF merge fuel
        (if (kahnStep keyF deg []).2.isEmpty then rest
          else merge rest (kahnStep keyF deg []).2) (kahnStep keyF deg []).1
        (acc ++ [x]) = _
      simp only [kahnStep, List.isEmpty_nil, if_true]
      rw [ih rest deg (acc ++ [x]) (by simp at h ⊢; omega)]
      simp

/-- When every node is a root (all simultaneously ready), `topoSort`
emits exactly the tie-break-sorted node array. -/
theorem topoSortNodes_all_roots (ast : CanonicalSceneAst)
    (hroots : ∀ n ∈ ast.nodes, n.parentId = none) :
    topoSortNodes ast = sortReady ast.nodes := by
  by_cases hemp : ast.nodes.isEmpty
  · have hnil : ast.nodes = [] := List.isEmpty_iff.mp hemp
    simp [topoSortNodes, hemp, hnil, sortReady, sortJs]
  · have hdeg : buildInDegree ast.nodes = fun _ => 0 :=
      buildInDegree_all_roots ast.nodes hroots
    have hrun := kahnRun_no_children SceneNode.id (childrenOf ast.nodes)
      topoMerge (childrenOf_all_roots ast.nodes hroots)
      (kahnFuel ast.nodes) (sortReady ast.nodes) (fun _ => 0) []
      (by
        have hlen : (sortReady ast.nodes).length = ast.nodes.length :=
          (sortJs_perm nodeLe ast.nodes).length_eq
        unfold kahnFuel
        omega)
    simp only [topoSortNodes, hemp, Bool.false_eq_true, if_false, hdeg]
    simp
    rw [hrun]
    simp [sortReady, sortJs]

/-- Two root `Group` nodes with `zIndex = Infinity`; listed with the
bytewise-larger id first. -/
def c2InfAst : CanonicalSceneAst :=
  { scene := { id := "s", width := .fin 800, height := .fin 600 },
    nodes :=
      [{ id := "n:z", kind := "Group", zIndex := some .posInf },
       { id := "n:a", kind := "Group", zIndex := some .posInf }] }

/-- C2 counterexample: the claim's guard on non-finite `zIndex` values
does not exist. With both `zIndex` equal to `Infinity`, the comparator
computes `Infinity - Infinity = NaN`, which `SortCompare` coerces to `+0`,
so the `kind`/`id` tie-breaks never run: the nodes are emitted in input
order `["n:z", "n:a"]`, violating the triple key (equal `zIndex` and
`kind`, so `"n:a"` must come first). -/
theorem c2_counterexample_nonfinite_zindex_corrupts :
    (∀ n ∈ c2InfAst.nodes, n.kind = "Group" ∧ n.zIndex = some JsNum.posInf ∧
      n.parentId = none) ∧
    cmpStr "n:a" "n:z" = -1 ∧
    (topoSort c2InfAst).map (fun n => n.id) = ["n:z", "n:a"] := by
  refine ⟨by decide, by decide, ?_⟩
  rfl

/-- `tripleKeyLe` is reflexive. -/
theorem tripleKeyLe_refl (a : SceneNode) : tripleKeyLe a a :=
  Or.inr ⟨rfl, Or.inr ⟨rfl, le_refl _⟩⟩

/-- Sanitization preserves the triple key. -/
theorem tripleKeyLe_sanitize {a b : SceneNode} (h : tripleKeyLe a b) :
    tripleKeyLe (sanitize a) (sanitize b) := h

/-- On nodes with finite (normalized) `zIndex`, `sortReady` output is in
triple-key order. -/
theorem sortReady_pairwise_triple (l : List SceneNode)
    (hfin : ∀ n ∈ l, (normalizeZIndex n.zIndex).isFinite = true) :
    (sortReady l).Pairwise tripleKeyLe := by
  rw [sortReady_eq_keySort l hfin]
  apply List.Pairwise.imp ?_ (keySort_sorted l)
  intro a b h
  exact of_decide_eq_true h

/-- `topoSort`'s queue insertion is a permutation of its inputs. -/
theorem topoMerge_perm (r n : List SceneNode) :
    List.Perm (topoMerge r n) (r ++ n) := by
  simp only [topoMerge, sortReady]
  exact (sortJs_perm _ _).trans (List.Perm.append_left r (sortJs_perm _ _))

/-- The processed list only grows: the run's output extends the
accumulator it started from. -/
theorem kahnRun_acc_extends {α : Type} (keyF : α → String)
    (childrenF : String → List α) (merge : List α → List α → List α) :
    ∀ (fuel : Nat) (pending : List α) (deg : String → Int) (acc : List α),
      ∃ tl, (kahnRun keyF childrenF merge fuel pending deg acc).1
        = acc ++ tl := by
  intro fuel
  induction fuel with
  | zero =>
    intro pending deg acc
    exact ⟨[], by simp [kahnRun]⟩
  | succ fuel ih =>
    intro pending deg acc
    cases pending with
    | nil => exact ⟨[], by simp [kahnRun]⟩
    | cons x rest =>
      rcases ih (if (kahnStep keyF deg (childrenF (keyF x))).2.isEmpty then rest
          else merge rest (kahnStep keyF deg (childrenF (keyF x))).2)
        (kahnStep keyF deg (childrenF (keyF x))).1 (acc ++ [x]) with ⟨tl, htl⟩
      refine ⟨x :: tl, ?_⟩
      show (kahnRun keyF childrenF merge fuel
          (if (kahnStep keyF deg (childrenF (keyF x))).2.isEmpty then rest
           else merge rest (kahnStep keyF deg (childrenF (keyF x))).2)
          (kahnStep keyF deg (childrenF (keyF x))).1 (acc ++ [x])).1
        = acc ++ x :: tl
      rw [htl]
      simp

/-- A queued entry is dequeued before the run ends: when the fuel
exhausts the queue, every pending entry lands in the output after the
current accumulator. -/
theorem kahnRun_pending_tail {α : Type} (keyF : α → String)
    (childrenF : String → List α) (merge : List α → List α → List α)
    (hmerge : ∀ r n, List.Perm (merge r n) (r ++ n)) :
    ∀ (fuel : Nat) (pending : List α) (deg : String → Int) (acc : List α),
      (kahnRun keyF childrenF merge fuel pending deg acc).2.2 = [] →
      ∀ b ∈ pending, ∃ tl,
        (kahnRun keyF childrenF merge fuel pending deg acc).1 = acc ++ tl ∧
        b ∈ tl := by
  intro fuel
  induction fuel with
  | zero =>
    intro pending deg acc hexh b hb
    have hp : pending = [] := hexh
    subst hp
    exact absurd hb (List.not_mem_nil b)
  | succ fuel ih =>
    intro pending deg acc hexh b hb
    cases pending with
    | nil => exact absurd hb (List.not_mem_nil b)
    | cons x rest =>
      have hexh2 : (kahnRun keyF childrenF merge fuel
          (if (kahnStep keyF deg (childrenF (keyF x))).2.isEmpty then rest
           else merge rest (kahnStep keyF deg (childrenF (keyF x))).2)
          (kahnStep keyF deg (childrenF (keyF x))).1 (acc ++ [x])).2.2 = [] :=
        hexh
      rcases List.mem_cons.mp hb with heq | hb2
      · rcases kahnRun_acc_extends keyF childrenF merge fuel
          (if (kahnStep keyF deg (childrenF (keyF x))).2.isEmpty then rest
           else merge rest (kahnStep keyF deg (childrenF (keyF x))).2)
          (kahnStep keyF deg (childrenF (keyF x))).1 (acc ++ [x]) with ⟨tl, htl⟩
        refine ⟨x :: tl, ?_, by simp [heq]⟩
        show (kahnRun keyF childrenF merge fuel
            (if (kahnStep keyF deg (childrenF (keyF x))).2.isEmpty then rest
             else merge rest (kahnStep keyF deg (childrenF (keyF x))).2)
            (kahnStep keyF deg (childrenF (keyF x))).1 (acc ++ [x])).1
          = acc ++ x :: tl
        rw [htl]
        simp
      · have hb3 : b ∈ (if (kahnStep keyF deg (childrenF (keyF x))).2.isEmpty
            then rest
            else merge rest (kahnStep keyF deg (childrenF (keyF x))).2) := by
          by_cases hne : (kahnStep keyF deg (childrenF (keyF x))).2.isEmpty
          · rw [if_pos hne]
            exact hb2
          · rw [if_neg hne]
            exact (hmerge _ _).mem_iff.mpr (List.mem_append.mpr (Or.inl hb2))
        rcases ih _ (kahnStep keyF deg (childrenF (keyF x))).1 (acc ++ [x])
          hexh2 b hb3 with ⟨tl, htl, hbtl⟩
        refine ⟨x :: tl, ?_, List.mem_cons_of_mem x hbtl⟩
        show (kahnRun keyF childrenF merge fuel
            (if (kahnStep keyF deg (childrenF (keyF x))).2.isEmpty then rest
             else merge rest (kahnStep keyF deg (childrenF (keyF x))).2)
            (kahnStep keyF deg (childrenF (keyF x))).1 (acc ++ [x])).1
          = acc ++ x :: tl
        rw [htl]
        simp

/-- Emission order of simultaneously ready nodes, as `topoSort` runs it:
at every state whose queue is in triple-key order (the driver establishes
this at the start and after every batch insertion), of two queued nodes
strictly ordered by the triple key the smaller is emitted first. -/
theorem kahnRun_sorted_emission (nodes : List SceneNode)
    (hfin : ∀ n ∈ nodes, (normalizeZIndex n.zIndex).isFinite = true) :
    ∀ (fuel : Nat) (pending acc : List SceneNode) (deg : String → Int),
      (∀ n ∈ pending, n ∈ nodes) →
      pending.Pairwise tripleKeyLe →
      (kahnRun SceneNode.id (childrenOf nodes) topoMerge fuel pending deg
        acc).2.2 = [] →
      ∀ a ∈ pending, ∀ b ∈ pending, tripleKeyLe a b → ¬ tripleKeyLe b a →
      ∃ pre mid post,
        (kahnRun SceneNode.id (childrenOf nodes) topoMerge fuel pending deg
          acc).1 = pre ++ a :: mid ++ b :: post := by
  intro fuel
  induction fuel with
  | zero =>
    intro pending acc deg _ _ hexh a ha
    have hp : pending = [] := hexh
    subst hp
    exact absurd ha (List.not_mem_nil a)
  | succ fuel ih =>
    intro pending acc deg hmem hsort hexh a ha b hb hab hnba
    cases pending with
    | nil => exact absurd ha (List.not_mem_nil a)
    | cons x rest =>
      rcases List.pairwise_cons.mp hsort with ⟨hxle, hrest⟩
      have hexh2 : (kahnRun SceneNode.id (childrenOf nodes) topoMerge fuel
          (if (kahnStep SceneNode.id deg (childrenOf nodes x.id)).2.isEmpty
           then rest
           else topoMerge rest
             (kahnStep SceneNode.id deg (childrenOf nodes x.id)).2)
          (kahnStep SceneNode.id deg (childrenOf nodes x.id)).1
          (acc ++ [x])).2.2 = [] := hexh
      have hmem2 : ∀ n ∈ (if (kahnStep SceneNode.id deg
            (childrenOf nodes x.id)).2.isEmpty then rest
            else topoMerge rest
              (kahnStep SceneNode.id deg (childrenOf nodes x.id)).2),
          n ∈ nodes := by
        intro n hn
        by_cases hne : (kahnStep SceneNode.id deg
            (childrenOf nodes x.id)).2.isEmpty
        · rw [if_pos hne] at hn
          exact hmem n (List.mem_cons_of_mem x hn)
        · rw [if_neg hne] at hn
          rcases List.mem_append.mp ((topoMerge_perm _ _).mem_iff.mp hn) with
            hn | hn
          · exact hmem n (List.mem_cons_of_mem x hn)
          · exact (childrenOf_mem (kahnStep_newly_sub _ _ _ n hn)).1
      have hsort2 : (if (kahnStep SceneNode.id deg
            (childrenOf nodes x.id)).2.isEmpty then rest
            else topoMerge rest
              (kahnStep SceneNode.id deg
                (childrenOf nodes x.id)).2).Pairwise tripleKeyLe := by
        by_cases hne : (kahnStep SceneNode.id deg
            (childrenOf nodes x.id)).2.isEmpty
        · rw [if_pos hne]
          exact hrest
        · rw [if_neg hne]
          apply sortReady_pairwise_triple
          intro n hn
          rcases List.mem_append.mp hn with hn | hn
          · exact hfin n (hmem n (List.mem_cons_of_mem x hn))
          · have hn2 := (sortJs_perm nodeLe _).mem_iff.mp hn
            exact hfin n
              ((childrenOf_mem (kahnStep_newly_sub _ _ _ n hn2)).1)
      show ∃ pre mid post,
        (kahnRun SceneNode.id (childrenOf nodes) topoMerge fuel
          (if (kahnStep SceneNode.id deg (childrenOf nodes x.id)).2.isEmpty
           then rest
           else topoMerge rest
             (kahnStep SceneNode.id deg (childrenOf nodes x.id)).2)
          (kahnStep SceneNode.id deg (childrenOf nodes x.id)).1
          (acc ++ [x])).1 = pre ++ a :: mid ++ b :: post
      rcases List.mem_cons.mp ha with hax | har
      · -- the head is `a`: it is emitted now, `b` later
        rcases List.mem_cons.mp hb with hbx | hbr
        · exfalso
          rw [hax] at hab hnba
          rw [hbx] at hab hnba
          exact hnba (tripleKeyLe_refl x)
        · have hbp : b ∈ (if (kahnStep SceneNode.id deg
              (childrenOf nodes x.id)).2.isEmpty then rest
              else topoMerge rest
                (kahnStep SceneNode.id deg (childrenOf nodes x.id)).2) := by
            by_cases hne : (kahnStep SceneNode.id deg
                (childrenOf nodes x.id)).2.isEmpty
            · rw [if_pos hne]
              exact hbr
            · rw [if_neg hne]
              exact (topoMerge_perm _ _).mem_iff.mpr
                (List.mem_append.mpr (Or.inl hbr))
          rcases kahnRun_pending_tail SceneNode.id (childrenOf nodes)
            topoMerge topoMerge_perm fuel _
            (kahnStep SceneNode.id deg (childrenOf nodes x.id)).1
            (acc ++ [x]) hexh2 b hbp with ⟨tl, htl, hbtl⟩
          rcases List.append_of_mem hbtl with ⟨t1, t2, rfl⟩
          refine ⟨acc, t1, t2, ?_⟩
          rw [htl, hax]
          simp
      · -- `a` stays queued: so does `b`, and the tail state is sorted
        rcases List.mem_cons.mp hb with hbx | hbr
        · exfalso
          apply hnba
          rw [hbx]
          exact hxle a har
        · have hap : a ∈ (if (kahnStep SceneNode.id deg
              (childrenOf nodes x.id)).2.isEmpty then rest
              else topoMerge rest
                (kahnStep SceneNode.id deg (childrenOf nodes x.id)).2) := by
            by_cases hne : (kahnStep SceneNode.id deg
                (childrenOf nodes x.id)).2.isEmpty
            · rw [if_pos hne]
              exact har
            · rw [if_neg hne]
              exact (topoMerge_perm _ _).mem_iff.mpr
                (List.mem_append.mpr (Or.inl har))
          have hbp : b ∈ (if (kahnStep SceneNode.id deg
              (childrenOf nodes x.id)).2.isEmpty then rest
              else topoMerge rest
                (kahnStep SceneNode.id deg (childrenOf nodes x.id)).2) := by
            by_cases hne : (kahnStep SceneNode.id deg
                (childrenOf nodes x.id)).2.isEmpty
            · rw [if_pos hne]
              exact hbr
            · rw [if_neg hne]
              exact (topoMerge_perm _ _).mem_iff.mpr
                (List.mem_append.mpr (Or.inl hbr))
          exact ih _ (acc ++ [x])
            (kahnStep SceneNode.id deg (childrenOf nodes x.id)).1
            hmem2 hsort2 hexh2 a hap b hbp hab hnba

/-- C2 as amended: provided every (normalized) `zIndex` is finite,
(i) every `sortReady` batch of nodes — the initial ready queue, each
newly-ready batch, and the re-sorted queue — is in triple-key order
(zIndex ascending, kind ascending bytewise, id ascending bytewise);
(ii) at every run state whose queue is in triple-key order — which by (i)
holds at the start and after every batch insertion — of two
simultaneously ready nodes strictly ordered by the triple key, the
smaller is emitted first; (iii) the cycle-appended leftovers form a
triple-key-ordered suffix of the emitted array; and (iv) an unset
`zIndex` is treated as 0. Non-finite values are not guarded against and
can corrupt the ordering (see the counterexample). -/
theorem c2_amended_ready_nodes_emit_in_triple_key_order
    (ast : CanonicalSceneAst)
    (hfin : ∀ n ∈ ast.nodes, (normalizeZIndex n.zIndex).isFinite = true) :
    (∀ l : List SceneNode, (∀ n ∈ l, n ∈ ast.nodes) →
      (sortReady l).Pairwise tripleKeyLe) ∧
    (∀ (fuel : Nat) (pending acc : List SceneNode) (deg : String → Int),
      (∀ n ∈ pending, n ∈ ast.nodes) →
      pending.Pairwise tripleKeyLe →
      (kahnRun SceneNode.id (childrenOf ast.nodes) topoMerge fuel pending deg
        acc).2.2 = [] →
      ∀ a ∈ pending, ∀ b ∈ pending, tripleKeyLe a b → ¬ tripleKeyLe b a →
      ∃ pre mid post,
        (kahnRun SceneNode.id (childrenOf ast.nodes) topoMerge fuel pending
          deg acc).1 = pre ++ a :: mid ++ b :: post) ∧
    (∃ done rem, topoSort ast = done ++ rem ∧ rem.Pairwise tripleKeyLe) ∧
    normalizeZIndex none = JsNum.fin 0 := by
  refine ⟨?_, ?_, ?_, rfl⟩
  · intro l hl
    exact sortReady_pairwise_triple l (fun n hn => hfin n (hl n hn))
  · intro fuel pending acc deg hmem hsort hexh a ha b hb hab hnba
    exact kahnRun_sorted_emission ast.nodes hfin fuel pending acc deg hmem
      hsort hexh a ha b hb hab hnba
  · by_cases hemp : ast.nodes.isEmpty = true
    · refine ⟨[], [], ?_, List.Pairwise.nil⟩
      simp [topoSort, topoSortNodes, hemp]
    · refine ⟨((kahnRun SceneNode.id (childrenOf ast.nodes) topoMerge
          (kahnFuel ast.nodes)
          (sortReady (ast.nodes.filter
            (fun n => decide (buildInDegree ast.nodes n.id = 0))))
          (buildInDegree ast.nodes) []).1).map sanitize,
        (sortReady (ast.nodes.filter (fun n =>
          decide (0 < (kahnRun SceneNode.id (childrenOf ast.nodes) topoMerge
            (kahnFuel ast.nodes)
            (sortReady (ast.nodes.filter
              (fun n => decide (buildInDegree ast.nodes n.id = 0))))
            (buildInDegree ast.nodes) []).2.1 n.id)))).map sanitize,
        ?_, ?_⟩
      · show (topoSortNodes ast).map sanitize = _
        rw [show topoSortNodes ast
            = (kahnRun SceneNode.id (childrenOf ast.nodes) topoMerge
                (kahnFuel ast.nodes)
                (sortReady (ast.nodes.filter
                  (fun n => decide (buildInDegree ast.nodes n.id = 0))))
                (buildInDegree ast.nodes) []).1
              ++ sortReady (ast.nodes.filter (fun n =>
                decide (0 < (kahnRun SceneNode.id (childrenOf ast.nodes)
                  topoMerge (kahnFuel ast.nodes)
                  (sortReady (ast.nodes.filter
                    (fun n => decide (buildInDegree ast.nodes n.id = 0))))
                  (buildInDegree ast.nodes) []).2.1 n.id)))
          from by
            simp only [topoSortNodes]
            rw [if_neg hemp]]
        rw [List.map_append]
      · rw [List.pairwise_map]
        apply List.Pairwise.imp (fun h => tripleKeyLe_sanitize h)
        apply sortReady_pairwise_triple
        intro n hn
        exact hfin n (List.mem_of_mem_filter hn)

/-- The claim's concrete pair: `{id:"n:z", kind:Group, zIndex:1}` and
`{id:"n:a", kind:Group, zIndex:1}`. -/
def c2TieAst : CanonicalSceneAst :=
  { scene := { id := "s", width := .fin 800, height := .fin 600 },
    nodes :=
      [{ id := "n:z", kind := "Group", zIndex := some (.fin 1) },
       { id := "n:a", kind := "Group", zIndex := some (.fin 1) }] }

/-- Witness for the amended C2 at the claim's concrete pair: both nodes
have finite `zIndex`, the output splits into an emitted part and a
triple-key-ordered leftover suffix, and the emitted order is
`["n:a", "n:z"]`. -/
theorem c2_witness :
    (∀ n ∈ c2TieAst.nodes, (normalizeZIndex n.zIndex).isFinite = true) ∧
    (∃ done rem, topoSort c2TieAst = done ++ rem ∧
      rem.Pairwise tripleKeyLe) ∧
    (topoSort c2TieAst).map (fun n => n.id) = ["n:a", "n:z"] :=
  ⟨by decide,
   (c2_amended_ready_nodes_emit_in_triple_key_order c2TieAst
     (by decide)).2.2.1,
   by rfl⟩



/-! ### Claim C6 — duplicate ids are each reported and raise no
spurious cycle -/

/-- C6: for a canonical AST whose node list repeats at least one id while
the declared `parentId` edges admit a strict rank function (so there is no
parent cycle), `validateCanonicalAst` reports `E_NODE_DUPLICATE_ID`
exactly once per repeat occurrence after the first — the number of
diagnostics plus the number of distinct ids equals the number of node
occurrences, and at least one such diagnostic exists — and it emits no
spurious `E_CYCLE_DETECTED` diagnostic. -/
theorem c6_duplicate_ids_reported_without_spurious_cycle
    (ast : CanonicalSceneAst)
    (hdup : ¬ (nodeIds ast.nodes).Nodup)
    (rank : String → Nat)
    (hrank : ∀ n ∈ ast.nodes, ∀ p, n.parentId = some p →
      p ∈ nodeIds ast.nodes → rank p < rank n.id) :
    ((validateCanonicalAst (some ast)).countP
        (fun d => decide (d.code = SVJifErrorCode.E_NODE_DUPLICATE_ID)))
        + (insertionKeys (nodeIds ast.nodes)).length = ast.nodes.length
    ∧ (insertionKeys (nodeIds ast.nodes)).length < ast.nodes.length
    ∧ (validateCanonicalAst (some ast)).countP
        (fun d => decide (d.code = SVJifErrorCode.E_CYCLE_DETECTED)) = 0 := by
  have hveq := validate_eq_tier1_of_dup ast hdup
  have hnn : (nodeIds ast.nodes).length = ast.nodes.length :=
    List.length_map _ _
  have hlt : (insertionKeys (nodeIds ast.nodes)).length
      < (nodeIds ast.nodes).length := insertionKeys_length_lt _ hdup
  refine ⟨?_, by omega, ?_⟩
  · rw [hveq, tier1_countP_dup ast rank hrank]
    have := dupDiags_length ast.nodes
    omega
  · rw [hveq]
    exact tier1_countP_cycle ast rank hrank

def c6Ast : CanonicalSceneAst :=
  { scene := { id := "s", width := .fin 800, height := .fin 600 },
    nodes :=
      [{ id := "n1", kind := "Group" },
       { id := "n1", kind := "Group" }] }

/-- Witness for C6: two nodes sharing id `"n1"` produce exactly one
`E_NODE_DUPLICATE_ID` diagnostic and no `E_CYCLE_DETECTED` diagnostic. -/
theorem c6_witness :
    ((validateCanonicalAst (some c6Ast)).countP
        (fun d => decide (d.code = SVJifErrorCode.E_NODE_DUPLICATE_ID)))
        + (insertionKeys (nodeIds c6Ast.nodes)).length = c6Ast.nodes.length
    ∧ (insertionKeys (nodeIds c6Ast.nodes)).length < c6Ast.nodes.length
    ∧ (validateCanonicalAst (some c6Ast)).countP
        (fun d => decide (d.code = SVJifErrorCode.E_CYCLE_DETECTED)) = 0 :=
  c6_duplicate_ids_reported_without_spurious_cycle c6Ast
    (by decide)
    (fun _ => 0)
    (by
      intro n hn p hp hmem
      rcases List.mem_cons.mp hn with rfl | hn
      · exact Option.noConfusion hp
      · rcases List.mem_singleton.mp hn with rfl
        exact Option.noConfusion hp)

/-! ### Claim C3 — parent-before-child order, cycle leftovers,
and the duplicate-id drop -/

/-- C3 (amended): provided the node ids are pairwise distinct, the node
array emitted by `emitSvjifIrArtifact` (i) is a permutation of the
sanitized input nodes — no node is dropped — and (ii) splits into a
prefix, in which every node with an existing parent is preceded by that
parent, followed by the cycle leftovers, each of which has an existing
parent that itself sits among the leftovers. -/
theorem c3_parent_before_child_cycles_appended_no_drop
    (ast : CanonicalSceneAst)
    (hids : (nodeIds ast.nodes).Nodup) :
    List.Perm (topoSort ast) (ast.nodes.map sanitize) ∧
    ∃ done rem : List SceneNode,
      topoSort ast = done ++ rem ∧
      (∀ pre c post, done = pre ++ c :: post → ∀ p, c.parentId = some p →
        p ∈ nodeIds ast.nodes → p ∈ pre.map (fun m => m.id)) ∧
      (∀ x ∈ rem, ∃ p, x.parentId = some p ∧ p ∈ nodeIds ast.nodes ∧
        p ∈ rem.map (fun m => m.id)) := by
  by_cases hemp : ast.nodes.isEmpty = true
  · have hnil : ast.nodes = [] := List.isEmpty_iff.mp hemp
    have hts : topoSort ast = [] := by
      simp [topoSort, topoSortNodes, hemp]
    refine ⟨by simp [hts, hnil], [], [], by simp [hts], ?_, ?_⟩
    · intro pre c post h
      exfalso
      cases pre <;> simp at h
    · intro x hx
      exact absurd hx (List.not_mem_nil x)
  · set deg0 := buildInDegree ast.nodes with hdeg0def
    set ready0 := sortReady (ast.nodes.filter
      (fun n => decide (deg0 n.id = 0))) with hready0def
    set r := kahnRun SceneNode.id (childrenOf ast.nodes) topoMerge
      (kahnFuel ast.nodes) ready0 deg0 [] with hrdef
    set remaining := sortReady (ast.nodes.filter
      (fun n => decide (0 < r.2.1 n.id))) with hremdef
    have htopo : topoSortNodes ast = r.1 ++ remaining := by
      simp only [topoSortNodes]
      rw [if_neg hemp]
    have hmerge : ∀ a b, List.Perm (topoMerge a b) (a ++ b) := by
      intro a b
      simp only [topoMerge, sortReady]
      exact (sortJs_perm _ _).trans (List.Perm.append_left a (sortJs_perm _ _))
    have hchild : ∀ p, ∀ c ∈ childrenOf ast.nodes p,
        SceneNode.id c ∈ nodeIds ast.nodes := by
      intro p c hc
      rcases childrenOf_mem hc with ⟨hcn, _, _⟩
      exact List.mem_map.mpr ⟨c, hcn, rfl⟩
    have hready_perm : List.Perm ready0
        (ast.nodes.filter (fun n => decide (deg0 n.id = 0))) :=
      sortJs_perm _ _
    have hd0nonneg : ∀ u, 0 ≤ deg0 u := fun u => buildInDegree_nonneg _ u
    have hfuel : ready0.length + degSumPos deg0 (nodeIds ast.nodes)
        < kahnFuel ast.nodes := by
      simp only [kahnFuel, insertionKeys_of_nodup _ hids, ← hdeg0def]
      have h1 := hready_perm.length_eq
      have h2 := List.length_filter_le
        (fun n => decide (deg0 n.id = 0)) ast.nodes
      omega
    have hnodup0 : (([] ++ ready0).map SceneNode.id).Nodup := by
      rw [List.nil_append]
      apply (List.Perm.nodup_iff (List.Perm.map SceneNode.id hready_perm)).mpr
      exact List.Nodup.sublist ((List.filter_sublist _).map SceneNode.id) hids
    have hmem0 : ∀ x ∈ ([] : List SceneNode) ++ ready0,
        SceneNode.id x ∈ nodeIds ast.nodes := by
      intro x hx
      rw [List.nil_append] at hx
      have hxn : x ∈ ast.nodes :=
        List.mem_of_mem_filter (hready_perm.mem_iff.mp hx)
      exact List.mem_map.mpr ⟨x, hxn, rfl⟩
    have hpos0 : ∀ u ∈ nodeIds ast.nodes,
        u ∉ (([] : List SceneNode) ++ ready0).map SceneNode.id →
        0 < deg0 u := by
      intro u hu hnu
      rcases List.mem_map.mp hu with ⟨n, hn, rfl⟩
      by_contra hle
      push_neg at hle
      have h0 : deg0 n.id = 0 := le_antisymm hle (hd0nonneg n.id)
      apply hnu
      rw [List.nil_append]
      apply List.mem_map.mpr
      refine ⟨n, ?_, rfl⟩
      apply hready_perm.mem_iff.mpr
      exact List.mem_filter.mpr ⟨hn, by simp [h0]⟩
    have hnonpos0 : ∀ x ∈ ([] : List SceneNode) ++ ready0,
        deg0 (SceneNode.id x) ≤ 0 := by
      intro x hx
      rw [List.nil_append] at hx
      have h0 : deg0 x.id = 0 :=
        of_decide_eq_true (List.mem_filter.mp (hready_perm.mem_iff.mp hx)).2
      show deg0 x.id ≤ 0
      omega
    have hacct0 : ∀ u, deg0 u
        = deg0 u - edgeSum SceneNode.id (childrenOf ast.nodes) [] u := by
      intro u
      simp [edgeSum]
    have hinv := kahnRun_invariants SceneNode.id (childrenOf ast.nodes)
      topoMerge hmerge (nodeIds ast.nodes) hids hchild deg0
      (kahnFuel ast.nodes) ready0 [] deg0 hfuel hnodup0 hmem0 hpos0
      hnonpos0 hacct0
    rw [← hrdef] at hinv
    simp only [KahnEndInv] at hinv
    rcases hinv with ⟨_, _, hnd, hsubid, hposi, hnonposi, haccti⟩
    have hsubnodes : ∀ x ∈ r.1, x ∈ ast.nodes := by
      rw [hrdef]
      apply kahnRun_subset SceneNode.id (childrenOf ast.nodes) topoMerge
        hmerge ast.nodes (fun k c hc => (childrenOf_mem hc).1)
        (kahnFuel ast.nodes) ready0 [] deg0
      · intro x hx
        exact List.mem_of_mem_filter (hready_perm.mem_iff.mp hx)
      · intro x hx
        exact absurd hx (List.not_mem_nil x)
    have hnodesnodup : ast.nodes.Nodup := List.Nodup.of_map _ hids
    have hr1nodup : r.1.Nodup := List.Nodup.of_map _ hnd
    have hfnodup : (ast.nodes.filter
        (fun n => decide (0 < r.2.1 n.id))).Nodup :=
      hnodesnodup.filter _
    have hpermpart : List.Perm ast.nodes
        (r.1 ++ ast.nodes.filter (fun n => decide (0 < r.2.1 n.id))) := by
      have hnd2 : (r.1 ++ ast.nodes.filter
          (fun n => decide (0 < r.2.1 n.id))).Nodup := by
        apply List.nodup_append.mpr
        refine ⟨hr1nodup, hfnodup, ?_⟩
        intro a ha haf
        have h1 : r.2.1 a.id ≤ 0 := hnonposi a ha
        have h2 : 0 < r.2.1 a.id :=
          of_decide_eq_true (List.mem_filter.mp haf).2
        omega
      apply (List.perm_ext_iff_of_nodup hnodesnodup hnd2).mpr
      intro a
      constructor
      · intro ha
        rw [List.mem_append]
        by_cases hapos : 0 < r.2.1 a.id
        · exact Or.inr (List.mem_filter.mpr ⟨ha, by simp [hapos]⟩)
        · left
          have haid : a.id ∈ nodeIds ast.nodes := List.mem_map.mpr ⟨a, ha, rfl⟩
          by_cases hin : a.id ∈ r.1.map SceneNode.id
          · rcases List.mem_map.mp hin with ⟨m, hm, hmid⟩
            have hmn : m ∈ ast.nodes := hsubnodes m hm
            have : m = a := nodes_inj_of_nodup_ids hids m hmn a ha hmid
            exact this ▸ hm
          · exact absurd (hposi a.id haid hin) hapos
      · intro ha
        rcases List.mem_append.mp ha with ha | ha
        · exact hsubnodes a ha
        · exact List.mem_of_mem_filter ha
    have hremperm : List.Perm remaining
        (ast.nodes.filter (fun n => decide (0 < r.2.1 n.id))) :=
      sortJs_perm _ _
    have hnd_perm : List.Perm (topoSortNodes ast) ast.nodes := by
      rw [htopo]
      exact (List.Perm.append_left r.1 hremperm).trans hpermpart.symm
    have hPBr : ∀ pre c post, r.1 = pre ++ c :: post →
        ∀ p, c.parentId = some p → p ∈ nodeIds ast.nodes →
        p ∈ pre.map (fun m => m.id) := by
      intro pre c post heq p hp hpm
      have hP10 : ∀ x ∈ ready0, ∀ p2, x.parentId = some p2 →
          p2 ∈ nodeIds ast.nodes →
          p2 ∈ ([] : List SceneNode).map (fun m => m.id) := by
        intro x hx p2 hp2 hpm2
        exfalso
        have hxn : x ∈ ast.nodes :=
          List.mem_of_mem_filter (hready_perm.mem_iff.mp hx)
        have h1 : 1 ≤ deg0 x.id :=
          buildInDegree_pos_of_parent ast.nodes x hxn p2 hp2 hpm2
        have h0 : deg0 x.id = 0 :=
          of_decide_eq_true (List.mem_filter.mp (hready_perm.mem_iff.mp hx)).2
        omega
      have hPB0 : ∀ pre2 c2 post2,
          ([] : List SceneNode) = pre2 ++ c2 :: post2 →
          ∀ p2, c2.parentId = some p2 → p2 ∈ nodeIds ast.nodes →
          p2 ∈ pre2.map (fun m => m.id) := by
        intro pre2 c2 post2 h
        exfalso
        cases pre2 <;> simp at h
      have heq2 : (kahnRun SceneNode.id (childrenOf ast.nodes) topoMerge
          (kahnFuel ast.nodes) ready0 deg0 []).1 = pre ++ c :: post := by
        rw [← hrdef]
        exact heq
      exact kahnRun_parent_before ast.nodes topoMerge hmerge
        (kahnFuel ast.nodes) ready0 [] hP10 hPB0 deg0 pre c post heq2 p hp hpm
    have hremchar : ∀ x ∈ remaining, ∃ p, x.parentId = some p ∧
        p ∈ nodeIds ast.nodes ∧ p ∈ remaining.map (fun m => m.id) := by
      intro x hx
      have hxf := hremperm.mem_iff.mp hx
      have hxn : x ∈ ast.nodes := List.mem_of_mem_filter hxf
      have hxpos : 0 < r.2.1 x.id :=
        of_decide_eq_true (List.mem_filter.mp hxf).2
      have hacc := haccti x.id
      have hesnn : 0 ≤ edgeSum SceneNode.id (childrenOf ast.nodes) r.1 x.id := by
        apply List.sum_nonneg
        intro v hv
        rcases List.mem_map.mp hv with ⟨m, _, rfl⟩
        exact Int.natCast_nonneg _
      have hd0pos : 0 < deg0 x.id := by omega
      have hcp : 0 < ast.nodes.countP (fun n =>
          decide (n.id = x.id) &&
          match n.parentId with
          | some p => decide (p ∈ nodeIds ast.nodes)
          | none => false) := by
        have := hd0pos
        rw [hdeg0def, buildInDegree_spec] at this
        exact_mod_cast this
      rcases List.countP_pos_iff.mp hcp with ⟨n, hn, hpredn⟩
      simp only [Bool.and_eq_true, decide_eq_true_eq] at hpredn
      rcases hpredn with ⟨hnid, hmatch⟩
      rcases hnp : n.parentId with _ | p
      · rw [hnp] at hmatch
        simp at hmatch
      · rw [hnp] at hmatch
        have hpm : p ∈ nodeIds ast.nodes := of_decide_eq_true hmatch
        have hnx : n = x := nodes_inj_of_nodup_ids hids n hn x hxn hnid
        subst hnx
        have hpnot : p ∉ r.1.map SceneNode.id := by
          intro hpmem
          rcases List.mem_map.mp hpmem with ⟨q, hq, hqid⟩
          have hxch : n ∈ childrenOf ast.nodes (SceneNode.id q) := by
            show n ∈ childrenOf ast.nodes q.id
            have hqid2 : q.id = p := hqid
            rw [hqid2, childrenOf, if_pos hpm]
            exact List.mem_filter.mpr ⟨hxn, by simp [hnp]⟩
          have hterm : (countKey SceneNode.id
              (childrenOf ast.nodes (SceneNode.id q)) n.id : Int)
              ≤ edgeSum SceneNode.id (childrenOf ast.nodes) r.1 n.id := by
            simp only [edgeSum]
            apply List.single_le_sum
            · intro v hv
              rcases List.mem_map.mp hv with ⟨m, _, rfl⟩
              exact Int.natCast_nonneg _
            · exact List.mem_map.mpr ⟨q, hq, rfl⟩
          have hck : 1 ≤ countKey SceneNode.id
              (childrenOf ast.nodes (SceneNode.id q)) n.id := by
            have hmemf : n ∈ (childrenOf ast.nodes
                (SceneNode.id q)).filter
                (fun c => decide (SceneNode.id c = n.id)) :=
              List.mem_filter.mpr ⟨hxch, by simp⟩
            exact List.length_pos.mpr (List.ne_nil_of_mem hmemf)
          have hle1 : deg0 n.id ≤ 1 := buildInDegree_le_one ast.nodes hids n.id
          have h1e : (1 : Int) ≤ edgeSum SceneNode.id
              (childrenOf ast.nodes) r.1 n.id :=
            le_trans (by exact_mod_cast hck) hterm
          omega
        rcases List.mem_map.mp hpm with ⟨q2, hq2n, hq2id⟩
        rcases List.mem_append.mp (hpermpart.mem_iff.mp hq2n) with hq2 | hq2
        · exact absurd (List.mem_map.mpr ⟨q2, hq2, hq2id⟩) hpnot
        · refine ⟨p, hnp, hpm, ?_⟩
          exact List.mem_map.mpr ⟨q2, hremperm.mem_iff.mpr hq2, hq2id⟩
    have hsan_id : ∀ l : List SceneNode,
        (l.map sanitize).map (fun m => m.id) = l.map (fun m => m.id) := by
      intro l
      rw [List.map_map]
      exact List.map_congr_left (fun m _ => rfl)
    refine ⟨?_, r.1.map sanitize, remaining.map sanitize, ?_, ?_, ?_⟩
    · show List.Perm ((topoSortNodes ast).map sanitize) (ast.nodes.map sanitize)
      exact hnd_perm.map sanitize
    · show (topoSortNodes ast).map sanitize = _
      rw [htopo, List.map_append]
    · intro pre c post heq p hp hpm
      rcases List.map_eq_append_iff.mp heq with ⟨pre0, rest0, hsplit, hpre0, hrest0⟩
      rcases rest0 with _ | ⟨c0, post0⟩
      · simp at hrest0
      · simp only [List.map_cons] at hrest0
        injection hrest0 with hc0 hpost0
        have hp0 : c0.parentId = some p := by
          rw [← hc0] at hp
          exact hp
        have hpin := hPBr pre0 c0 post0 hsplit p hp0 hpm
        rw [← hpre0, hsan_id]
        exact hpin
    · intro x hx
      rcases List.mem_map.mp hx with ⟨x0, hx0, rfl⟩
      rcases hremchar x0 hx0 with ⟨p, hp, hpm, hpin⟩
      refine ⟨p, hp, hpm, ?_⟩
      rw [hsan_id]
      exact hpin

/-- Counterexample input for the unrestricted C3: a parent with two
children sharing one id. -/
def c3DupAst : CanonicalSceneAst :=
  { scene := { id := "s", width := .fin 800, height := .fin 600 },
    nodes :=
      [{ id := "p", kind := "Group" },
       { id := "c", kind := "Group", parentId := some "p" },
       { id := "c", kind := "Group", parentId := some "p" }] }

/-- C3 counterexample: with duplicate ids the in-degree map collapses the
two `"c"` occurrences into one entry (in-degree 2); the parent dequeue
decrements it twice but only the occurrence that observes the zero is
enqueued, so one node is dropped: 3 nodes in, 2 out, and the output is not
a permutation of the input. -/
theorem c3_counterexample_duplicate_id_drops_node :
    c3DupAst.nodes.length = 3 ∧ (topoSort c3DupAst).length = 2 ∧
    ¬ List.Perm (topoSort c3DupAst) (c3DupAst.nodes.map sanitize) := by
  refine ⟨rfl, rfl, ?_⟩
  intro hperm
  have hlen := hperm.length_eq
  simp only [List.length_map] at hlen
  have h2 : (topoSort c3DupAst).length = 2 := rfl
  have h3 : c3DupAst.nodes.length = 3 := rfl
  rw [h2, h3] at hlen
  exact absurd hlen (by decide)

/-- Witness input for the amended C3: a child listed before its parent,
plus a two-node `parentId` cycle. -/
def c3Ast : CanonicalSceneAst :=
  { scene := { id := "s", width := .fin 800, height := .fin 600 },
    nodes :=
      [{ id := "child", kind := "Group", parentId := some "root" },
       { id := "root", kind := "Group" },
       { id := "x", kind := "Group", parentId := some "x2" },
       { id := "x2", kind := "Group", parentId := some "x" }] }

/-- Witness for the amended C3 at a concrete AST with distinct ids. -/
theorem c3_witness :
    List.Perm (topoSort c3Ast) (c3Ast.nodes.map sanitize) ∧
    ∃ done rem : List SceneNode,
      topoSort c3Ast = done ++ rem ∧
      (∀ pre c post, done = pre ++ c :: post → ∀ p, c.parentId = some p →
        p ∈ nodeIds c3Ast.nodes → p ∈ pre.map (fun m => m.id)) ∧
      (∀ x ∈ rem, ∃ p, x.parentId = some p ∧ p ∈ nodeIds c3Ast.nodes ∧
        p ∈ rem.map (fun m => m.id)) :=
  c3_parent_before_child_cycles_appended_no_drop c3Ast (by decide)

/-! ### Claim C1 — order invariance and key-order invariance of the
IR emitter -/

/-- The claim's four concrete nodes. -/
def c1Scene : SceneData := { id := "s", width := .fin 800, height := .fin 600 }

def c1NodeA : SceneNode := { id := "a", kind := "Rect", zIndex := some (.fin 2) }
def c1NodeB : SceneNode := { id := "b", kind := "Text", zIndex := some (.fin 1) }
def c1NodeC : SceneNode := { id := "c", kind := "Group", zIndex := some (.fin 3) }
def c1NodeD : SceneNode := { id := "d", kind := "Rect", zIndex := some (.fin 2) }

def c1Rot0 : CanonicalSceneAst :=
  { scene := c1Scene, nodes := [c1NodeA, c1NodeB, c1NodeC, c1NodeD] }
def c1Rot1 : CanonicalSceneAst :=
  { scene := c1Scene, nodes := [c1NodeB, c1NodeC, c1NodeD, c1NodeA] }
def c1Rot2 : CanonicalSceneAst :=
  { scene := c1Scene, nodes := [c1NodeC, c1NodeD, c1NodeA, c1NodeB] }
def c1Rot3 : CanonicalSceneAst :=
  { scene := c1Scene, nodes := [c1NodeD, c1NodeA, c1NodeB, c1NodeC] }

def c1InfA : CanonicalSceneAst :=
  { scene := c1Scene,
    nodes := [{ id := "n:z", kind := "Group", zIndex := some .posInf },
              { id := "n:a", kind := "Group", zIndex := some .posInf }] }
def c1InfB : CanonicalSceneAst :=
  { scene := c1Scene,
    nodes := [{ id := "n:a", kind := "Group", zIndex := some .posInf },
              { id := "n:z", kind := "Group", zIndex := some .posInf }] }

/-- C1 counterexample: with `zIndex = Infinity` on both nodes the sort
comparator computes `Infinity - Infinity = NaN`, coerced to `+0`, so the
stable sort leaks the input order and swapping the two nodes changes the
emitted bytes — order invariance fails without a finiteness restriction. -/
theorem c1_counterexample_nonfinite_zindex_breaks_invariance :
    List.Perm c1InfB.nodes c1InfA.nodes ∧
    c1InfB.scene = c1InfA.scene ∧
    c1InfB.bindings = c1InfA.bindings ∧
    c1InfB.animations = c1InfA.animations ∧
    emitSvjifIrArtifact c1InfB ≠ emitSvjifIrArtifact c1InfA := by
  refine ⟨List.Perm.swap _ _ _, rfl, rfl, rfl, ?_⟩
  intro h
  have h2 := congrArg Except.toOption h
  exact absurd h2 (by decide)

/-- C1 (amended): (i) for ASTs that agree on scene, bindings and
animations and whose node arrays are permutations of each other with
pairwise-distinct ids and finite (normalized) `zIndex` values,
`emitSvjifIrArtifact` produces identical output; (ii) `stableStringify`
gives byte-identical output on any two values that differ only in object
key order (equal `keyCanon` images with recursively distinct keys). -/
theorem c1_emit_order_invariance_amended :
    (∀ ast1 ast2 : CanonicalSceneAst, ast1.scene = ast2.scene →
      ast1.bindings = ast2.bindings → ast1.animations = ast2.animations →
      List.Perm ast1.nodes ast2.nodes → (nodeIds ast1.nodes).Nodup →
      (∀ n ∈ ast1.nodes, (normalizeZIndex n.zIndex).isFinite = true) →
      emitSvjifIrArtifact ast1 = emitSvjifIrArtifact ast2) ∧
    (∀ (v1 v2 : JsValue) (space : Option Nat),
      keysDistinct v1 = true → keysDistinct v2 = true →
      keyCanon v1 = keyCanon v2 →
      stableStringify v1 space = stableStringify v2 space) :=
  ⟨emit_perm_eq, stableStringify_key_reorder⟩

/-- Two objects that differ only in (nested) key order, for the C1
witness. -/
def c1ObjA : JsValue :=
  .vObj [("b", .vNum (.fin 1)),
         ("a", .vObj [("y", .vStr "v"), ("x", .vNull)])]
def c1ObjB : JsValue :=
  .vObj [("a", .vObj [("x", .vNull), ("y", .vStr "v")]),
         ("b", .vNum (.fin 1))]

/-- Witness for the amended C1: the claim's four concrete nodes yield the
same artifact under every cyclic rotation, and a key-reordered object
stringifies identically. -/
theorem c1_witness :
    emitSvjifIrArtifact c1Rot1 = emitSvjifIrArtifact c1Rot0 ∧
    emitSvjifIrArtifact c1Rot2 = emitSvjifIrArtifact c1Rot0 ∧
    emitSvjifIrArtifact c1Rot3 = emitSvjifIrArtifact c1Rot0 ∧
    stableStringify c1ObjA (some 2) = stableStringify c1ObjB (some 2) :=
  ⟨c1_emit_order_invariance_amended.1 c1Rot1 c1Rot0 rfl rfl rfl
      (@List.perm_append_comm _ [c1NodeB, c1NodeC, c1NodeD] [c1NodeA])
      (by decide) (by decide),
   c1_emit_order_invariance_amended.1 c1Rot2 c1Rot0 rfl rfl rfl
      (@List.perm_append_comm _ [c1NodeC, c1NodeD] [c1NodeA, c1NodeB])
      (by decide) (by decide),
   c1_emit_order_invariance_amended.1 c1Rot3 c1Rot0 rfl rfl rfl
      (@List.perm_append_comm _ [c1NodeD] [c1NodeA, c1NodeB, c1NodeC])
      (by decide) (by decide),
   c1_emit_order_invariance_amended.2 c1ObjA c1ObjB (some 2) rfl rfl rfl⟩

end Svjif
